import Mathlib

/-!
# Verification development for the editor repository

Shallow embedding of core/erowinfo.go (file identities, their views, hash bookkeeping),
core/sessions.go (stored sessions), core/parseutil/misc.go (rune searches, escapes, lines
and columns), util/uiutil/widget/texthistory.go (undo and redo),
util/uiutil/widget/texteditx.go (matching parentheses) and ui/ui.go (warping the pointer),
and theorems about them.
-/

set_option autoImplicit false

/-! ## crypto/sha1, used by bytesHash -/

abbrev Byte := Fin 256
abbrev Bytes := List Byte

def rotl32 (x n : Nat) : Nat := ((x <<< n) ||| (x >>> (32 - n))) % 2 ^ 32

def beWord (bs : List Nat) : Nat := bs.foldl (fun acc b => acc * 256 + b) 0

def beBytes : Nat → Nat → List Nat
  | 0, _ => []
  | n + 1, x => (x / 256 ^ n) % 256 :: beBytes n x

def sha1Pad (msg : List Nat) : List Nat :=
  let l := msg.length
  msg ++ [0x80] ++ List.replicate ((119 - l % 64) % 64) 0 ++ beBytes 8 (8 * l)

def blockWords : Nat → List Nat → List Nat
  | 0, _ => []
  | n + 1, bs => beWord (bs.take 4) :: blockWords n (bs.drop 4)

/-- Message schedule, newest word first. -/
def sha1Schedule : Nat → List Nat → List Nat
  | 0, ws => ws
  | n + 1, ws =>
    sha1Schedule n
      (rotl32 (ws.getD 2 0 ^^^ ws.getD 7 0 ^^^ ws.getD 13 0 ^^^ ws.getD 15 0) 1 :: ws)

structure Sha1State where
  a : Nat
  b : Nat
  c : Nat
  d : Nat
  e : Nat

def sha1Round (s : Sha1State) (iw : Nat × Nat) : Sha1State :=
  let i := iw.1
  let fk : Nat × Nat :=
    if i < 20 then ((s.b &&& s.c) ||| ((s.b ^^^ 0xFFFFFFFF) &&& s.d), 0x5A827999)
    else if i < 40 then (s.b ^^^ s.c ^^^ s.d, 0x6ED9EBA1)
    else if i < 60 then ((s.b &&& s.c) ||| (s.b &&& s.d) ||| (s.c &&& s.d), 0x8F1BBCDC)
    else (s.b ^^^ s.c ^^^ s.d, 0xCA62C1D6)
  { a := (rotl32 s.a 5 + fk.1 + s.e + fk.2 + iw.2) % 2 ^ 32
    b := s.a
    c := rotl32 s.b 30
    d := s.c
    e := s.d }

def sha1Block (h : Sha1State) (block : List Nat) : Sha1State :=
  let ws := (sha1Schedule 64 (blockWords 16 block).reverse).reverse
  let s := (List.range 80).zip ws |>.foldl sha1Round h
  { a := (h.a + s.a) % 2 ^ 32
    b := (h.b + s.b) % 2 ^ 32
    c := (h.c + s.c) % 2 ^ 32
    d := (h.d + s.d) % 2 ^ 32
    e := (h.e + s.e) % 2 ^ 32 }

def sha1Blocks : Nat → Sha1State → List Nat → Sha1State
  | 0, h, _ => h
  | n + 1, h, bs => sha1Blocks n (sha1Block h (bs.take 64)) (bs.drop 64)

def sha1Init : Sha1State :=
  { a := 0x67452301, b := 0xEFCDAB89, c := 0x98BADCFE, d := 0x10325476, e := 0xC3D2E1F0 }

def sha1 (msg : Bytes) : Bytes :=
  let p := sha1Pad (msg.map Fin.val)
  let h := sha1Blocks (p.length / 64) sha1Init p
  ([h.a, h.b, h.c, h.d, h.e].flatMap (beBytes 4)).map (fun n => Fin.ofNat n)


/-! ## core/erowinfo.go : file identities and their views -/

namespace UI

/-- Row state flags of package ui that erowinfo.go sets through Row.SetState. -/
inductive RowState where
  | Edited
  | NotExist
  | FsDiffer
  | Duplicate
  | DuplicateHighlight
  | Annotations
  | AnnotationsEdited
  deriving DecidableEq, Repr

end UI

namespace Core

/-- Instants as compared by time.Time.Equal. -/
abbrev Time := Int

/-- Identity of an ERow pointer. -/
abbrev RowId := Nat

/-- The part of os.FileInfo that erowinfo.go reads. -/
structure FileInfo where
  isDir : Bool
  modTime : Time
  deriving DecidableEq, Repr

/-- Errors of the os package, up to what os.IsNotExist distinguishes. -/
inductive OsError where
  | notExist
  | permission
  | other (errno : Nat)
  deriving DecidableEq, Repr

/-- Values of the Go error interface returned by the functions of erowinfo.go. -/
inductive GoError where
  | os (e : OsError)
  | notAFile (name : String)
  | textArea (code : Nat)
  | exec (code : Nat)
  | notADirectory
  | unexpectedERowType
  deriving DecidableEq, Repr

/-- Abnormal termination: a Go panic, or the recursion budget of the model used up. -/
inductive Fault where
  | panic (msg : String)
  | fuel
  deriving DecidableEq, Repr

/-- Calls that leave the process, in the order they are made (ghost state). -/
inductive Event where
  | stat (name : String)
  | readFile (name : String)
  | openFile (name : String)
  | write (name : String) (b : Bytes)
  | goimports (dir : String)
  | edError (e : GoError)
  | setBytes (row : RowId) (b : Bytes)
  | updateDuplicate (master dup : RowId) (allDisabled : Bool)
  | newERow (row : RowId)
  | listDir (row : RowId) (name : String)
  | setBytesClearHistory (row : RowId) (b : Bytes)
  deriving DecidableEq, Repr

/-- Modelled from the spec: the ERow struct and the Row and TextArea it owns are declared
outside erowinfo.go; these are the fields erowinfo.go reads and writes. Field bytesErr is the
error TextArea.Bytes returns, if any. -/
structure ERow where
  content : Bytes
  bytesErr : Option GoError
  state : UI.RowState → Bool
  disableTextAreaSetStrCallback : Bool

structure SavedHash where
  size : Nat
  hash : Bytes
  deriving DecidableEq, Repr

structure FsHash where
  modTime : Time
  hash : Bytes
  deriving DecidableEq, Repr

structure ERowInfo where
  ERows : List RowId
  name : String
  fi : Option FileInfo
  fiErr : Option OsError
  savedHash : SavedHash
  fsHash : FsHash
  deriving DecidableEq, Repr

/-- One file identity, the heap of ERow objects its pointers refer to, and the trace. -/
structure World where
  info : ERowInfo
  rows : RowId → ERow
  log : List Event

def World.emit (w : World) (ev : Event) : World :=
  { w with log := w.log ++ [ev] }

def osIsNotExist : Option OsError → Bool
  | some .notExist => true
  | _ => false

def isSpecialName (name : String) : Except Fault Bool :=
  match name.data with
  | [] => .error (.panic "index out of range")
  | c :: _ => .ok (c == '+')

def bytesHash (b : Bytes) : Bytes := sha1 b

/-- Go's filepath.Ext on a reversed path: the suffix from the last dot of the last element. -/
def filepathExtAux : List Char → List Char → List Char
  | [], _ => []
  | c :: rest, acc =>
    if c == '/' then []
    else if c == '.' then '.' :: acc
    else filepathExtAux rest (c :: acc)

def filepathExt (path : String) : String :=
  String.mk (filepathExtAux path.data.reverse [])

/-- Go's filepath.Dir, for the trace only. -/
def filepathDir (path : String) : String :=
  String.mk ((path.data.reverse.dropWhile (fun c => c != '/')).drop 1).reverse

def ERowInfo.HasFileinfo (info : ERowInfo) : Bool :=
  info.fi.isSome

def ERowInfo.IsFileButNotDir (info : ERowInfo) : Bool :=
  match info.fi with
  | some fi => !fi.isDir
  | none => false

def ERowInfo.IsDir (info : ERowInfo) : Bool :=
  match info.fi with
  | some fi => fi.isDir
  | none => false

def ERowInfo.IsNotExist (info : ERowInfo) : Bool :=
  osIsNotExist info.fiErr

/-- Modelled from the spec: Row.SetState of package ui sets one of the boolean row states. -/
def ERow.SetState (r : ERow) (s : UI.RowState) (v : Bool) : ERow :=
  { r with state := Function.update r.state s v }

/-- Modelled from the spec: TextArea.Bytes returns the buffer content, or an error. -/
def ERow.Bytes (r : ERow) : Except GoError Bytes :=
  match r.bytesErr with
  | some e => .error e
  | none => .ok r.content

def updateRowState (state : UI.RowState) (v : Bool) (w : World) : World :=
  { w with
    rows := w.info.ERows.foldl
      (fun rows erow => Function.update rows erow ((rows erow).SetState state v)) w.rows }

def UpdateExistsRowState (w : World) : World :=
  updateRowState .NotExist w.info.IsNotExist w

def UpdateFsDifferRowState (w : World) : World :=
  if !w.info.IsFileButNotDir then w
  else
    let h1 := w.info.fsHash.hash
    let h2 := w.info.savedHash.hash
    let differ := !(h1 == h2)
    updateRowState .FsDiffer differ w

def UpdateEditedRowState (w : World) : World :=
  if !w.info.IsFileButNotDir then w
  else
    match w.info.ERows with
    | [] => w
    | erow0 :: _ =>
      let (w, b) : World × Bytes :=
        match (w.rows erow0).Bytes with
        | .error err => (w.emit (.edError err), [])
        | .ok b => (w, b)
      let edited :=
        if b.length != w.info.savedHash.size then true
        else
          let hash2 := bytesHash b
          !(hash2 == w.info.savedHash.hash)
      updateRowState .Edited edited w

def setSavedHash (hash : Bytes) (size : Nat) (w : World) : World :=
  UpdateFsDifferRowState
    { w with info := { w.info with savedHash := { size := size, hash := hash } } }

def setFsHash (hash : Bytes) (w : World) : World :=
  match w.info.fi with
  | none => w
  | some fi =>
    UpdateFsDifferRowState
      { w with info := { w.info with fsHash := { modTime := fi.modTime, hash := hash } } }

/-- Source readFileInfo; st is what os.Stat(info.name) returns. -/
def readFileInfo (st : Except OsError FileInfo) (w : World) : Except Fault World := do
  if (← isSpecialName w.info.name) then
    return w
  let w := w.emit (.stat w.info.name)
  match st with
  | .error err =>
    -- keep old fi to allow file/dir detection
    return UpdateExistsRowState { w with info := { w.info with fiErr := some err } }
  | .ok fi =>
    return UpdateExistsRowState { w with info := { w.info with fi := some fi, fiErr := none } }

/-- Source readFsFile; rd is what ioutil.ReadFile returns, st the stat taken after it. -/
def readFsFile (rd : Except OsError Bytes) (st : Except OsError FileInfo) (w : World) :
    Except Fault (World × Except GoError Bytes) := do
  let w := w.emit (.readFile w.info.name)
  match rd with
  | .error err => return (w, .error (.os err))
  | .ok b =>
    let h := bytesHash b
    let w ← readFileInfo st w
    let w := setFsHash h w
    return (w, .ok b)

def updateFsHashIfNeeded (rd : Except OsError Bytes) (st : Except OsError FileInfo)
    (w : World) : Except Fault World := do
  if !w.info.IsFileButNotDir then
    return w
  match w.info.fi with
  | none => return w
  | some fi =>
    if fi.modTime != w.info.fsHash.modTime then
      let (w, _) ← readFsFile rd st w
      return w
    return w

/-- Outcomes of the calls UpdateDiskEvent makes: the stat, then (if reached) the read and
the stat after the read. -/
structure DiskEnv where
  stat : Except OsError FileInfo
  read : Except OsError Bytes
  statAfterRead : Except OsError FileInfo

def UpdateDiskEvent (env : DiskEnv) (w : World) : Except Fault World := do
  let w ← readFileInfo env.stat w
  if w.info.IsFileButNotDir then
    updateFsHashIfNeeded env.read env.statAfterRead w
  else
    return w

def AddERow (info : ERowInfo) (erow : RowId) : Except Fault ERowInfo :=
  -- sanity check
  if info.ERows.any (fun e => e == erow) then .error (.panic "adding same erow twice")
  else .ok { info with ERows := info.ERows ++ [erow] }

/-- Go's copy(w[i:], w[i+1:]) on a slice w: the elements from i+1 on move one place down,
the last place keeps its value. -/
def copyDown (w : List RowId) (i : Nat) : List RowId :=
  w.take i ++ w.drop (i + 1) ++ w.drop (w.length - 1)

def RemoveERowLoop (info : ERowInfo) (erow : RowId) : List RowId → Nat → Except Fault ERowInfo
  | [], _ => .error (.panic "erow not found")
  | e :: rest, i =>
    if e == erow then
      let w := info.ERows
      let w := copyDown w i
      let w := w.take (w.length - 1)
      .ok { info with ERows := w }
    else RemoveERowLoop info erow rest (i + 1)

def RemoveERow (info : ERowInfo) (erow : RowId) : Except Fault ERowInfo :=
  RemoveERowLoop info erow info.ERows 0

def disableCB (v : Bool) (w : World) : World :=
  { w with
    rows := w.info.ERows.foldl
      (fun rows e => Function.update rows e { rows e with disableTextAreaSetStrCallback := v })
      w.rows }

def allDisabled (w : World) : Bool :=
  w.info.ERows.all (fun e => (w.rows e).disableTextAreaSetStrCallback)

/-- Modelled from the spec: the handler an ERow registers for its TextArea set-string event
is not in erowinfo.go. It mirrors the change to the other views through
SetRowsStrFromMaster unless the view has disableTextAreaSetStrCallback set. The argument
mirror stands for info.SetRowsStrFromMaster. -/
def ERow.setStrCallback (mirror : World → RowId → Except Fault World) (w : World)
    (erow : RowId) : Except Fault World :=
  if (w.rows erow).disableTextAreaSetStrCallback then .ok w
  else mirror w erow

/-- Modelled from the spec: TextArea.UpdateDuplicate gives the duplicate the content of the
master and fires the set-string event of the duplicate. The trace records whether every
view of the identity had its callback disabled at that moment. -/
def TextArea.UpdateDuplicate (mirror : World → RowId → Except Fault World) (w : World)
    (master dup : RowId) : Except Fault World :=
  let w := w.emit (.updateDuplicate master dup (allDisabled w))
  let w := { w with
    rows := Function.update w.rows dup { w.rows dup with content := (w.rows master).content } }
  ERow.setStrCallback mirror w dup

/-- Modelled from the spec: TextArea.SetBytes replaces the content of the view and fires
its set-string event. -/
def TextArea.SetBytes (mirror : World → RowId → Except Fault World) (w : World)
    (erow : RowId) (b : Bytes) : Except Fault World :=
  let w := w.emit (.setBytes erow b)
  let w := { w with rows := Function.update w.rows erow { w.rows erow with content := b } }
  ERow.setStrCallback mirror w erow

def updateDuplicatesBytesLoop (mirror : World → RowId → Except Fault World) (erow : RowId) :
    List RowId → World → Except Fault World
  | [], w => .ok w
  | e :: rest, w =>
    if e == erow then updateDuplicatesBytesLoop mirror erow rest w
    else do
      let w ← TextArea.UpdateDuplicate mirror w erow e
      updateDuplicatesBytesLoop mirror erow rest w

def updateDuplicatesBytes (mirror : World → RowId → Except Fault World) (w : World)
    (erow : RowId) : Except Fault World :=
  updateDuplicatesBytesLoop mirror erow w.info.ERows w

/-- Source SetRowsStrFromMaster. The first argument bounds the depth of the recursion
through the set-string callbacks. -/
def SetRowsStrFromMaster : Nat → World → RowId → Except Fault World
  | 0, _, _ => .error .fuel
  | fuel + 1, w, erow =>
    if !w.info.IsFileButNotDir then .ok w
    else do
      -- disable callback recursion
      let w := disableCB true w
      let w ← updateDuplicatesBytes (SetRowsStrFromMaster fuel) w erow
      let w := UpdateEditedRowState w
      return disableCB false w

/-- Source SetRowsBytes; the set-string callback of the first view may recurse into
SetRowsStrFromMaster with the given budget. -/
def SetRowsBytes (fuel : Nat) (w : World) (b : Bytes) : Except Fault World :=
  if !w.info.IsFileButNotDir then .ok w
  else
    match w.info.ERows with
    | [] => .ok w
    | erow0 :: _ => TextArea.SetBytes (SetRowsStrFromMaster fuel) w erow0 b

/-- Outcomes of the calls SaveFile makes, in the order it makes them. -/
structure SaveEnv where
  goimports : Except GoError Bytes
  openErr : Option OsError
  writeErr : Option OsError
  stat : Except OsError FileInfo

def saveFsFile (env : SaveEnv) (w : World) (b : Bytes) :
    Except Fault (World × Option GoError) := do
  let w := w.emit (.openFile w.info.name)
  match env.openErr with
  | some err => return (w, some (.os err))
  | none =>
    let w := w.emit (.write w.info.name b)
    match env.writeErr with
    | some err => return (w, some (.os err))
    | none =>
      -- update data
      let h := bytesHash b
      let w ← readFileInfo env.stat w
      let w := setFsHash h w
      let w := setSavedHash h b.length w
      return (w, none)

def saveFile (env : SaveEnv) (w : World) (b : Bytes) :
    Except Fault (World × Option Bytes × Bool × Option GoError) := do
  if !w.info.IsFileButNotDir then
    return (w, none, false, some (.notAFile w.info.name))
  -- run go imports for go content, updates content string
  let (w, b, changes) : World × Bytes × Bool :=
    if filepathExt w.info.name == ".go" then
      let w := w.emit (.goimports (filepathDir w.info.name))
      match env.goimports with
      | .ok u => (w, u, true)
      | .error _ => (w, b, false)
    else (w, b, false)
  let (w, err) ← saveFsFile env w b
  match err with
  | some err => return (w, none, changes, some err)
  | none => return (w, some b, changes, none)

/-- Source SaveFile: save file and update rows. The budget is handed to SetRowsBytes. -/
def SaveFile (fuel : Nat) (env : SaveEnv) (w : World) : Except Fault (World × Option GoError) := do
  match w.info.ERows with
  | [] => return (w, none)
  | erow0 :: _ =>
    -- read from one of the erows
    match (w.rows erow0).Bytes with
    | .error err => return (w, some err)
    | .ok b =>
      -- save
      let (w, b2, _, err) ← saveFile env w b
      match err with
      | some err => return (w, some err)
      | none =>
        -- update all erows
        let w ← SetRowsBytes fuel w (b2.getD [])
        return (w, none)

end Core

/-! ### Sample states -/

namespace Core

def sampleRow : ERow :=
  { content := [], bytesErr := none, state := fun _ => false,
    disableTextAreaSetStrCallback := false }

def sampleFile : ERowInfo :=
  { ERows := [0, 1], name := "a.txt", fi := some { isDir := false, modTime := 5 },
    fiErr := none, savedHash := { size := 0, hash := [] }, fsHash := { modTime := 5, hash := [] } }

def sampleWorld : World :=
  { info := sampleFile, rows := fun _ => sampleRow, log := [] }

/-- The bytes UpdateEditedRowState compares: the content of the view, empty when
TextArea.Bytes fails. -/
def bytesOrEmpty (r : ERow) : Bytes :=
  match r.Bytes with
  | .error _ => []
  | .ok b => b

/-- The sample regular file with one view holding the bytes b, after a save of the bytes
b0: savedHash and fsHash are what saveFsFile leaves (setSavedHash(h, len(b)) with h the
digest of the written bytes). -/
def savedThenTypedWorld (b0 b : Bytes) : World :=
  { info := { sampleFile with
                ERows := [0], savedHash := { size := b0.length, hash := bytesHash b0 },
                fsHash := { modTime := 5, hash := bytesHash b0 } },
    rows := fun _ => { sampleRow with content := b }, log := [] }


/-- The sample regular file after its modification time on disk moved from 5 to 7. -/
def staleWorld : World :=
  { info := { sampleFile with fi := some { isDir := false, modTime := 7 } },
    rows := fun _ => sampleRow, log := [] }

/-- The sample regular file with view 0 holding the bytes 1, 2 and view 1 empty. -/
def mirrorWorld : World :=
  { info := sampleFile,
    rows := fun e => if e = 0 then { sampleRow with content := [1, 2] } else sampleRow,
    log := [] }

def sampleDiskEnv : DiskEnv :=
  { stat := .ok { isDir := false, modTime := 7 }, read := .ok [1, 2],
    statAfterRead := .ok { isDir := false, modTime := 7 } }


/-- View lists obtained from the empty list by calls of AddERow and RemoveERow that
return. -/
inductive ERowsBuilt : ERowInfo → Prop where
  | empty (info : ERowInfo) (h : info.ERows = []) : ERowsBuilt info
  | add (info next : ERowInfo) (erow : RowId) (hb : ERowsBuilt info)
      (h : AddERow info erow = .ok next) : ERowsBuilt next
  | remove (info next : ERowInfo) (erow : RowId) (hb : ERowsBuilt info)
      (h : RemoveERow info erow = .ok next) : ERowsBuilt next


/-- The condition of C6 in the words of the spec: the identity is a regular file and the
modification time of the cached stat is not equal to fsHash.modTime. -/
def ERowInfo.modTimeChanged (info : ERowInfo) : Bool :=
  match info.fi with
  | some fi => !fi.isDir && fi.modTime != info.fsHash.modTime
  | none => false

/-- True when the trace of the second state extends that of the first by a read of the
file, possibly followed by further calls. -/
def readsFile (w next : World) : Prop :=
  ∃ tail, next.log = w.log ++ Event.readFile w.info.name :: tail


/-- Frame on the views: in every ERow the content, the result of TextArea.Bytes and the
callback flag are the same in both states, and so is every row state outside the list. -/
def ViewsKeep (w next : World) (changed : List UI.RowState) : Prop :=
  ∀ e, (next.rows e).content = (w.rows e).content ∧
    (next.rows e).bytesErr = (w.rows e).bytesErr ∧
    (next.rows e).disableTextAreaSetStrCallback = (w.rows e).disableTextAreaSetStrCallback ∧
    ∀ t, t ∉ changed → (next.rows e).state t = (w.rows e).state t

/-- Frame on the identity: the view list, the name and the saved hash are the same. -/
def InfoKeep (w next : World) : Prop :=
  next.info.ERows = w.info.ERows ∧ next.info.name = w.info.name ∧
    next.info.savedHash = w.info.savedHash


/-- The bytes saveFile hands to saveFsFile for buffer content b: the output of goimports when
the name has extension .go and goimports succeeds, otherwise b itself. -/
def writtenBytes (env : SaveEnv) (name : String) (b : Bytes) : Bytes :=
  if filepathExt name == ".go" then
    match env.goimports with
    | .ok u => u
    | .error _ => b
  else b

/-- The trace saveFile leaves before it calls saveFsFile. -/
def afterGoImports (w : World) : World :=
  if filepathExt w.info.name == ".go" then w.emit (.goimports (filepathDir w.info.name)) else w

def sampleSaveEnv : SaveEnv :=
  { goimports := .error (.exec 1), openErr := none, writeErr := none,
    stat := .ok { isDir := false, modTime := 9 } }

def failingSaveEnv : SaveEnv :=
  { sampleSaveEnv with openErr := some .permission }

/-- The sample regular file opened in two views that hold the bytes 1, 2. -/
def editedWorld : World :=
  { info := sampleFile, rows := fun _ => { sampleRow with content := [1, 2] }, log := [] }

/-- An identity without views. -/
def noViewsWorld : World :=
  { info := { sampleFile with ERows := [] }, rows := fun _ => sampleRow, log := [] }

/-- The sample regular file with one view, as loading the empty file leaves it: savedHash
and fsHash hold the digest of the empty content and the view is empty. -/
def loadedWorld : World :=
  { info := { sampleFile with
                ERows := [0], savedHash := { size := 0, hash := bytesHash [] },
                fsHash := { modTime := 5, hash := bytesHash [] } },
    rows := fun _ => sampleRow, log := [] }

/-- Outcomes of a save during which the name comes to denote a directory between the write
and the stat that follows it. -/
def dirAfterWriteEnv : SaveEnv :=
  { sampleSaveEnv with stat := .ok { isDir := true, modTime := 9 } }

end Core

/-! ## core/parseutil/misc.go : rune searches -/

namespace Parseutil

/-- Go's utf8.RuneError, the rune U+FFFD. -/
def RuneError : Char := Char.ofNat 0xFFFD

/-- Go's len(s) for a valid UTF-8 string given by its runes: the number of bytes. -/
def byteLen (s : List Char) : Nat :=
  (s.map Char.utf8Size).sum

/-- Loop of source IndexFunc. Strings are valid UTF-8 and given by their runes: the loop sits
at byte offset i with the runes of s[i:] ahead, and utf8.DecodeRuneInString returns the next
rune and its encoded size. The Go func f may carry state (a closure), threaded as st. -/
def IndexFuncLoop {σ : Type} (truth : Bool) (f : σ → Char → Bool × σ) :
    List Char → Int → σ → (Int × Int) × σ
  | [], _, st => ((-1, 0), st)
  | r :: rest, i, st =>
    let size : Int := r.utf8Size
    if r = RuneError then ((-1, 0), st)
    else
      let res := f st r
      if res.1 == truth then ((i, size), res.2)
      else IndexFuncLoop truth f rest (i + size) res.2

def IndexFunc {σ : Type} (s : List Char) (truth : Bool) (f : σ → Char → Bool × σ) (st : σ) :
    (Int × Int) × σ :=
  IndexFuncLoop truth f s 0 st

/-- Loop of source LastIndexFunc: the loop sits at byte offset i with the runes of s[:i]
behind it, given last rune first; utf8.DecodeLastRuneInString returns the last of them and
its encoded size. -/
def LastIndexFuncLoop {σ : Type} (truth : Bool) (f : σ → Char → Bool × σ) :
    List Char → Int → σ → (Int × Int) × σ
  | [], _, st => ((-1, 0), st)
  | r :: rest, i, st =>
    let size : Int := r.utf8Size
    if r = RuneError then ((-1, 0), st)
    else
      let i := i - size
      let res := f st r
      if res.1 == truth then ((i, size), res.2)
      else LastIndexFuncLoop truth f rest i res.2

def LastIndexFunc {σ : Type} (s : List Char) (truth : Bool) (f : σ → Char → Bool × σ)
    (st : σ) : (Int × Int) × σ :=
  LastIndexFuncLoop truth f s.reverse (byteLen s) st

/-- The closure f2 of ExpandIndexFunc and ExpandLastIndexFunc; its state is the counter c. -/
def expandF2 (max : Int) (truth : Bool) (f : Char → Bool) (c : Int) (ru : Char) : Bool × Int :=
  let c := c + 1
  if c > max then (truth, c)
  else (f ru, c)

/-- Source ExpandIndexFunc: returns -1 if max was passed. -/
def ExpandIndexFunc (str : List Char) (max : Int) (truth : Bool) (f : Char → Bool) : Int :=
  let res := IndexFunc str truth (expandF2 max truth f) 0
  let i := res.1.1
  let c := res.2
  if c > max then -1
  else if i < 0 then byteLen str
  else i

/-- Source ExpandLastIndexFunc: returns -1 if max was passed. -/
def ExpandLastIndexFunc (str : List Char) (max : Int) (truth : Bool) (f : Char → Bool) : Int :=
  let res := LastIndexFunc str truth (expandF2 max truth f) 0
  let i := res.1.1
  let size := res.1.2
  let c := res.2
  if c > max then -1
  else if i < 0 then 0
  else i + size

/-- The value ExpandIndexFunc computes, by recursion on the runes ahead with the number of
calls of f still allowed and the current byte offset. -/
def expandSpec (truth : Bool) (f : Char → Bool) : List Char → Nat → Int → Int
  | [], _, i => i
  | _ :: _, 0, _ => -1
  | r :: rest, b + 1, i =>
    if f r == truth then i else expandSpec truth f rest b (i + (r.utf8Size : Int))

/-- The value ExpandLastIndexFunc computes, by recursion on the runes behind (last first). -/
def expandLastSpec (truth : Bool) (f : Char → Bool) : List Char → Nat → Int → Int
  | [], _, _ => 0
  | _ :: _, 0, _ => -1
  | r :: rest, b + 1, i =>
    if f r == truth then i else expandLastSpec truth f rest b (i - (r.utf8Size : Int))

end Parseutil

/-! ## core/sessions.go : stored sessions -/

namespace Core

/-- A float64, carried as its IEEE 754 bit pattern: sessions.go stores and copies these
values and never computes with them. -/
structure Float64 where
  bits : Nat
  deriving DecidableEq, Repr

/-- Source RowState of sessions.go (used in sessions and reopenrow). -/
structure RowState where
  TbStr : String
  TbCursorIndex : Int
  TaCursorIndex : Int
  TaOffsetIndex : Int
  StartPercent : Float64
  deriving DecidableEq, Repr

/-- Source ColumnState; Rows is a slice of pointers, none standing for nil. -/
structure ColumnState where
  StartPercent : Float64
  Rows : List (Option RowState)
  deriving DecidableEq, Repr

/-- Source Session; Columns is a slice of pointers, none standing for nil. -/
structure Session where
  Name : String
  RootTbStr : String
  Columns : List (Option ColumnState)
  deriving DecidableEq, Repr

set_option linter.dupNamespace false in
/-- Source Sessions: a slice of pointers to sessions. An entry is none when the pointer is
nil, which is what the JSON decoder stores for a null element of the array. -/
structure Sessions where
  Sessions : List (Option Session)
  deriving DecidableEq, Repr

/-- Errors returned by the session commands. -/
inductive SessionsError where
  | missingName (cmd : String)
  | notFound (cmd : String) (name : String)
  | os (e : OsError)
  | json (code : Nat)
  deriving DecidableEq, Repr

/-- Modelled from the spec: a toolbarparser.Part, as the strings Str() of its arguments; the
first is the command name. -/
structure Part where
  Args : List String
  deriving DecidableEq, Repr

/-- What the sessions file holds: os.Open fails, or the JSON does not decode, or it decodes
to a session list. -/
inductive SessionsFile where
  | openFails (e : OsError)
  | malformed (code : Nat)
  | stored (ss : Sessions)
  deriving DecidableEq, Repr

/-- Calls on the sessions file, in order (ghost state). -/
inductive SessionsEvent where
  | read
  | save (ss : Sessions)
  deriving DecidableEq, Repr

/-- Outcomes of the calls Sessions.save makes. -/
structure SessionsSaveEnv where
  openErr : Option OsError
  encodeErr : Option Nat
  deriving DecidableEq, Repr

/-- Result of a session command: the returned error, the file afterwards and the trace. -/
structure SessionsResult where
  err : Option SessionsError
  file : SessionsFile
  log : List SessionsEvent
  deriving DecidableEq, Repr

/-- Source NewSessions: a file that does not exist gives the empty session list. -/
def NewSessions (file : SessionsFile) : Except SessionsError Sessions :=
  match file with
  | .openFails e =>
    if osIsNotExist (some e) then
      -- empty sessions if it doesn't exist
      .ok { Sessions := [] }
    else .error (.os e)
  | .malformed code => .error (.json code)
  | .stored ss => .ok ss

/-- Source Sessions.save: returns the error and the file afterwards. -/
def Sessions.save (ss : Core.Sessions) (env : SessionsSaveEnv) (file : SessionsFile) :
    Option SessionsError × SessionsFile :=
  match env.openErr with
  | some e => (some (.os e), file)
  | none =>
    match env.encodeErr with
    | some code => (some (.json code), .malformed code)
    | none => (none, .stored ss)

/-- The Go runtime panic raised by reading a field through a nil pointer. -/
def nilDereference : Fault :=
  .panic "invalid memory address or nil pointer dereference"

/-- The range loops of deleteSession and saveSession: index of the first session with the
name. The test s.Name == sessionName reads through the pointer s and panics on a nil
entry. -/
def findSession (sessionName : String) : List (Option Session) → Nat → Except Fault (Option Nat)
  | [], _ => .ok none
  | none :: _, _ => .error nilDereference
  | some s :: rest, i =>
    if s.Name == sessionName then .ok (some i)
    else findSession sessionName rest (i + 1)

/-- Source deleteSession. -/
def deleteSession (env : SessionsSaveEnv) (file : SessionsFile) (part : Part) :
    Except Fault SessionsResult :=
  if part.Args.length != 2 then
    .ok { err := some (.missingName "deletesession"), file := file, log := [] }
  else
    let sessionName := part.Args.getD 1 ""
    match NewSessions file with
    | .error err => .ok { err := some err, file := file, log := [.read] }
    | .ok ss =>
      match findSession sessionName ss.Sessions 0 with
      | .error f => .error f
      | .ok none =>
        .ok { err := some (.notFound "deletesession" sessionName), file := file, log := [.read] }
      | .ok (some i) =>
        let u := ss.Sessions
        let ss : Sessions := { ss with Sessions := u.take i ++ u.drop (i + 1) }
        let r := ss.save env file
        .ok { err := r.1, file := r.2, log := [.read, .save ss] }

/-- Source saveSession; snapshot is the value of NewSessionFromEditor(ed). -/
def saveSession (env : SessionsSaveEnv) (file : SessionsFile) (snapshot : Session)
    (part : Part) : Except Fault SessionsResult :=
  if part.Args.length != 2 then
    .ok { err := some (.missingName "savesession"), file := file, log := [] }
  else
    let sessionName := part.Args.getD 1 ""
    let s1 : Session := { snapshot with Name := sessionName }
    match NewSessions file with
    | .error err => .ok { err := some err, file := file, log := [.read] }
    | .ok ss =>
      match findSession sessionName ss.Sessions 0 with
      | .error f => .error f
      | .ok found =>
        let ss : Sessions :=
          match found with
          -- replace session already stored
          | some i => { ss with Sessions := ss.Sessions.set i (some s1) }
          -- append if a new session
          | none => { ss with Sessions := ss.Sessions ++ [some s1] }
        -- save to file
        let r := ss.save env file
        .ok { err := r.1, file := r.2, log := [.read, .save ss] }

/-- The names of the sessions of a list, nil entries left out. -/
def sessionNames (l : List (Option Session)) : List String :=
  l.filterMap (fun o => o.map Session.Name)

def sampleSession (name : String) : Session :=
  { Name := name, RootTbStr := "", Columns := [] }

def sampleSessions : Sessions :=
  { Sessions := [some (sampleSession "a"), some (sampleSession "b"), some (sampleSession "a")] }

/-- The list decoded from the JSON array [null, S] with S a session named a. -/
def nullFirstSessions : Sessions :=
  { Sessions := [none, some (sampleSession "a")] }

/-- The list decoded from the JSON array [null]. -/
def nullOnlySessions : Sessions :=
  { Sessions := [none] }

def okSessionsSaveEnv : SessionsSaveEnv :=
  { openErr := none, encodeErr := none }

end Core

/-! ## util/uiutil/widget/texthistory.go : undo and redo -/

namespace Widget

/-- Modelled from the spec: the TextCursorState struct is declared outside texthistory.go. A
cursor is an index into the buffer plus an optional selection anchor index; selectionOn and
selectionIndex read the anchor (the source reads selectionIndex only when selectionOn). -/
structure TextCursorState where
  index : Int
  selection : Option Int
  deriving DecidableEq, Repr

def TextCursorState.selectionOn (s : TextCursorState) : Bool :=
  s.selection.isSome

def TextCursorState.selectionIndex (s : TextCursorState) : Int :=
  s.selection.getD 0

/-- Modelled from the spec: TextCursor.SetIndex. -/
def TextCursor.SetIndex (tc : TextCursorState) (v : Int) : TextCursorState :=
  { tc with index := v }

/-- Modelled from the spec: TextCursor.SetSelection(anchorIndex, index) turns the selection on
with that anchor and sets the index. -/
def TextCursor.SetSelection (_tc : TextCursorState) (si ci : Int) : TextCursorState :=
  { index := ci, selection := some si }

/-- Modelled from the spec: TextCursor.SetSelectionOff. -/
def TextCursor.SetSelectionOff (tc : TextCursorState) : TextCursorState :=
  { tc with selection := none }

def TextCursor.SelectionOn (tc : TextCursorState) : Bool := tc.selectionOn

def TextCursor.SelectionIndex (tc : TextCursorState) : Int := tc.selectionIndex

def TextCursor.Index (tc : TextCursorState) : Int := tc.index

/-- Modelled from the spec: TextCursor.panicIfEditing; calling Undo or Redo while a
transaction is Recording is fatal. -/
def TextCursor.panicIfEditing (editing : Bool) : Except Core.Fault Unit :=
  if editing then .error (.panic "editing") else .ok ()

/-- Out-of-range error of the buffer. -/
inductive BufError where
  | outOfRange
  deriving DecidableEq, Repr

/-- Modelled from the spec: insert(offset, bytes) on the buffer te.brw, failing with an
out-of-range error when the offset exceeds the buffer bounds. -/
def bufInsert (b : Bytes) (i : Int) (p : Bytes) : Except BufError Bytes :=
  if i < 0 ∨ i > b.length then .error .outOfRange
  else .ok (b.take i.toNat ++ p ++ b.drop i.toNat)

/-- Modelled from the spec: delete(offset, length) on the buffer te.brw, failing with an
out-of-range error when offset or length exceed the buffer bounds. -/
def bufDelete (b : Bytes) (i n : Int) : Except BufError Bytes :=
  if i < 0 ∨ n < 0 ∨ i + n > b.length then .error .outOfRange
  else .ok (b.take i.toNat ++ b.drop (i + n).toNat)

/-- Modelled from the spec: an iout.UndoRedo, one primitive operation of an Edit: the bytes S
inserted at Index (D false) or deleted at Index (D true). -/
structure UndoRedo where
  Index : Int
  S : Bytes
  D : Bool
  deriving DecidableEq, Repr

/-- Modelled from the spec: UndoRedo.Apply re-applies the operation on redo and applies its
inverse on undo (an insert becomes a delete and vice versa). -/
def UndoRedo.Apply (ur : UndoRedo) (w : Bytes) (redo : Bool) : Except BufError Bytes :=
  if ur.D == redo then bufDelete w ur.Index ur.S.length
  else bufInsert w ur.Index ur.S

/-- Modelled from the spec: a history.Edit, an ordered sequence of primitive operations plus
the cursor states captured at the transaction boundaries (nil until captured). -/
structure Edit where
  list : List UndoRedo
  PreState : Option TextCursorState
  PostState : Option TextCursorState
  deriving DecidableEq, Repr

/-- Modelled from the spec: Edit.Append adds an operation at the end of the Edit. -/
def Edit.Append (edit : Edit) (ur : UndoRedo) : Edit :=
  { edit with list := edit.list ++ [ur] }

/-- Applies operations in list order until one fails; returns the buffer reached and the
error, if any. -/
def applyAll (redo : Bool) : List UndoRedo → Bytes → Bytes × Option BufError
  | [], w => (w, none)
  | ur :: rest, w =>
    match ur.Apply w redo with
    | .error e => (w, some e)
    | .ok w2 => applyAll redo rest w2

/-- Modelled from the spec: a history.History, a bounded list of Edits (oldest first) with a
current position: cur entries are done, the entries from cur on are pending redo. -/
structure History where
  entries : List Edit
  cur : Nat
  max : Nat
  deriving DecidableEq, Repr

def NewHistory (max : Nat) : History :=
  { entries := [], cur := 0, max := max }

/-- Modelled from the spec: History.Append drops the entries pending redo, adds the Edit and
evicts the oldest entries beyond the maximum count. -/
def History.Append (h : History) (edit : Edit) : History :=
  let es := h.entries.take h.cur ++ [edit]
  let es := es.drop (es.length - h.max)
  { h with entries := es, cur := es.length }

/-- Modelled from the spec: History.UndoRedo returns the prior Edit and moves the position
back one slot (undo), or the next Edit and moves it forward one slot (redo); when no Edit is
available in that direction it returns nil and changes nothing. -/
def History.UndoRedo (h : History) (redo : Bool) : Option Edit × History :=
  if redo then
    match h.entries.get? h.cur with
    | some e => (some e, { h with cur := h.cur + 1 })
    | none => (none, h)
  else
    match h.cur with
    | 0 => (none, h)
    | c + 1 =>
      match h.entries.get? c with
      | some e => (some e, { h with cur := c })
      | none => (none, h)

def History.Clear (h : History) : History :=
  { h with entries := [], cur := 0 }

def History.ClearForward (h : History) : History :=
  { h with entries := h.entries.take h.cur }

/-- Requests the TextEdit receives from texthistory.go (ghost state). -/
inductive TeEvent where
  | makeIndexVisible (index : Int)
  | makeRangeVisible (index len : Int)
  | changes
  deriving DecidableEq, Repr

/-- Modelled from the spec: the parts of the TextEdit that texthistory.go uses: the buffer
brw, the state of its TextCursor and the visibility and change requests made so far. -/
structure TextEdit where
  brw : Bytes
  TextCursor : TextCursorState
  log : List TeEvent
  deriving DecidableEq, Repr

/-- Source TextHistory: editable string history. -/
structure TextHistory where
  hist : History
  te : TextEdit
  edit : Option Edit
  deriving DecidableEq, Repr

def NewTextHistory (es : TextEdit) : TextHistory :=
  { hist := NewHistory 128, te := es, edit := none }

def TextHistory.clear (th : TextHistory) : TextHistory :=
  { th with hist := th.hist.Clear }

def TextHistory.ClearForward (th : TextHistory) : TextHistory :=
  { th with hist := th.hist.ClearForward }

def TextHistory.New (th : TextHistory) (maxEntries : Nat) : TextHistory :=
  { th with hist := NewHistory maxEntries }

def TextHistory.cursorState (th : TextHistory) : Option TextCursorState :=
  some th.te.TextCursor

def TextHistory.BeginEdit (th : TextHistory) : Except Core.Fault TextHistory :=
  match th.edit with
  | some _ => .error (.panic "already editing")
  | none =>
    let edit : Edit := { list := [], PreState := none, PostState := none }
    .ok { th with edit := some { edit with PreState := th.cursorState } }

/-- Source EndEdit; th.edit is dereferenced, so the call panics when no edit is open. -/
def TextHistory.EndEdit (th : TextHistory) : Except Core.Fault TextHistory :=
  match th.edit with
  | none => .error (.panic "nil pointer dereference")
  | some edit =>
    let edit := { edit with PostState := th.cursorState }
    .ok { th with hist := th.hist.Append edit, edit := none }

/-- Source Append; th.edit is dereferenced, so the call panics when no edit is open. -/
def TextHistory.Append (th : TextHistory) (ur : UndoRedo) : Except Core.Fault TextHistory :=
  match th.edit with
  | none => .error (.panic "nil pointer dereference")
  | some edit => .ok { th with edit := some (edit.Append ur) }

/-- Source restoreCursorState; the type assertion panics on nil. -/
def TextHistory.restoreCursorState (th : TextHistory) (data : Option TextCursorState) :
    Except Core.Fault TextHistory :=
  match data with
  | none => .error (.panic "interface conversion: interface is nil")
  | some state =>
    -- set state through the proper function calls (can't assign directly)
    let tc := th.te.TextCursor
    let tc :=
      if state.selectionOn then TextCursor.SetSelection tc state.selectionIndex state.index
      else TextCursor.SetIndex (TextCursor.SetSelectionOff tc) state.index
    -- make index visible
    let ev :=
      if !TextCursor.SelectionOn tc then TeEvent.makeIndexVisible (TextCursor.Index tc)
      else
        let a := TextCursor.SelectionIndex tc
        let b := TextCursor.Index tc
        let ab : Int × Int := if a > b then (b, a) else (a, b)
        TeEvent.makeRangeVisible ab.1 (ab.2 - ab.1)
    .ok { th with te := { th.te with TextCursor := tc, log := th.te.log ++ [ev] } }

/-- Modelled from the spec: Edit.ApplyUndoRedo. Redo re-applies the operations forward and
restores the post-state; undo applies the inverse operations in reverse order and restores
the pre-state. An operation that fails stops the call with its error. -/
def Edit.ApplyUndoRedo (edit : Edit) (th : TextHistory) (redo : Bool)
    (restore : TextHistory → Option TextCursorState → Except Core.Fault TextHistory) :
    Except Core.Fault (TextHistory × Option BufError) :=
  let ops := if redo then edit.list else edit.list.reverse
  let res := applyAll redo ops th.te.brw
  let th := { th with te := { th.te with brw := res.1 } }
  match res.2 with
  | some err => .ok (th, some err)
  | none =>
    match restore th (if redo then edit.PostState else edit.PreState) with
    | .error f => .error f
    | .ok th => .ok (th, none)

def TextHistory.undoRedo (th : TextHistory) (redo : Bool) :
    Except Core.Fault (TextHistory × Option BufError) :=
  match TextCursor.panicIfEditing th.edit.isSome with
  | .error f => .error f
  | .ok () =>
    let r := th.hist.UndoRedo redo
    let th := { th with hist := r.2 }
    match r.1 with
    | none => .ok (th, none)
    | some edit =>
      match edit.ApplyUndoRedo th redo TextHistory.restoreCursorState with
      | .error f => .error f
      | .ok (th, err) =>
        -- deferred th.te.changes()
        .ok ({ th with te := { th.te with log := th.te.log ++ [.changes] } }, err)

def TextHistory.Undo (th : TextHistory) : Except Core.Fault (TextHistory × Option BufError) :=
  th.undoRedo false

def TextHistory.Redo (th : TextHistory) : Except Core.Fault (TextHistory × Option BufError) :=
  th.undoRedo true

end Widget

/-! ### Transactions on a TextHistory -/

namespace Widget

/-- The Append calls of one transaction: before each call the TextEdit may have changed
(the edit itself, cursor moves); the pair gives its value at the call and the operation. -/
def recordSteps : TextHistory → List (TextEdit × UndoRedo) → Except Core.Fault TextHistory
  | th, [] => .ok th
  | th, (te, ur) :: rest =>
    match ({ th with te := te }).Append ur with
    | .error f => .error f
    | .ok th => recordSteps th rest

/-- The sequence BeginEdit, Append(op_1), ..., Append(op_n), EndEdit; teEnd is the TextEdit at
the EndEdit call. -/
def recordEdit (th : TextHistory) (steps : List (TextEdit × UndoRedo)) (teEnd : TextEdit) :
    Except Core.Fault TextHistory :=
  match th.BeginEdit with
  | .error f => .error f
  | .ok th =>
    match recordSteps th steps with
    | .error f => .error f
    | .ok th => ({ th with te := teEnd }).EndEdit

def sampleTextEdit : TextEdit :=
  { brw := [1, 2, 3], TextCursor := { index := 0, selection := none }, log := [] }

def sampleTextHistory : TextHistory :=
  NewTextHistory sampleTextEdit


/-- Modelled from the spec: a primitive edit requested while Recording, insert(offset, bytes)
or delete(offset, length). -/
inductive EditOp where
  | insert (i : Int) (p : Bytes)
  | delete (i n : Int)
  deriving DecidableEq, Repr

/-- Modelled from the spec: one primitive edit of an open transaction. The buffer is changed
and the operation, with the bytes it inserted or deleted, is appended to the open Edit. The
result is none when the buffer rejects the edit or no edit is open. -/
def recordOp (th : TextHistory) (op : EditOp) : Option TextHistory :=
  match op with
  | .insert i p =>
    match bufInsert th.te.brw i p with
    | .error _ => none
    | .ok w =>
      (({ th with te := { th.te with brw := w } }).Append
        { Index := i, S := p, D := false }).toOption
  | .delete i n =>
    match bufDelete th.te.brw i n with
    | .error _ => none
    | .ok w =>
      (({ th with te := { th.te with brw := w } }).Append
        { Index := i, S := (th.te.brw.drop i.toNat).take n.toNat, D := true }).toOption

def recordOps : TextHistory → List EditOp → Option TextHistory
  | th, [] => some th
  | th, op :: rest =>
    match recordOp th op with
    | none => none
    | some th => recordOps th rest

/-- One transaction of a script: the cursor state at BeginEdit, the primitive edits, and the
cursor state at EndEdit. -/
structure Txn where
  pre : TextCursorState
  ops : List EditOp
  post : TextCursorState
  deriving DecidableEq, Repr

/-- Runs BeginEdit, the edits and EndEdit of one transaction; none when a step fails. -/
def runTxn (th : TextHistory) (t : Txn) : Option TextHistory :=
  match ({ th with te := { th.te with TextCursor := t.pre } }).BeginEdit with
  | .error _ => none
  | .ok th =>
    match recordOps th t.ops with
    | none => none
    | some th => (({ th with te := { th.te with TextCursor := t.post } }).EndEdit).toOption

def runScript : TextHistory → List Txn → Option TextHistory
  | th, [] => some th
  | th, t :: rest =>
    match runTxn th t with
    | none => none
    | some th => runScript th rest

/-- Calls Undo (redo false) or Redo (redo true) the given number of times; none when a call
panics or returns an error. -/
def undoRedoTimes (redo : Bool) : Nat → TextHistory → Option TextHistory
  | 0, th => some th
  | k + 1, th =>
    match th.undoRedo redo with
    | .ok (th, none) => undoRedoTimes redo k th
    | _ => none

/-- A TextHistory with an empty history of the given maximum, no edit open. -/
def freshTextHistory (max : Nat) (b0 : Bytes) (c0 : TextCursorState) : TextHistory :=
  { hist := NewHistory max, te := { brw := b0, TextCursor := c0, log := [] }, edit := none }

/-- The operations of the Edit take buffer b to b2 going forward and b2 back to b going
backward. -/
def Link (e : Edit) (b b2 : Bytes) : Prop :=
  applyAll true e.list b = (b2, none) ∧ applyAll false e.list.reverse b2 = (b, none)

/-- The Edits are those of the transactions, in order, and lead from buffer b to the last
buffer. -/
def ScriptPath (b : Bytes) : List Edit → List Txn → Bytes → Prop
  | [], [], b3 => b3 = b
  | e :: es, t :: ts, b3 =>
    e.PreState = some t.pre ∧ e.PostState = some t.post ∧
      ∃ b2, Link e b b2 ∧ ScriptPath b2 es ts b3
  | _, _, _ => False

def sampleScript : List Txn :=
  [ { pre := { index := 1, selection := none }, ops := [.insert 1 [9, 9]],
      post := { index := 3, selection := none } },
    { pre := { index := 4, selection := some 2 }, ops := [.delete 2 2, .insert 2 [7]],
      post := { index := 3, selection := none } } ]

end Widget

/-! ## core/erowinfo.go : creating and reloading views -/

namespace Core

/-- Modelled from the spec: ui.RowPos, the place of a new row (a column and the row it goes
before), is declared in package ui. -/
structure RowPos where
  column : Nat
  nextRow : Option Nat
  deriving DecidableEq, Repr

/-- Modelled from the spec: the constructor NewERow of package core, ListDirERow and
TextArea.SetBytesClearHistory are declared outside erowinfo.go. They are taken as state
transformers on the identity and its views; newERow returns the pointer of the View it
created. -/
structure ViewOps where
  newERow : World → RowPos → Except Fault (World × RowId)
  listDirERow : World → RowId → String → Bool → Bool → Except Fault World
  setBytesClearHistory : World → RowId → Bytes → Except Fault World

/-- Source NewDirERow. The result carries the state, the View (none for nil) and the
error. -/
def NewDirERow (ops : ViewOps) (w : World) (rowPos : RowPos) :
    Except Fault (World × Option RowId × Option GoError) :=
  if !w.info.IsDir then
    .ok (w, none, some .notADirectory)
  else
    match ops.newERow w rowPos with
    | .error f => .error f
    | .ok (w, erow) =>
      match ops.listDirERow w erow w.info.name false true with
      | .error f => .error f
      | .ok w => .ok (w, some erow, none)

/-- Source ReloadDir; the View erow belongs to this identity, so erow.Info.Name() is the
name of the identity. -/
def ReloadDir (ops : ViewOps) (w : World) (erow : RowId) :
    Except Fault (World × Option GoError) :=
  if !w.info.IsDir then
    .ok (w, some .notADirectory)
  else
    match ops.listDirERow w erow w.info.name false true with
    | .error f => .error f
    | .ok w => .ok (w, none)

/-- Source NewFileERow; rd and st are what ioutil.ReadFile and the stat after it return,
the budget is handed to SetRowsStrFromMaster. -/
def NewFileERow (fuel : Nat) (ops : ViewOps) (rd : Except OsError Bytes)
    (st : Except OsError FileInfo) (w : World) (rowPos : RowPos) :
    Except Fault (World × Option RowId × Option GoError) :=
  match w.info.ERows with
  | erow0 :: _ =>
    -- read content from existing row: create erow first to get it updated
    match ops.newERow w rowPos with
    | .error f => .error f
    | .ok (w, erow) =>
      -- update the new erow with content
      match SetRowsStrFromMaster fuel w erow0 with
      | .error f => .error f
      | .ok w => .ok (w, some erow, none)
  | [] =>
    -- read file
    match readFsFile rd st w with
    | .error f => .error f
    | .ok (w, .error err) => .ok (w, none, some err)
    | .ok (w, .ok b) =>
      -- update data
      let w := setSavedHash w.info.fsHash.hash b.length w
      -- new erow (no other rows exist)
      match ops.newERow w rowPos with
      | .error f => .error f
      | .ok (w, erow) =>
        match ops.setBytesClearHistory w erow b with
        | .error f => .error f
        | .ok w => .ok (w, some erow, none)

/-- Source NewERow (the method of ERowInfo). -/
def NewERow (fuel : Nat) (ops : ViewOps) (rd : Except OsError Bytes)
    (st : Except OsError FileInfo) (w : World) (rowPos : RowPos) :
    Except Fault (World × Option RowId × Option GoError) :=
  match isSpecialName w.info.name with
  | .error f => .error f
  | .ok true =>
    match ops.newERow w rowPos with
    | .error f => .error f
    | .ok (w, erow) => .ok (w, some erow, none)
  | .ok false =>
    if w.info.IsDir then NewDirERow ops w rowPos
    else if w.info.IsFileButNotDir then NewFileERow fuel ops rd st w rowPos
    else .ok (w, none, some .unexpectedERowType)

/-- Source NewERowCreateOnErr. -/
def NewERowCreateOnErr (fuel : Nat) (ops : ViewOps) (rd : Except OsError Bytes)
    (st : Except OsError FileInfo) (w : World) (rowPos : RowPos) :
    Except Fault (World × Option RowId × Option GoError) :=
  match NewERow fuel ops rd st w rowPos with
  | .error f => .error f
  | .ok (w, _, some err) =>
    match ops.newERow w rowPos with
    | .error f => .error f
    | .ok (w, erow) => .ok (w, some erow, some err)
  | .ok (w, erow, none) => .ok (w, erow, none)

/-- Modelled from the spec: a View is created by registering a fresh pointer with AddERow
(Views are added explicitly), a directory listing and a buffer load are calls that leave
erowinfo.go; each is recorded in the trace. -/
def sampleViewOps : ViewOps :=
  { newERow := fun w _ =>
      let erow := w.info.ERows.foldl Nat.max 0 + 1
      match AddERow w.info erow with
      | .error f => .error f
      | .ok info => .ok (({ w with info := info }).emit (.newERow erow), erow)
    listDirERow := fun w erow name _ _ => .ok (w.emit (.listDir erow name))
    setBytesClearHistory := fun w erow b =>
      .ok (World.emit
        { w with rows := Function.update w.rows erow { w.rows erow with content := b } }
        (.setBytesClearHistory erow b)) }

/-- A directory without views. -/
def dirWorld : World :=
  { info := { sampleFile with
                ERows := [], name := "/tmp", fi := some { isDir := true, modTime := 5 } },
    rows := fun _ => sampleRow, log := [] }

/-- A name that is not special and has never been found on disk. -/
def missingWorld : World :=
  { info := { sampleFile with
                ERows := [], name := "gone.txt", fi := none, fiErr := some .notExist },
    rows := fun _ => sampleRow, log := [] }

end Core

/-! ## core/parseutil/misc.go : escapes, lines and columns -/

namespace Parseutil

def EscapeRune : Char := '\\'

def EscapeRunes : List Char := [EscapeRune]

def FilenameEscapeRunes : List Char := " :%?<>()".data

/-- Go's strings.ContainsRune on a string given by its runes. -/
def ContainsRune (s : List Char) (r : Char) : Bool :=
  s.contains r

/-- Loop of source EscapeFilename: the range loop over the runes of str with the rune
slice w. -/
def EscapeFilenameLoop : List Char → List Char → List Char
  | [], w => w
  | ru :: rest, w =>
    let w := if ContainsRune FilenameEscapeRunes ru then w ++ [EscapeRune] else w
    EscapeFilenameLoop rest (w ++ [ru])

/-- Source EscapeFilename; string(w) of a slice of valid runes is the string of those
runes. -/
def EscapeFilename (str : List Char) : List Char :=
  EscapeFilenameLoop str []

/-- Loop of source UnescapeString with the rune slice w and the flag esc. -/
def UnescapeStringLoop : List Char → List Char → Bool → List Char
  | [], w, _ => w
  | ru :: rest, w, esc =>
    if !esc && ContainsRune EscapeRunes ru then
      UnescapeStringLoop rest w true
    else
      let esc := if esc then false else esc
      UnescapeStringLoop rest (w ++ [ru]) esc

def UnescapeString (str : List Char) : List Char :=
  UnescapeStringLoop str [] false

/-- Loop of source UnescapeRunes with the rune slice w and the flag esc. -/
def UnescapeRunesLoop (escapable : List Char) : List Char → List Char → Bool → List Char
  | [], w, _ => w
  | ru :: rest, w, esc =>
    if !esc && ContainsRune EscapeRunes ru then
      UnescapeRunesLoop escapable rest w true
    else
      let (esc, w) : Bool × List Char :=
        if esc then
          -- re-add escape rune if not one of the escapable runes
          (false, if !ContainsRune escapable ru then w ++ [EscapeRune] else w)
        else (esc, w)
      UnescapeRunesLoop escapable rest (w ++ [ru]) esc

def UnescapeRunes (str escapable : List Char) : List Char :=
  UnescapeRunesLoop escapable str [] false

/-- The escaped form in the words of C22: the runes of s in order, each rune of
FilenameEscapeRunes preceded by one backslash, every other rune as it is. -/
def backslashBefore (s : List Char) : List Char :=
  s.flatMap (fun ru => if ru ∈ [' ', ':', '%', '?', '<', '>', '(', ')'] then ['\\', ru] else [ru])


/-- Loop of source LineColumnIndex: the range loop sits at byte offset ri with the runes
still to visit; l, c and index are the variables of the source, line and column the
decremented arguments. A break returns index. -/
def LineColumnIndexLoop (line column : Int) : List Char → Int → Int → Int → Int → Int
  | [], _, _, _, index => index
  | ru :: rest, ri, l, c, index =>
    if l = line ∧ c = column then ri
    else
      let c := if l = line then c + 1 else c
      if ru = '\n' then
        let l := l + 1
        if l = line then
          -- column 0 (+1 is to pass the newline)
          LineColumnIndexLoop line column rest (ri + ru.utf8Size) l c (ri + 1)
        else if l > line then index
        else LineColumnIndexLoop line column rest (ri + ru.utf8Size) l c index
      else LineColumnIndexLoop line column rest (ri + ru.utf8Size) l c index

def LineColumnIndex (str : List Char) (line column : Int) : Int :=
  let line := line - 1
  let column := column - 1
  -- rune index of line/column
  LineColumnIndexLoop line column str 0 0 0 0

/-- Loop of source IndexLineColumn: returns the variables line and lineStart. -/
def IndexLineColumnLoop : List Char → Int → Int → Int → Int × Int
  | [], _, line, lineStart => (line, lineStart)
  | ru :: rest, ri, line, lineStart =>
    if ru = '\n' then IndexLineColumnLoop rest (ri + ru.utf8Size) (line + 1) ri
    else IndexLineColumnLoop rest (ri + ru.utf8Size) line lineStart

def IndexLineColumn (str : List Char) : Int × Int :=
  let res := IndexLineColumnLoop str 0 0 0
  let line := res.1
  let lineStart := res.2
  let col := (byteLen str : Int) - lineStart
  let line := line + 1
  (line, col)

/-- ASCII strings: every rune is below 128. -/
def isASCII (s : List Char) : Prop :=
  ∀ c ∈ s, c.toNat < 128

end Parseutil

/-! ## util/uiutil/widget/texteditx.go : matching parentheses -/

namespace Widget

/-- Modelled from the spec: drawer3.Segment, a pair of byte offsets (where the segment
starts and where it stops), is declared in package drawer3. -/
structure Segment where
  start : Int
  stop : Int
  deriving DecidableEq, Repr

/-- Modelled from the spec: ReadRuneAt of the reader tc.RW() is declared outside
texteditx.go. The buffer is an ordered sequence of runes addressed by byte offset into its
UTF-8 encoding; the read returns the rune that starts at offset i and its encoded size, and
fails when i is outside the buffer or not on a rune boundary. -/
def ReadRuneAt : List Char → Int → Option (Char × Int)
  | [], _ => none
  | r :: rest, i =>
    if i = 0 then some (r, r.utf8Size)
    else if i < r.utf8Size then none
    else ReadRuneAt rest (i - r.utf8Size)

/-- Modelled from the spec: ReadLastRuneAt of the reader tc.RW(), the rune that ends at
offset i and its encoded size; fails like ReadRuneAt. -/
def ReadLastRuneAt : List Char → Int → Option (Char × Int)
  | [], _ => none
  | r :: rest, i =>
    if i = r.utf8Size then some (r, r.utf8Size)
    else if i < r.utf8Size then none
    else ReadLastRuneAt rest (i - r.utf8Size)

/-- Loop of source findParenthesisClose with the variables i and c (match count) and the
segments of sg. The first argument bounds the number of iterations; none is returned only
when it is used up. -/
def findParenthesisCloseLoop (buf : List Char) (earlyExitIndex : Int) (openRu closeRu : Char) :
    Nat → Int → Int → List Segment → Option (List Segment)
  | 0, _, _, _ => none
  | fuel + 1, i, c, segs =>
    if i ≥ earlyExitIndex then some segs
    else
      match ReadRuneAt buf i with
      | none => some segs
      | some (ru, size) =>
        let c := if ru = openRu then c + 1 else c
        if ru = closeRu then
          if c > 0 then
            findParenthesisCloseLoop buf earlyExitIndex openRu closeRu fuel (i + size) (c - 1) segs
          else
            let seg2 : Segment := ⟨i, i + closeRu.utf8Size⟩
            some (segs ++ [seg2])
        else findParenthesisCloseLoop buf earlyExitIndex openRu closeRu fuel (i + size) c segs

/-- Source findParenthesisClose; earlyExitIndex is what te.visibleBottomIndex() returns,
segs the segments of sg before the call. Every iteration that goes on reads one more rune
of the buffer, so one iteration more than the buffer has runes is enough. -/
def findParenthesisClose (buf : List Char) (earlyExitIndex : Int) (ci : Int)
    (cru openRu closeRu : Char) (segs : List Segment) : Option (List Segment) :=
  let seg1 : Segment := ⟨ci, ci + openRu.utf8Size⟩
  let segs := segs ++ [seg1]
  -- start searching on next rune
  findParenthesisCloseLoop buf earlyExitIndex openRu closeRu (buf.length + 1)
    (ci + cru.utf8Size) 0 segs

/-- Loop of source findParenthesisOpen. -/
def findParenthesisOpenLoop (buf : List Char) (earlyExitIndex : Int) (openRu closeRu : Char) :
    Nat → Int → Int → List Segment → Option (List Segment)
  | 0, _, _, _ => none
  | fuel + 1, i, c, segs =>
    if i < earlyExitIndex then some segs
    else
      match ReadLastRuneAt buf i with
      | none => some segs
      | some (ru, size) =>
        let i := i - size
        let c := if ru = closeRu then c + 1 else c
        if ru = openRu then
          if c > 0 then
            findParenthesisOpenLoop buf earlyExitIndex openRu closeRu fuel i (c - 1) segs
          else
            let seg1 : Segment := ⟨i, i + openRu.utf8Size⟩
            -- prepend
            some (seg1 :: segs)
        else findParenthesisOpenLoop buf earlyExitIndex openRu closeRu fuel i c segs

/-- Source findParenthesisOpen; earlyExitIndex is what te.visibleTopIndex() returns. -/
def findParenthesisOpen (buf : List Char) (earlyExitIndex : Int) (ci : Int)
    (_cru openRu closeRu : Char) (segs : List Segment) : Option (List Segment) :=
  let seg2 : Segment := ⟨ci, ci + closeRu.utf8Size⟩
  let segs := segs ++ [seg2]
  findParenthesisOpenLoop buf earlyExitIndex openRu closeRu (buf.length + 1) ci 0 segs

/-- The slice pars of updateParenthesisOpt. -/
def pars : List Char := ['{', '}', '(', ')', '[', ']']

/-- Source updateParenthesisOpt, returning the segments of group 2. The flags say whether
the drawer is a PosDrawer, whether its segments are on and whether the group is on; top and
bottom are the visible limits, ci the cursor index. -/
def updateParenthesisOpt (posDrawer segmentsOn sgOn : Bool) (buf : List Char)
    (top bottom : Int) (ci : Int) (segs : List Segment) : Option (List Segment) :=
  if !posDrawer then some segs
  else if !segmentsOn then some segs
  else
    -- might find segments or not, always start with nil
    let segs : List Segment := []
    if !sgOn then some segs
    else
      -- read current rune
      match ReadRuneAt buf ci with
      | none => some segs
      | some (cru, _) =>
        -- find parenthesis type
        let pi := pars.indexOf cru
        if pi ≥ pars.length then some segs
        else
          -- assign open/close parenthesis
          let isOpen := pi % 2 == 0
          if isOpen then
            findParenthesisClose buf bottom ci cru (pars.getD pi ' ') (pars.getD (pi + 1) ' ') segs
          else
            findParenthesisOpen buf top ci cru (pars.getD (pi - 1) ' ') (pars.getD pi ' ') segs

/-- The condition of C24 on the runes strictly between the two brackets: as many open as
close runes, and no prefix with more close than open runes. -/
def balanced (openRu closeRu : Char) (mid : List Char) : Prop :=
  mid.count openRu = mid.count closeRu ∧
    ∀ n, (mid.take n).count closeRu ≤ (mid.take n).count openRu

/-- The offset of the matching close rune, by recursion on the runes ahead: i is the byte
offset of the first of them and c the match count. -/
def scanClose (limit : Int) (openRu closeRu : Char) : List Char → Int → Int → Option Int
  | [], _, _ => none
  | r :: rest, i, c =>
    if i ≥ limit then none
    else
      let c := if r = openRu then c + 1 else c
      if r = closeRu then
        if c > 0 then scanClose limit openRu closeRu rest (i + r.utf8Size) (c - 1)
        else some i
      else scanClose limit openRu closeRu rest (i + r.utf8Size) c

/-- The condition balanced with c opens already counted: c plus the opens equals the
closes, and in no prefix the closes exceed c plus the opens. -/
def balancedFrom (openRu closeRu : Char) (c : Int) (mid : List Char) : Prop :=
  c + mid.count openRu = mid.count closeRu ∧
    ∀ n, ((mid.take n).count closeRu : Int) ≤ c + (mid.take n).count openRu

end Widget

/-! ## ui/ui.go : warping the pointer into a rectangle -/

namespace UI

/-- Go's image.Point; the coordinates are Go ints, carried as integers. -/
structure Point where
  X : Int
  Y : Int
  deriving DecidableEq, Repr

/-- Go's image.Rectangle. -/
structure Rectangle where
  Min : Point
  Max : Point
  deriving DecidableEq, Repr

/-- The value of an integer stored in a 64-bit two's-complement Go int: the result of Go's
int arithmetic is the exact result wrapped into [-2^63, 2^63). -/
def wrap64 (x : Int) : Int := (x + 2 ^ 63) % 2 ^ 64 - 2 ^ 63

/-- The local variable pad of WarpPointerToRectanglePad. -/
def WarpPointerToRectanglePad.pad : Int := 5

/-- The closure set of WarpPointerToRectanglePad, returning the value it stores in v. Every
sum, difference and product is a 64-bit int and wraps; Go's integer division truncates
toward zero. -/
def WarpPointerToRectanglePad.set (v min max : Int) : Int :=
  if wrap64 (max - min) < wrap64 (WarpPointerToRectanglePad.pad * 2) then
    wrap64 (min + wrap64 ((wrap64 (max - min)).tdiv 2))
  else
    if v < wrap64 (min + WarpPointerToRectanglePad.pad) then
      wrap64 (min + WarpPointerToRectanglePad.pad)
    else if v > wrap64 (max - WarpPointerToRectanglePad.pad) then
      wrap64 (max - WarpPointerToRectanglePad.pad)
    else v

/-- Source WarpPointerToRectanglePad; q is what ui.QueryPointer returns (the error is
dropped), the result is the point handed to ui.WarpPointer, if it is called. -/
def WarpPointerToRectanglePad (q : Option Point) (r0 : Rectangle) : Option Point :=
  match q with
  | none => none
  | some p =>
    let r := r0
    let p := { p with X := WarpPointerToRectanglePad.set p.X r.Min.X r.Max.X }
    let p := { p with Y := WarpPointerToRectanglePad.set p.Y r.Min.Y r.Max.Y }
    some p

end UI

/-! ## Theorems: core/erowinfo.go -/

namespace Core

theorem foldl_update_apply {α : Type} (f : α → α) (hf : ∀ a, f (f a) = f a)
    (l : List RowId) (rows : RowId → α) (id : RowId) :
    (l.foldl (fun rows e => Function.update rows e (f (rows e))) rows) id
      = if id ∈ l then f (rows id) else rows id := by
  induction l generalizing rows with
  | nil => simp
  | cons e l ih =>
    rw [List.foldl_cons, ih]
    by_cases h : id = e
    · subst h
      simp [hf]
    · simp [h, Function.update_noteq h]

theorem SetState_idem (s : UI.RowState) (v : Bool) (r : ERow) :
    (r.SetState s v).SetState s v = r.SetState s v := by
  simp [ERow.SetState]

@[simp]
theorem updateRowState_info (s : UI.RowState) (v : Bool) (w : World) :
    (updateRowState s v w).info = w.info := rfl

@[simp]
theorem updateRowState_log (s : UI.RowState) (v : Bool) (w : World) :
    (updateRowState s v w).log = w.log := rfl

theorem updateRowState_rows (s : UI.RowState) (v : Bool) (w : World) (id : RowId) :
    (updateRowState s v w).rows id
      = if id ∈ w.info.ERows then (w.rows id).SetState s v else w.rows id := by
  simp only [updateRowState]
  exact foldl_update_apply (fun r : ERow => r.SetState s v) (SetState_idem s v) _ _ _

@[simp]
theorem SetState_content (r : ERow) (s : UI.RowState) (v : Bool) :
    (r.SetState s v).content = r.content := rfl

@[simp]
theorem SetState_bytesErr (r : ERow) (s : UI.RowState) (v : Bool) :
    (r.SetState s v).bytesErr = r.bytesErr := rfl

@[simp]
theorem SetState_flag (r : ERow) (s : UI.RowState) (v : Bool) :
    (r.SetState s v).disableTextAreaSetStrCallback = r.disableTextAreaSetStrCallback := rfl

@[simp]
theorem SetState_state_same (r : ERow) (s : UI.RowState) (v : Bool) :
    (r.SetState s v).state s = v := by
  simp [ERow.SetState]

theorem SetState_state_other (r : ERow) (s t : UI.RowState) (v : Bool) (h : t ≠ s) :
    (r.SetState s v).state t = r.state t := by
  simp [ERow.SetState, Function.update_noteq h]

@[simp]
theorem updateRowState_content (s : UI.RowState) (v : Bool) (w : World) (id : RowId) :
    ((updateRowState s v w).rows id).content = (w.rows id).content := by
  rw [updateRowState_rows]; split <;> rfl

@[simp]
theorem updateRowState_bytesErr (s : UI.RowState) (v : Bool) (w : World) (id : RowId) :
    ((updateRowState s v w).rows id).bytesErr = (w.rows id).bytesErr := by
  rw [updateRowState_rows]; split <;> rfl

@[simp]
theorem updateRowState_flag (s : UI.RowState) (v : Bool) (w : World) (id : RowId) :
    ((updateRowState s v w).rows id).disableTextAreaSetStrCallback
      = (w.rows id).disableTextAreaSetStrCallback := by
  rw [updateRowState_rows]; split <;> rfl

theorem updateRowState_state_mem (s : UI.RowState) (v : Bool) (w : World) (id : RowId)
    (h : id ∈ w.info.ERows) : ((updateRowState s v w).rows id).state s = v := by
  rw [updateRowState_rows, if_pos h, SetState_state_same]

theorem updateRowState_state_other (s t : UI.RowState) (v : Bool) (w : World) (id : RowId)
    (h : t ≠ s) : ((updateRowState s v w).rows id).state t = (w.rows id).state t := by
  rw [updateRowState_rows]
  split
  · exact SetState_state_other _ _ _ _ h
  · rfl

theorem updateRowState_rows_not_mem (s : UI.RowState) (v : Bool) (w : World) (id : RowId)
    (h : id ∉ w.info.ERows) : (updateRowState s v w).rows id = w.rows id := by
  rw [updateRowState_rows, if_neg h]

/-- C5: on a regular file UpdateFsDifferRowState sets FsDiffer on every view to true exactly
when fsHash.hash and savedHash.hash are not equal (and to false when they are equal), leaving
every other row state, the contents and the hashes as they were; on an identity that is not a
regular file it changes nothing. -/
theorem C5_UpdateFsDifferRowState (w : World) :
    (w.info.IsFileButNotDir = true →
      (∀ e ∈ w.info.ERows,
        (((UpdateFsDifferRowState w).rows e).state .FsDiffer = true
          ↔ w.info.fsHash.hash ≠ w.info.savedHash.hash)) ∧
      (∀ e ∈ w.info.ERows,
        (((UpdateFsDifferRowState w).rows e).state .FsDiffer = false
          ↔ w.info.fsHash.hash = w.info.savedHash.hash)) ∧
      (∀ e t, t ≠ UI.RowState.FsDiffer →
        ((UpdateFsDifferRowState w).rows e).state t = (w.rows e).state t) ∧
      (∀ e, e ∉ w.info.ERows → (UpdateFsDifferRowState w).rows e = w.rows e) ∧
      (UpdateFsDifferRowState w).info = w.info) ∧
    (w.info.IsFileButNotDir = false → UpdateFsDifferRowState w = w) := by
  refine ⟨fun hf => ⟨?_, ?_, ?_, ?_, ?_⟩, fun hf => ?_⟩
  · intro e he
    simp [UpdateFsDifferRowState, hf, updateRowState_state_mem _ _ _ _ he]
  · intro e he
    simp [UpdateFsDifferRowState, hf, updateRowState_state_mem _ _ _ _ he]
  · intro e t ht
    simp [UpdateFsDifferRowState, hf, updateRowState_state_other _ _ _ _ _ ht]
  · intro e he
    simp [UpdateFsDifferRowState, hf, updateRowState_rows_not_mem _ _ _ _ he]
  · simp [UpdateFsDifferRowState, hf]
  · simp [UpdateFsDifferRowState, hf]


/-- C5 at a sample regular file with two views. -/
theorem C5_UpdateFsDifferRowState_witness :
    ∀ e ∈ sampleWorld.info.ERows,
      (((UpdateFsDifferRowState sampleWorld).rows e).state .FsDiffer = true
        ↔ sampleWorld.info.fsHash.hash ≠ sampleWorld.info.savedHash.hash) :=
  ((C5_UpdateFsDifferRowState sampleWorld).1 rfl).1

theorem UpdateEditedRowState_eq (w : World) (hf : w.info.IsFileButNotDir = true)
    (e0 : RowId) (rest : List RowId) (hv : w.info.ERows = e0 :: rest) :
    UpdateEditedRowState w =
      updateRowState .Edited
        (decide ((bytesOrEmpty (w.rows e0)).length ≠ w.info.savedHash.size
          ∨ bytesHash (bytesOrEmpty (w.rows e0)) ≠ w.info.savedHash.hash))
        (match (w.rows e0).Bytes with
          | .error err => w.emit (.edError err)
          | .ok _ => w) := by
  unfold UpdateEditedRowState bytesOrEmpty
  simp only [hf, hv]
  cases hb : (w.rows e0).Bytes with
  | error err =>
    by_cases h1 : (0 : Nat) = w.info.savedHash.size <;>
      by_cases h2 : (bytesHash [] == w.info.savedHash.hash) = true <;>
      simp [World.emit, h1, h2] <;> simp_all
  | ok b =>
    by_cases h1 : b.length = w.info.savedHash.size <;>
      by_cases h2 : (bytesHash b == w.info.savedHash.hash) = true <;>
      simp [h1, h2] <;> simp_all

theorem beBytes_length (n x : Nat) : (beBytes n x).length = n := by
  induction n with
  | zero => rfl
  | succ n ih => simp [beBytes, ih]

theorem sha1_length (msg : Bytes) : (sha1 msg).length = 20 := by
  simp [sha1, beBytes_length]

/-- SHA-1 has only 256^20 values, so among the strings of zero bytes of the lengths
0, 1, ..., 256^20 two have the same digest: two byte strings of different length with the
same digest exist. -/
theorem exists_cross_length_collision :
    ∃ b0 b : Bytes, b.length ≠ b0.length ∧ bytesHash b = bytesHash b0 := by
  let f : Fin (256 ^ 20 + 1) → Mathlib.Vector Byte 20 :=
    fun n => ⟨sha1 (List.replicate n.val 0), sha1_length _⟩
  have hcard : Fintype.card (Mathlib.Vector Byte 20) < Fintype.card (Fin (256 ^ 20 + 1)) := by
    rw [card_vector, Fintype.card_fin, Fintype.card_fin]
    exact Nat.lt_succ_self _
  obtain ⟨x, y, hxy, hf⟩ := Fintype.exists_ne_map_eq_of_card_lt f hcard
  refine ⟨List.replicate y.val 0, List.replicate x.val 0, ?_, ?_⟩
  · simp only [List.length_replicate]
    exact fun h => hxy (Fin.ext h)
  · exact congrArg Subtype.val hf

/-- On a state whose savedHash holds the length and the digest of some saved bytes b0,
UpdateEditedRowState sets Edited to true exactly when the digest of the bytes of the first
view differs from the saved digest, unless these bytes and b0 have the same digest and
different lengths. -/
theorem UpdateEditedRowState_saved (w : World) (b0 : Bytes)
    (hf : w.info.IsFileButNotDir = true)
    (hs : w.info.savedHash = { size := b0.length, hash := bytesHash b0 })
    (e0 : RowId) (rest : List RowId) (hv : w.info.ERows = e0 :: rest)
    (hb : (w.rows e0).bytesErr = none) :
    ∀ e ∈ w.info.ERows,
      (((UpdateEditedRowState w).rows e).state .Edited = true ↔
        (bytesHash (w.rows e0).content ≠ w.info.savedHash.hash ∨
          ((w.rows e0).content.length ≠ b0.length ∧
            bytesHash (w.rows e0).content = bytesHash b0))) := by
  intro e he
  have hbytes : (w.rows e0).Bytes = .ok (w.rows e0).content := by
    unfold ERow.Bytes; rw [hb]
  have hbo : bytesOrEmpty (w.rows e0) = (w.rows e0).content := by
    unfold bytesOrEmpty; rw [hbytes]
  rw [UpdateEditedRowState_eq w hf e0 rest hv, hbytes,
    updateRowState_state_mem _ _ _ _ he, hbo, hs]
  simp only [decide_eq_true_eq]
  constructor
  · rintro (h | h)
    · by_cases hd : bytesHash (w.rows e0).content = bytesHash b0
      · exact Or.inr ⟨h, hd⟩
      · exact Or.inl hd
    · exact Or.inl h
  · rintro (h | ⟨h, _⟩)
    · exact Or.inr h
    · exact Or.inl h

/-- C4 as stated fails on states the code builds: there are byte strings b0 and b of
different length with the same SHA-1 digest; after a save of b0 (savedHash holds the length
and digest of b0) with b in the only view, the digest of the view's bytes equals the saved
digest, yet UpdateEditedRowState sets Edited to true, because it compares the lengths
first. -/
theorem C4_counterexample :
    ¬ (∀ (w : World) (b0 : Bytes), w.info.IsFileButNotDir = true →
        w.info.savedHash = { size := b0.length, hash := bytesHash b0 } →
        ∀ e0 rest, w.info.ERows = e0 :: rest → (w.rows e0).bytesErr = none →
          ∀ e ∈ w.info.ERows,
            (((UpdateEditedRowState w).rows e).state .Edited = true
              ↔ bytesHash (w.rows e0).content ≠ w.info.savedHash.hash)) := by
  intro h
  obtain ⟨b0, b, hlen, hhash⟩ := exists_cross_length_collision
  have h1 := h (savedThenTypedWorld b0 b) b0 rfl rfl 0 [] rfl rfl 0 (List.mem_singleton.2 rfl)
  have h2 := UpdateEditedRowState_saved (savedThenTypedWorld b0 b) b0 rfl rfl 0 [] rfl rfl 0
    (List.mem_singleton.2 rfl)
  exact (h1.1 (h2.2 (Or.inr ⟨hlen, hhash⟩))) hhash


/-- C4 (amended): on a regular file whose first view is e0, UpdateEditedRowState sets Edited
on every view to true exactly when the bytes of e0 (taken as empty when TextArea.Bytes fails)
have a length different from savedHash.size or a digest different from savedHash.hash, and to
false otherwise; no other row state, no content and no hash changes. On an identity that is
not a regular file or has no view the state is returned unchanged. -/
theorem C4_UpdateEditedRowState_amended (w : World) :
    (∀ e0 rest, w.info.IsFileButNotDir = true → w.info.ERows = e0 :: rest →
      (∀ e ∈ w.info.ERows,
        (((UpdateEditedRowState w).rows e).state .Edited = true
          ↔ ((bytesOrEmpty (w.rows e0)).length ≠ w.info.savedHash.size
              ∨ bytesHash (bytesOrEmpty (w.rows e0)) ≠ w.info.savedHash.hash))) ∧
      (∀ e ∈ w.info.ERows,
        (((UpdateEditedRowState w).rows e).state .Edited = false
          ↔ ((bytesOrEmpty (w.rows e0)).length = w.info.savedHash.size
              ∧ bytesHash (bytesOrEmpty (w.rows e0)) = w.info.savedHash.hash))) ∧
      (∀ e t, t ≠ UI.RowState.Edited →
        ((UpdateEditedRowState w).rows e).state t = (w.rows e).state t) ∧
      (∀ e, e ∉ w.info.ERows → (UpdateEditedRowState w).rows e = w.rows e) ∧
      (∀ e, ((UpdateEditedRowState w).rows e).content = (w.rows e).content) ∧
      (UpdateEditedRowState w).info = w.info) ∧
    ((w.info.IsFileButNotDir = false ∨ w.info.ERows = []) → UpdateEditedRowState w = w) := by
  refine ⟨fun e0 rest hf hv => ?_, fun h => ?_⟩
  · rw [UpdateEditedRowState_eq w hf e0 rest hv]
    have hinfo : (match (w.rows e0).Bytes with
        | .error err => w.emit (.edError err)
        | .ok _ => w).info = w.info := by
      cases (w.rows e0).Bytes <;> rfl
    have hrows : (match (w.rows e0).Bytes with
        | .error err => w.emit (.edError err)
        | .ok _ => w).rows = w.rows := by
      cases (w.rows e0).Bytes <;> rfl
    refine ⟨?_, ?_, ?_, ?_, ?_, ?_⟩
    · intro e he
      rw [updateRowState_state_mem _ _ _ _ (by rw [hinfo]; exact he)]
      simp
    · intro e he
      rw [updateRowState_state_mem _ _ _ _ (by rw [hinfo]; exact he)]
      simp
    · intro e t ht
      rw [updateRowState_state_other _ _ _ _ _ ht, hrows]
    · intro e he
      rw [updateRowState_rows_not_mem _ _ _ _ (by rw [hinfo]; exact he), hrows]
    · intro e
      rw [updateRowState_content, hrows]
    · rw [updateRowState_info, hinfo]
  · rcases h with h | h
    · simp [UpdateEditedRowState, h]
    · simp [UpdateEditedRowState, h]

/-- C4 (amended) at the sample regular file with two views. -/
theorem C4_UpdateEditedRowState_amended_witness :
    ∀ e ∈ sampleWorld.info.ERows,
      (((UpdateEditedRowState sampleWorld).rows e).state .Edited = true
        ↔ ((bytesOrEmpty (sampleWorld.rows 0)).length ≠ sampleWorld.info.savedHash.size
            ∨ bytesHash (bytesOrEmpty (sampleWorld.rows 0)) ≠ sampleWorld.info.savedHash.hash)) :=
  ((C4_UpdateEditedRowState_amended sampleWorld).1 0 [1] rfl rfl).1


theorem AddERow_eq (info : ERowInfo) (v : RowId) :
    AddERow info v =
      if v ∈ info.ERows then .error (.panic "adding same erow twice")
      else .ok { info with ERows := info.ERows ++ [v] } := by
  unfold AddERow
  by_cases h : v ∈ info.ERows
  · have : (info.ERows.any fun e => e == v) = true := by
      simp only [List.any_eq_true, beq_iff_eq]
      exact ⟨v, h, rfl⟩
    simp [this, h]
  · have : (info.ERows.any fun e => e == v) = false := by
      simp only [List.any_eq_false, beq_iff_eq]
      intro x hx hxe
      exact h (hxe ▸ hx)
    simp [this, h]

theorem copyDown_truncate (pre rest : List RowId) (v : RowId) :
    (copyDown (pre ++ v :: rest) pre.length).take
        ((copyDown (pre ++ v :: rest) pre.length).length - 1) = pre ++ rest := by
  have h1 : (pre ++ v :: rest).take pre.length = pre := by simp
  have h2 : (pre ++ v :: rest).drop (pre.length + 1) = rest := by
    rw [List.drop_append_eq_append_drop]
    simp
  have h3 : ((pre ++ v :: rest).drop ((pre ++ v :: rest).length - 1)).length = 1 := by
    simp
  unfold copyDown
  rw [h1, h2]
  have hl : (pre ++ rest ++ (pre ++ v :: rest).drop ((pre ++ v :: rest).length - 1)).length - 1
      = (pre ++ rest).length := by
    rw [List.length_append, h3]
    omega
  rw [hl, List.take_left']
  rfl

theorem RemoveERowLoop_eq (info : ERowInfo) (v : RowId) (l pre : List RowId)
    (hsplit : info.ERows = pre ++ l) (hpre : v ∉ pre) :
    RemoveERowLoop info v l pre.length =
      if v ∈ l then .ok { info with ERows := info.ERows.erase v }
      else .error (.panic "erow not found") := by
  induction l generalizing pre with
  | nil => simp [RemoveERowLoop]
  | cons e rest ih =>
    unfold RemoveERowLoop
    by_cases h : e = v
    · subst h
      simp only [beq_self_eq_true, if_true, List.mem_cons, true_or]
      rw [hsplit, copyDown_truncate, List.erase_append_right _ hpre, List.erase_cons_head]
    · have hne : (e == v) = false := by simpa using h
      have hpre2 : v ∉ pre ++ [e] := by
        simp only [List.mem_append, List.mem_singleton, not_or]
        exact ⟨hpre, fun hv => h hv.symm⟩
      have := ih (pre ++ [e]) (by simp [hsplit]) hpre2
      simp only [List.length_append, List.length_singleton] at this
      simp only [hne, Bool.false_eq_true, if_false, this, List.mem_cons]
      have : (v = e ∨ v ∈ rest) ↔ v ∈ rest := by
        constructor
        · rintro (hv | hv)
          · exact absurd hv.symm h
          · exact hv
        · exact Or.inr
      simp only [this]

theorem RemoveERow_eq (info : ERowInfo) (v : RowId) :
    RemoveERow info v =
      if v ∈ info.ERows then .ok { info with ERows := info.ERows.erase v }
      else .error (.panic "erow not found") := by
  have := RemoveERowLoop_eq info v info.ERows [] rfl (by simp)
  simpa [RemoveERow] using this

theorem ERowsBuilt_nodup (info : ERowInfo) (h : ERowsBuilt info) : info.ERows.Nodup := by
  induction h with
  | empty info h => rw [h]; exact List.nodup_nil
  | add info next v _ h ih =>
    rw [AddERow_eq] at h
    split at h
    · cases h
    · rename_i hv
      cases h
      show (info.ERows ++ [v]).Nodup
      rw [List.nodup_append]
      refine ⟨ih, List.nodup_singleton v, ?_⟩
      intro a ha hb
      rw [List.mem_singleton] at hb
      exact hv (hb ▸ ha)
  | remove info next v _ h ih =>
    rw [RemoveERow_eq] at h
    split at h
    · cases h
      exact ih.erase v
    · cases h

/-- C8: AddERow panics exactly when the view is already in the list; otherwise it returns the
identity with the view appended at the end of the list and nothing else changed. A list built
from the empty one by calls of AddERow and RemoveERow that return has no view twice. -/
theorem C8_AddERow :
    (∀ (info : ERowInfo) (v : RowId),
      ((∃ msg, AddERow info v = .error (.panic msg)) ↔ v ∈ info.ERows) ∧
      (v ∉ info.ERows → AddERow info v = .ok { info with ERows := info.ERows ++ [v] })) ∧
    (∀ info : ERowInfo, ERowsBuilt info → info.ERows.Nodup) := by
  refine ⟨fun info v => ⟨?_, ?_⟩, ERowsBuilt_nodup⟩
  · rw [AddERow_eq]
    by_cases h : v ∈ info.ERows
    · simp [h]
    · simp [h]
  · intro h
    rw [AddERow_eq, if_neg h]

/-- C8 at the sample identity: view 2 is not among the views 0 and 1. -/
theorem C8_AddERow_witness :
    AddERow sampleFile 2 = .ok { sampleFile with ERows := sampleFile.ERows ++ [2] } :=
  (C8_AddERow.1 sampleFile 2).2 (by decide)

/-- C9: RemoveERow panics exactly when the view is not in the list; otherwise the list splits
as pre ++ v :: post with v not in pre, and the call returns the identity with the list
pre ++ post, which is the old list without the first occurrence of v and one shorter. -/
theorem C9_RemoveERow (info : ERowInfo) (v : RowId) :
    ((∃ msg, RemoveERow info v = .error (.panic msg)) ↔ v ∉ info.ERows) ∧
    (v ∈ info.ERows →
      ∃ pre post, info.ERows = pre ++ v :: post ∧ v ∉ pre ∧
        RemoveERow info v = .ok { info with ERows := pre ++ post } ∧
        pre ++ post = info.ERows.erase v ∧
        (pre ++ post).length + 1 = info.ERows.length) := by
  refine ⟨?_, ?_⟩
  · rw [RemoveERow_eq]
    by_cases h : v ∈ info.ERows
    · simp [h]
    · simp [h]
  · intro h
    obtain ⟨pre, post, hpre, hsplit⟩ := List.eq_append_cons_of_mem h
    refine ⟨pre, post, hpre, hsplit, ?_, ?_, ?_⟩
    · rw [RemoveERow_eq, if_pos h, hpre, List.erase_append_right _ hsplit, List.erase_cons_head]
    · rw [hpre, List.erase_append_right _ hsplit, List.erase_cons_head]
    · rw [hpre]
      simp
      omega

/-- C9 at the sample identity: removing view 0 from the views 0 and 1. -/
theorem C9_RemoveERow_witness :
    ∃ pre post, sampleFile.ERows = pre ++ 0 :: post ∧ 0 ∉ pre ∧
      RemoveERow sampleFile 0 = .ok { sampleFile with ERows := pre ++ post } ∧
      pre ++ post = sampleFile.ERows.erase 0 ∧
      (pre ++ post).length + 1 = sampleFile.ERows.length :=
  (C9_RemoveERow sampleFile 0).2 (by decide)


theorem isSpecialName_ok (name : String) (h : name ≠ "") :
    ∃ b, isSpecialName name = .ok b := by
  unfold isSpecialName
  cases hd : name.data with
  | nil =>
    exfalso
    apply h
    exact String.ext hd
  | cons c rest => exact ⟨_, rfl⟩

theorem readFileInfo_cases (st : Except OsError FileInfo) (w : World) :
    (∃ f, isSpecialName w.info.name = .error f ∧ readFileInfo st w = .error f) ∨
    (isSpecialName w.info.name = .ok true ∧ readFileInfo st w = .ok w) ∨
    (isSpecialName w.info.name = .ok false ∧
      ((∃ err, st = .error err ∧ readFileInfo st w = .ok (UpdateExistsRowState
          { (w.emit (.stat w.info.name)) with info := { w.info with fiErr := some err } })) ∨
       (∃ fi, st = .ok fi ∧ readFileInfo st w = .ok (UpdateExistsRowState
          { (w.emit (.stat w.info.name)) with
            info := { w.info with fi := some fi, fiErr := none } })))) := by
  unfold readFileInfo
  cases hs : isSpecialName w.info.name with
  | error f => left; exact ⟨f, rfl, rfl⟩
  | ok b =>
    right
    cases b with
    | true => left; exact ⟨rfl, rfl⟩
    | false =>
      right
      refine ⟨rfl, ?_⟩
      cases st with
      | error err => left; exact ⟨err, rfl, rfl⟩
      | ok fi => right; exact ⟨fi, rfl, rfl⟩


theorem ViewsKeep.refl (w : World) (l : List UI.RowState) : ViewsKeep w w l :=
  fun _ => ⟨rfl, rfl, rfl, fun _ _ => rfl⟩

theorem ViewsKeep.of_rows_eq (w next : World) (l : List UI.RowState) (h : next.rows = w.rows) :
    ViewsKeep w next l := by
  intro e
  rw [h]
  exact ⟨rfl, rfl, rfl, fun _ _ => rfl⟩

theorem ViewsKeep.trans {w1 w2 w3 : World} {l1 l2 l3 : List UI.RowState}
    (h12 : ViewsKeep w1 w2 l1) (h23 : ViewsKeep w2 w3 l2)
    (hl1 : ∀ t, t ∈ l1 → t ∈ l3) (hl2 : ∀ t, t ∈ l2 → t ∈ l3) : ViewsKeep w1 w3 l3 := by
  intro e
  obtain ⟨a1, b1, c1, d1⟩ := h12 e
  obtain ⟨a2, b2, c2, d2⟩ := h23 e
  refine ⟨a2.trans a1, b2.trans b1, c2.trans c1, fun t ht => ?_⟩
  rw [d2 t (fun h => ht (hl2 t h)), d1 t (fun h => ht (hl1 t h))]

theorem ViewsKeep.mono {w1 w2 : World} {l1 l3 : List UI.RowState}
    (h12 : ViewsKeep w1 w2 l1) (hl1 : ∀ t, t ∈ l1 → t ∈ l3) : ViewsKeep w1 w2 l3 :=
  ViewsKeep.trans h12 (ViewsKeep.refl w2 []) hl1 (fun _ h => absurd h (List.not_mem_nil _))

theorem updateRowState_keep (s : UI.RowState) (v : Bool) (w : World) :
    ViewsKeep w (updateRowState s v w) [s] := by
  intro e
  refine ⟨by simp, by simp, by simp, fun t ht => ?_⟩
  exact updateRowState_state_other _ _ _ _ _ (by simpa using ht)

theorem UpdateExistsRowState_keep (w : World) :
    ViewsKeep w (UpdateExistsRowState w) [.NotExist] :=
  updateRowState_keep _ _ w

@[simp]
theorem UpdateExistsRowState_info (w : World) :
    (UpdateExistsRowState w).info = w.info := rfl

@[simp]
theorem UpdateExistsRowState_log (w : World) :
    (UpdateExistsRowState w).log = w.log := rfl

theorem UpdateFsDifferRowState_keep (w : World) :
    ViewsKeep w (UpdateFsDifferRowState w) [.FsDiffer] := by
  unfold UpdateFsDifferRowState
  split
  · exact ViewsKeep.refl _ _
  · exact updateRowState_keep _ _ w

@[simp]
theorem UpdateFsDifferRowState_info (w : World) :
    (UpdateFsDifferRowState w).info = w.info := by
  unfold UpdateFsDifferRowState
  split <;> rfl

@[simp]
theorem UpdateFsDifferRowState_log (w : World) :
    (UpdateFsDifferRowState w).log = w.log := by
  unfold UpdateFsDifferRowState
  split <;> rfl

theorem setFsHash_keep (h : Bytes) (w : World) : ViewsKeep w (setFsHash h w) [.FsDiffer] := by
  unfold setFsHash
  split
  · exact ViewsKeep.refl _ _
  · exact UpdateFsDifferRowState_keep _

@[simp]
theorem setFsHash_log (h : Bytes) (w : World) : (setFsHash h w).log = w.log := by
  unfold setFsHash
  split <;> simp

theorem setFsHash_info (h : Bytes) (w : World) :
    (setFsHash h w).info =
      match w.info.fi with
      | none => w.info
      | some fi => { w.info with fsHash := { modTime := fi.modTime, hash := h } } := by
  unfold setFsHash
  split <;> simp

theorem setFsHash_info_some (h : Bytes) (w : World) (fi : FileInfo) (hfi : w.info.fi = some fi) :
    (setFsHash h w).info = { w.info with fsHash := { modTime := fi.modTime, hash := h } } := by
  rw [setFsHash_info, hfi]

theorem setFsHash_info_none (h : Bytes) (w : World) (hfi : w.info.fi = none) :
    (setFsHash h w).info = w.info := by
  rw [setFsHash_info, hfi]

@[simp]
theorem setFsHash_fi (h : Bytes) (w : World) : (setFsHash h w).info.fi = w.info.fi := by
  rw [setFsHash_info]
  split <;> rfl

@[simp]
theorem setFsHash_fiErr (h : Bytes) (w : World) :
    (setFsHash h w).info.fiErr = w.info.fiErr := by
  rw [setFsHash_info]
  split <;> rfl

theorem setFsHash_infoKeep (h : Bytes) (w : World) : InfoKeep w (setFsHash h w) := by
  unfold InfoKeep
  rw [setFsHash_info]
  split <;> exact ⟨rfl, rfl, rfl⟩

theorem setSavedHash_keep (h : Bytes) (n : Nat) (w : World) :
    ViewsKeep w (setSavedHash h n w) [.FsDiffer] :=
  UpdateFsDifferRowState_keep _

@[simp]
theorem setSavedHash_info (h : Bytes) (n : Nat) (w : World) :
    (setSavedHash h n w).info = { w.info with savedHash := { size := n, hash := h } } := by
  simp [setSavedHash]

@[simp]
theorem setSavedHash_log (h : Bytes) (n : Nat) (w : World) :
    (setSavedHash h n w).log = w.log := by
  simp [setSavedHash]

/-- What readFileInfo leaves alone when it returns, and what it appends to the trace. -/
theorem readFileInfo_frame (st : Except OsError FileInfo) (w next : World)
    (h : readFileInfo st w = .ok next) :
    InfoKeep w next ∧ next.info.fsHash = w.info.fsHash ∧ ViewsKeep w next [.NotExist] ∧
    (next.log = w.log ∨ next.log = w.log ++ [Event.stat w.info.name]) ∧
    (w.info.fi.isSome = true → next.info.fi.isSome = true) ∧
    (∀ fi, st = .ok fi → next.info.fi = some fi ∨ next.info.fi = w.info.fi) ∧
    (∀ err, st = .error err → next.info.fi = w.info.fi) := by
  rcases readFileInfo_cases st w with ⟨f, _, h2⟩ | ⟨_, h2⟩ | ⟨_, ⟨err, hst, h2⟩ | ⟨fi, hst, h2⟩⟩
  · rw [h2] at h; cases h
  · rw [h2] at h; cases h
    exact ⟨⟨rfl, rfl, rfl⟩, rfl, ViewsKeep.refl _ _, Or.inl rfl, id, fun _ _ => Or.inr rfl,
      fun _ _ => rfl⟩
  · rw [h2] at h; cases h
    refine ⟨⟨rfl, rfl, rfl⟩, rfl, ?_, Or.inr rfl, id, fun _ _ => Or.inr rfl, fun _ _ => rfl⟩
    exact ViewsKeep.trans (ViewsKeep.of_rows_eq w _ [] rfl) (UpdateExistsRowState_keep _)
      (fun _ h => absurd h (List.not_mem_nil _)) (fun _ h => h)
  · rw [h2] at h; cases h
    refine ⟨⟨rfl, rfl, rfl⟩, rfl, ?_, Or.inr rfl, fun _ => rfl, fun fi2 h2 => ?_, fun err herr => ?_⟩
    · exact ViewsKeep.trans (ViewsKeep.of_rows_eq w _ [] rfl) (UpdateExistsRowState_keep _)
        (fun _ h => absurd h (List.not_mem_nil _)) (fun _ h => h)
    · rw [hst] at h2
      cases h2
      exact Or.inl rfl
    · rw [hst] at herr
      cases herr

theorem readFileInfo_returns (st : Except OsError FileInfo) (w : World)
    (h : w.info.name ≠ "") : ∃ next, readFileInfo st w = .ok next := by
  obtain ⟨b, hb⟩ := isSpecialName_ok _ h
  rcases readFileInfo_cases st w with ⟨f, h1, _⟩ | ⟨_, h2⟩ | ⟨_, ⟨err, _, h2⟩ | ⟨fi, _, h2⟩⟩
  · rw [hb] at h1; cases h1
  · exact ⟨_, h2⟩
  · exact ⟨_, h2⟩
  · exact ⟨_, h2⟩


theorem readFsFile_error (err : OsError) (st : Except OsError FileInfo) (w : World) :
    readFsFile (.error err) st w = .ok (w.emit (.readFile w.info.name), .error (.os err)) :=
  rfl

theorem readFsFile_ok (b : Bytes) (st : Except OsError FileInfo) (w : World) :
    readFsFile (.ok b) st w =
      (readFileInfo st (w.emit (.readFile w.info.name))).map
        (fun w1 => (setFsHash (bytesHash b) w1, .ok b)) := by
  unfold readFsFile
  cases h : readFileInfo st (w.emit (.readFile w.info.name)) <;> simp [h, Except.map]

/-- What readFsFile does when it returns: the trace gains the read; after a failed read
nothing else changes; after a read of b the filesystem hash is the digest of b, stamped with
the modification time of the cached stat, provided a stat is cached. -/
theorem readFsFile_frame (rd : Except OsError Bytes) (st : Except OsError FileInfo)
    (w next : World) (r : Except GoError Bytes) (h : readFsFile rd st w = .ok (next, r)) :
    InfoKeep w next ∧ ViewsKeep w next [.NotExist, .FsDiffer] ∧ readsFile w next ∧
    (w.info.fi.isSome = true → next.info.fi.isSome = true) ∧
    (∀ err, rd = .error err →
      r = .error (.os err) ∧ next.info = w.info ∧ next.rows = w.rows) ∧
    (∀ b, rd = .ok b → r = .ok b ∧
      ∀ fi, next.info.fi = some fi →
        next.info.fsHash = { modTime := fi.modTime, hash := bytesHash b }) := by
  cases rd with
  | error err =>
    rw [readFsFile_error] at h
    cases h
    refine ⟨⟨rfl, rfl, rfl⟩, ViewsKeep.of_rows_eq _ _ _ rfl, ⟨[], rfl⟩, id, ?_, ?_⟩
    · intro e he
      cases he
      exact ⟨rfl, rfl, rfl⟩
    · intro b hb
      cases hb
  | ok b =>
    rw [readFsFile_ok] at h
    cases h1 : readFileInfo st (w.emit (.readFile w.info.name)) with
    | error f => rw [h1] at h; cases h
    | ok w1 =>
      rw [h1] at h
      cases h
      obtain ⟨hik, _, hvk, hlog, hfi, _, _⟩ := readFileInfo_frame st _ w1 h1
      have hik2 := setFsHash_infoKeep (bytesHash b) w1
      refine ⟨?_, ?_, ?_, ?_, ?_, ?_⟩
      · exact ⟨hik2.1.trans hik.1, hik2.2.1.trans hik.2.1, hik2.2.2.trans hik.2.2⟩
      · refine ViewsKeep.trans (ViewsKeep.trans (ViewsKeep.of_rows_eq w _ [] rfl) hvk
          (fun _ h => absurd h (List.not_mem_nil _)) (fun _ h => h))
          (setFsHash_keep _ _) (fun t ht => ?_) (fun t ht => ?_)
        · simp only [List.mem_singleton] at ht
          simp [ht]
        · simp only [List.mem_singleton] at ht
          simp [ht]
      · unfold readsFile
        rw [setFsHash_log]
        rcases hlog with hlog | hlog
        · exact ⟨[], by rw [hlog]; rfl⟩
        · refine ⟨[Event.stat w.info.name], ?_⟩
          rw [hlog]
          simp [World.emit]
      · intro hsome
        rw [setFsHash_fi]
        exact hfi hsome
      · intro err he
        cases he
      · intro b2 hb
        cases hb
        refine ⟨rfl, fun fi hfi2 => ?_⟩
        rw [setFsHash_fi] at hfi2
        rw [setFsHash_info_some _ _ fi hfi2]

theorem readFsFile_returns (rd : Except OsError Bytes) (st : Except OsError FileInfo)
    (w : World) (h : w.info.name ≠ "") : ∃ next r, readFsFile rd st w = .ok (next, r) := by
  cases rd with
  | error err => exact ⟨_, _, readFsFile_error err st w⟩
  | ok b =>
    obtain ⟨w1, h1⟩ := readFileInfo_returns st (w.emit (.readFile w.info.name)) h
    exact ⟨_, _, by rw [readFsFile_ok, h1]; rfl⟩

theorem updateFsHashIfNeeded_eq (rd : Except OsError Bytes) (st : Except OsError FileInfo)
    (w : World) :
    updateFsHashIfNeeded rd st w =
      if w.info.modTimeChanged then (readFsFile rd st w).map Prod.fst else .ok w := by
  unfold updateFsHashIfNeeded ERowInfo.modTimeChanged ERowInfo.IsFileButNotDir
  cases hfi : w.info.fi with
  | none => rfl
  | some fi =>
    cases hd : fi.isDir with
    | true => simp [hd]; rfl
    | false =>
      by_cases ht : fi.modTime = w.info.fsHash.modTime
      · simp [hd, ht]; rfl
      · simp [hd, ht]
        cases readFsFile rd st w <;> rfl


theorem not_readsFile_self (w : World) : ¬ readsFile w w := by
  rintro ⟨tail, h⟩
  have := congrArg List.length h
  simp at this

theorem modTimeChanged_iff (info : ERowInfo) :
    info.modTimeChanged = true ↔
      info.IsFileButNotDir = true ∧ ∃ fi, info.fi = some fi ∧ fi.modTime ≠ info.fsHash.modTime := by
  unfold ERowInfo.modTimeChanged ERowInfo.IsFileButNotDir
  cases info.fi with
  | none => simp
  | some fi => simp

/-- C6: updateFsHashIfNeeded reads the file again exactly when the identity is a regular file
whose cached modification time is not equal to fsHash.modTime. In that case it returns
(for a non-empty name), and after a successful read of b the filesystem hash is the digest of
b stamped with the cached modification time, while after a failed read the identity is
unchanged. When the times are equal, or the identity is not a regular file, the whole state
(fsHash included) is returned unchanged. -/
theorem C6_updateFsHashIfNeeded (rd : Except OsError Bytes) (st : Except OsError FileInfo)
    (w : World) :
    (w.info.modTimeChanged = true ↔
      w.info.IsFileButNotDir = true ∧
        ∃ fi, w.info.fi = some fi ∧ fi.modTime ≠ w.info.fsHash.modTime) ∧
    (∀ next, updateFsHashIfNeeded rd st w = .ok next →
      (readsFile w next ↔ w.info.modTimeChanged = true)) ∧
    (w.info.modTimeChanged = false → updateFsHashIfNeeded rd st w = .ok w) ∧
    (∀ fi, w.info.fi = some fi → fi.modTime = w.info.fsHash.modTime →
      updateFsHashIfNeeded rd st w = .ok w) ∧
    (w.info.modTimeChanged = true → w.info.name ≠ "" →
      ∃ next, updateFsHashIfNeeded rd st w = .ok next) ∧
    (w.info.modTimeChanged = true →
      ∀ next, updateFsHashIfNeeded rd st w = .ok next →
        (∀ b, rd = .ok b → ∃ fi, next.info.fi = some fi ∧
          next.info.fsHash = { modTime := fi.modTime, hash := bytesHash b }) ∧
        (∀ err, rd = .error err → next.info = w.info ∧ next.rows = w.rows)) := by
  refine ⟨modTimeChanged_iff _, ?_, ?_, ?_, ?_, ?_⟩
  · intro next h
    rw [updateFsHashIfNeeded_eq] at h
    by_cases hc : w.info.modTimeChanged = true
    · rw [if_pos hc] at h
      cases hr : readFsFile rd st w with
      | error f => rw [hr] at h; cases h
      | ok p =>
        obtain ⟨w1, r⟩ := p
        rw [hr] at h
        cases h
        exact ⟨fun _ => hc, fun _ => (readFsFile_frame rd st w _ r hr).2.2.1⟩
    · rw [if_neg hc] at h
      cases h
      exact ⟨fun h => absurd h (not_readsFile_self _), fun h => absurd h hc⟩
  · intro hc
    rw [updateFsHashIfNeeded_eq, hc]
    rfl
  · intro fi hfi ht
    have hc : w.info.modTimeChanged = false := by
      unfold ERowInfo.modTimeChanged
      rw [hfi]
      simp [ht]
    rw [updateFsHashIfNeeded_eq, hc]
    rfl
  · intro hc hname
    obtain ⟨next, r, h⟩ := readFsFile_returns rd st w hname
    exact ⟨next, by rw [updateFsHashIfNeeded_eq, if_pos hc, h]; rfl⟩
  · intro hc next h
    rw [updateFsHashIfNeeded_eq, if_pos hc] at h
    cases hr : readFsFile rd st w with
    | error f => rw [hr] at h; cases h
    | ok p =>
      obtain ⟨w1, r⟩ := p
      rw [hr] at h
      cases h
      obtain ⟨_, _, _, hsome, herr, hok⟩ := readFsFile_frame rd st w _ r hr
      obtain ⟨_, fi0, hfi0, _⟩ := (modTimeChanged_iff _).1 hc
      refine ⟨fun b hb => ?_, fun err he => (herr err he).2⟩
      have h2 : w1.info.fi.isSome = true := hsome (by rw [hfi0]; rfl)
      obtain ⟨fi, hfi⟩ := Option.isSome_iff_exists.1 h2
      exact ⟨fi, hfi, (hok b hb).2 fi hfi⟩


/-- C6 at the sample file whose cached modification time 7 differs from fsHash.modTime 5:
the call returns. -/
theorem C6_updateFsHashIfNeeded_witness :
    ∃ next, updateFsHashIfNeeded (.ok [1, 2]) (.ok { isDir := false, modTime := 7 }) staleWorld
      = .ok next :=
  (C6_updateFsHashIfNeeded (.ok [1, 2]) (.ok { isDir := false, modTime := 7 })
    staleWorld).2.2.2.2.1 (by decide) (by decide)

theorem UpdateDiskEvent_eq (env : DiskEnv) (w : World) :
    UpdateDiskEvent env w =
      (readFileInfo env.stat w).bind (fun w1 =>
        if w1.info.IsFileButNotDir then updateFsHashIfNeeded env.read env.statAfterRead w1
        else .ok w1) := by
  unfold UpdateDiskEvent
  cases readFileInfo env.stat w <;> rfl

/-- C7: UpdateDiskEvent returns for every identity with a non-empty name and every outcome of
the stats and of the read, and whenever it returns the view list, the name and savedHash are
the same as before, every view has the same content, the same callback flag and the same
Edited state, and the only row states that can differ are NotExist and FsDiffer. -/
theorem C7_UpdateDiskEvent (env : DiskEnv) (w : World) :
    (w.info.name ≠ "" → ∃ next, UpdateDiskEvent env w = .ok next) ∧
    (∀ next, UpdateDiskEvent env w = .ok next →
      next.info.savedHash = w.info.savedHash ∧
      next.info.ERows = w.info.ERows ∧
      next.info.name = w.info.name ∧
      (∀ e, (next.rows e).content = (w.rows e).content) ∧
      (∀ e, (next.rows e).disableTextAreaSetStrCallback
        = (w.rows e).disableTextAreaSetStrCallback) ∧
      (∀ e, (next.rows e).state .Edited = (w.rows e).state .Edited) ∧
      (∀ e t, t ≠ UI.RowState.NotExist → t ≠ UI.RowState.FsDiffer →
        (next.rows e).state t = (w.rows e).state t)) := by
  have key : ∀ next, UpdateDiskEvent env w = .ok next →
      InfoKeep w next ∧ ViewsKeep w next [.NotExist, .FsDiffer] := by
    intro next h
    rw [UpdateDiskEvent_eq] at h
    cases h1 : readFileInfo env.stat w with
    | error f => rw [h1] at h; cases h
    | ok w1 =>
      rw [h1] at h
      obtain ⟨hik, _, hvk, _⟩ := readFileInfo_frame env.stat w w1 h1
      have hvk1 : ViewsKeep w w1 [.NotExist, .FsDiffer] :=
        hvk.mono (fun t ht => by simp only [List.mem_singleton] at ht; simp [ht])
      simp only [Except.bind] at h
      split at h
      · rw [updateFsHashIfNeeded_eq] at h
        split at h
        · cases hr : readFsFile env.read env.statAfterRead w1 with
          | error f => rw [hr] at h; cases h
          | ok p =>
            obtain ⟨w2, r⟩ := p
            rw [hr] at h
            cases h
            obtain ⟨hik2, hvk2, _⟩ := readFsFile_frame _ _ w1 _ r hr
            exact ⟨⟨hik2.1.trans hik.1, hik2.2.1.trans hik.2.1, hik2.2.2.trans hik.2.2⟩,
              ViewsKeep.trans hvk1 hvk2 (fun _ h => h) (fun _ h => h)⟩
        · cases h
          exact ⟨hik, hvk1⟩
      · cases h
        exact ⟨hik, hvk1⟩
  refine ⟨fun hname => ?_, fun next h => ?_⟩
  · obtain ⟨w1, h1⟩ := readFileInfo_returns env.stat w hname
    have hn1 : w1.info.name ≠ "" := by
      rw [(readFileInfo_frame env.stat w w1 h1).1.2.1]
      exact hname
    rw [UpdateDiskEvent_eq, h1]
    simp only [Except.bind]
    split
    · rw [updateFsHashIfNeeded_eq]
      split
      · obtain ⟨next, r, h⟩ := readFsFile_returns env.read env.statAfterRead w1 hn1
        exact ⟨next, by rw [h]; rfl⟩
      · exact ⟨_, rfl⟩
    · exact ⟨_, rfl⟩
  · obtain ⟨hik, hvk⟩ := key next h
    refine ⟨hik.2.2, hik.1, hik.2.1, fun e => (hvk e).1, fun e => (hvk e).2.2.1,
      fun e => (hvk e).2.2.2 _ (by decide), fun e t h1 h2 => (hvk e).2.2.2 t ?_⟩
    simp only [List.mem_cons, List.mem_singleton, List.not_mem_nil, or_false, not_or]
    exact ⟨h1, h2⟩

/-- C7 at the sample file after its modification time moved: the call returns. -/
theorem C7_UpdateDiskEvent_witness :
    ∃ next, UpdateDiskEvent sampleDiskEnv staleWorld = .ok next :=
  (C7_UpdateDiskEvent sampleDiskEnv staleWorld).1 (by decide)


@[simp]
theorem disableCB_info (v : Bool) (w : World) : (disableCB v w).info = w.info := rfl

@[simp]
theorem disableCB_log (v : Bool) (w : World) : (disableCB v w).log = w.log := rfl

theorem disableCB_rows (v : Bool) (w : World) (id : RowId) :
    (disableCB v w).rows id
      = if id ∈ w.info.ERows then { w.rows id with disableTextAreaSetStrCallback := v }
        else w.rows id := by
  simp only [disableCB]
  exact foldl_update_apply (fun r : ERow => { r with disableTextAreaSetStrCallback := v })
    (fun _ => rfl) _ _ _

@[simp]
theorem disableCB_content (v : Bool) (w : World) (id : RowId) :
    ((disableCB v w).rows id).content = (w.rows id).content := by
  rw [disableCB_rows]; split <;> rfl

@[simp]
theorem disableCB_bytesErr (v : Bool) (w : World) (id : RowId) :
    ((disableCB v w).rows id).bytesErr = (w.rows id).bytesErr := by
  rw [disableCB_rows]; split <;> rfl

@[simp]
theorem disableCB_state (v : Bool) (w : World) (id : RowId) :
    ((disableCB v w).rows id).state = (w.rows id).state := by
  rw [disableCB_rows]; split <;> rfl

theorem disableCB_flag_mem (v : Bool) (w : World) (id : RowId) (h : id ∈ w.info.ERows) :
    ((disableCB v w).rows id).disableTextAreaSetStrCallback = v := by
  rw [disableCB_rows, if_pos h]

theorem disableCB_rows_not_mem (v : Bool) (w : World) (id : RowId) (h : id ∉ w.info.ERows) :
    (disableCB v w).rows id = w.rows id := by
  rw [disableCB_rows, if_neg h]

theorem allDisabled_iff (w : World) :
    allDisabled w = true ↔ ∀ e ∈ w.info.ERows, (w.rows e).disableTextAreaSetStrCallback = true := by
  simp [allDisabled, List.all_eq_true]

theorem UpdateEditedRowState_keep (w : World) :
    ViewsKeep w (UpdateEditedRowState w) [.Edited] ∧ (UpdateEditedRowState w).info = w.info ∧
      ∃ tail, (UpdateEditedRowState w).log = w.log ++ tail ∧
        ∀ ev ∈ tail, ∃ err, ev = Event.edError err := by
  by_cases hf : w.info.IsFileButNotDir = true
  · cases hv : w.info.ERows with
    | nil =>
      have : UpdateEditedRowState w = w := by simp [UpdateEditedRowState, hv]
      rw [this]
      exact ⟨ViewsKeep.refl _ _, rfl, [], by simp, by simp⟩
    | cons e0 rest =>
      rw [UpdateEditedRowState_eq w hf e0 rest hv]
      cases hb : (w.rows e0).Bytes with
      | error err =>
        refine ⟨?_, rfl, [Event.edError err], rfl, ?_⟩
        · exact ViewsKeep.trans (ViewsKeep.of_rows_eq w (w.emit (.edError err)) [] rfl)
            (updateRowState_keep _ _ _) (fun _ h => absurd h (List.not_mem_nil _)) (fun _ h => h)
        · intro ev hev
          simp only [List.mem_singleton] at hev
          exact ⟨err, hev⟩
      | ok b =>
        exact ⟨updateRowState_keep _ _ _, rfl, [], by simp, by simp⟩
  · have : UpdateEditedRowState w = w := by simp [UpdateEditedRowState, hf]
    rw [this]
    exact ⟨ViewsKeep.refl _ _, rfl, [], by simp, by simp⟩

/-- The loop of updateDuplicatesBytes over a part of the view list, started in a state where
every view of the identity has its callback disabled: no callback recurses, every view of the
part other than the master receives the content of the master, and nothing else changes. -/
theorem updateDuplicatesBytesLoop_spec (mirror : World → RowId → Except Fault World)
    (m : RowId) (l : List RowId) (w : World)
    (hl : ∀ e ∈ l, e ∈ w.info.ERows) (hd : allDisabled w = true) :
    ∃ next, updateDuplicatesBytesLoop mirror m l w = .ok next ∧
      next.info = w.info ∧
      (∀ e, next.rows e =
        if e ∈ l ∧ e ≠ m then { w.rows e with content := (w.rows m).content } else w.rows e) ∧
      next.log = w.log ++ (l.filter (fun e => e != m)).map
        (fun e => Event.updateDuplicate m e true) := by
  induction l generalizing w with
  | nil => exact ⟨w, rfl, rfl, fun e => by simp, by simp⟩
  | cons e rest ih =>
    unfold updateDuplicatesBytesLoop
    by_cases hem : e = m
    · subst hem
      obtain ⟨next, h1, h2, h3, h4⟩ := ih w (fun x hx => hl x (List.mem_cons_of_mem _ hx)) hd
      refine ⟨next, by simpa using h1, h2, fun x => ?_, by simpa using h4⟩
      rw [h3]
      by_cases hx : x = e
      · simp [hx]
      · simp [hx]
    · have hne : (e == m) = false := by simpa using hem
      have hflag : (w.rows e).disableTextAreaSetStrCallback = true :=
        (allDisabled_iff w).1 hd e (hl e (List.mem_cons_self _ _))
      let w1 : World :=
        { (w.emit (.updateDuplicate m e (allDisabled w))) with
          rows := Function.update w.rows e { w.rows e with content := (w.rows m).content } }
      have hstep : TextArea.UpdateDuplicate mirror w m e = .ok w1 := by
        simp [TextArea.UpdateDuplicate, ERow.setStrCallback, hflag, w1, World.emit]
      have hd1 : allDisabled w1 = true := by
        rw [allDisabled_iff]
        intro x hx
        have hx0 := (allDisabled_iff w).1 hd x hx
        by_cases hxe : x = e
        · subst hxe
          simp [w1, hflag]
        · simp [w1, Function.update_noteq hxe, hx0]
      obtain ⟨next, h1, h2, h3, h4⟩ := ih w1 (fun x hx => hl x (List.mem_cons_of_mem _ hx)) hd1
      have hm1 : w1.rows m = w.rows m := by
        simp [w1, Function.update_noteq (Ne.symm hem)]
      refine ⟨next, ?_, h2, fun x => ?_, ?_⟩
      · simp only [hne, Bool.false_eq_true, if_false, hstep]
        exact h1
      · rw [h3, hm1]
        by_cases hxe : x = e
        · subst hxe
          by_cases hxr : x ∈ rest
          · simp [hxr, hem, w1]
          · simp [hxr, hem, w1]
        · have : w1.rows x = w.rows x := by simp [w1, Function.update_noteq hxe]
          rw [this]
          simp [hxe]
      · rw [h4]
        simp [w1, World.emit, hem, hd, List.filter_cons]


theorem SetRowsStrFromMaster_not_file (fuel : Nat) (w : World) (m : RowId)
    (hf : w.info.IsFileButNotDir = false) : SetRowsStrFromMaster (fuel + 1) w m = .ok w := by
  simp [SetRowsStrFromMaster, hf]

theorem SetRowsStrFromMaster_eq (fuel : Nat) (w : World) (m : RowId)
    (hf : w.info.IsFileButNotDir = true) :
    SetRowsStrFromMaster (fuel + 1) w m =
      (updateDuplicatesBytesLoop (SetRowsStrFromMaster fuel) m w.info.ERows
        (disableCB true w)).map (fun w2 => disableCB false (UpdateEditedRowState w2)) := by
  rw [SetRowsStrFromMaster]
  simp only [hf, Bool.not_true, Bool.false_eq_true, if_false, updateDuplicatesBytes,
    disableCB_info]
  cases updateDuplicatesBytesLoop (SetRowsStrFromMaster fuel) m w.info.ERows (disableCB true w)
    <;> rfl

/-- The bytes the Edited state is computed from after mirroring from master m: the content of
m, or nothing when TextArea.Bytes of the first view fails. -/
theorem SetRowsStrFromMaster_spec (fuel : Nat) (w : World) (m : RowId)
    (hf : w.info.IsFileButNotDir = true) :
    ∃ next, SetRowsStrFromMaster (fuel + 1) w m = .ok next ∧
      next.info = w.info ∧
      (∀ e, (next.rows e).content =
        if e ∈ w.info.ERows ∧ e ≠ m then (w.rows m).content else (w.rows e).content) ∧
      (∀ e, (next.rows e).bytesErr = (w.rows e).bytesErr) ∧
      (∀ e, (next.rows e).disableTextAreaSetStrCallback =
        if e ∈ w.info.ERows then false else (w.rows e).disableTextAreaSetStrCallback) ∧
      (∀ e t, t ≠ UI.RowState.Edited → (next.rows e).state t = (w.rows e).state t) ∧
      (∀ e0 rest, w.info.ERows = e0 :: rest → ∀ e ∈ w.info.ERows,
        (next.rows e).state .Edited =
          decide ((bytesOrEmpty (next.rows e0)).length ≠ w.info.savedHash.size
            ∨ bytesHash (bytesOrEmpty (next.rows e0)) ≠ w.info.savedHash.hash)) ∧
      (∃ tail, next.log = w.log ++ (w.info.ERows.filter (fun e => e != m)).map
          (fun e => Event.updateDuplicate m e true) ++ tail ∧
        ∀ ev ∈ tail, ∃ err, ev = Event.edError err) := by
  have hd : allDisabled (disableCB true w) = true := by
    rw [allDisabled_iff]
    intro e he
    exact disableCB_flag_mem true w e he
  obtain ⟨w2, h1, h2, h3, h4⟩ := updateDuplicatesBytesLoop_spec (SetRowsStrFromMaster fuel) m
    w.info.ERows (disableCB true w) (fun e he => he) hd
  obtain ⟨hk, hi, tail, hlog, htail⟩ := UpdateEditedRowState_keep w2
  have hi2 : w2.info = w.info := h2
  have hcontent2 : ∀ e, (w2.rows e).content =
      if e ∈ w.info.ERows ∧ e ≠ m then (w.rows m).content else (w.rows e).content := by
    intro e
    rw [h3]
    split <;> simp
  have hbytes2 : ∀ e, (w2.rows e).bytesErr = (w.rows e).bytesErr := by
    intro e
    rw [h3]
    split <;> simp
  have hstate2 : ∀ e, (w2.rows e).state = (w.rows e).state := by
    intro e
    rw [h3]
    split <;> simp
  refine ⟨disableCB false (UpdateEditedRowState w2), ?_, ?_, ?_, ?_, ?_, ?_, ?_, ?_⟩
  · rw [SetRowsStrFromMaster_eq fuel w m hf, h1]
    rfl
  · rw [disableCB_info, hi, hi2]
  · intro e
    rw [disableCB_content, (hk e).1, hcontent2]
  · intro e
    rw [disableCB_bytesErr, (hk e).2.1, hbytes2]
  · intro e
    by_cases he : e ∈ w.info.ERows
    · rw [disableCB_flag_mem _ _ _ (by rw [hi, hi2]; exact he), if_pos he]
    · rw [disableCB_rows_not_mem _ _ _ (by rw [hi, hi2]; exact he), if_neg he, (hk e).2.2.1,
        h3, if_neg (fun h => he h.1)]
      exact congrArg ERow.disableTextAreaSetStrCallback (disableCB_rows_not_mem _ _ _ he)
  · intro e t ht
    rw [disableCB_state, (hk e).2.2.2 t (by simpa using ht), hstate2]
  · intro e0 rest hv e he
    have hf2 : w2.info.IsFileButNotDir = true := by rw [hi2]; exact hf
    have hv2 : w2.info.ERows = e0 :: rest := by rw [hi2]; exact hv
    have hbo : ∀ x, bytesOrEmpty ((disableCB false (UpdateEditedRowState w2)).rows x)
        = bytesOrEmpty (w2.rows x) := by
      intro x
      unfold bytesOrEmpty ERow.Bytes
      rw [disableCB_content, disableCB_bytesErr, (hk x).1, (hk x).2.1]
    rw [disableCB_state, hbo, UpdateEditedRowState_eq w2 hf2 e0 rest hv2,
      updateRowState_state_mem, hi2]
    have : (match (w2.rows e0).Bytes with
        | .error err => w2.emit (.edError err)
        | .ok _ => w2).info = w2.info := by
      cases (w2.rows e0).Bytes <;> rfl
    rw [this, hi2]
    exact he
  · refine ⟨tail, ?_, htail⟩
    rw [disableCB_log, hlog, h4, disableCB_log]

/-- C10: on a regular file, SetRowsStrFromMaster with master m returns for every positive
recursion budget; it calls UpdateDuplicate once for every view of the list other than m, in
list order and never for m, each call made while every view of the identity has
disableTextAreaSetStrCallback set; afterwards every view of the list other than m holds the
content of m, the content of m and of views outside the list is as before, and the flag is
false on every view of the list. On an identity that is not a regular file the state is
returned unchanged. -/
theorem C10_SetRowsStrFromMaster (fuel : Nat) (w : World) (m : RowId) :
    (w.info.IsFileButNotDir = true → m ∈ w.info.ERows →
      ∃ next, SetRowsStrFromMaster (fuel + 1) w m = .ok next ∧
        next.info = w.info ∧
        (∀ e ∈ w.info.ERows, e ≠ m → (next.rows e).content = (w.rows m).content) ∧
        (next.rows m).content = (w.rows m).content ∧
        (∀ e, e ∉ w.info.ERows → (next.rows e).content = (w.rows e).content) ∧
        (∀ e ∈ w.info.ERows, (next.rows e).disableTextAreaSetStrCallback = false) ∧
        (∃ tail, next.log = w.log ++ (w.info.ERows.filter (fun e => e != m)).map
            (fun e => Event.updateDuplicate m e true) ++ tail ∧
          ∀ ev ∈ tail, ∃ err, ev = Event.edError err)) ∧
    (w.info.IsFileButNotDir = false → SetRowsStrFromMaster (fuel + 1) w m = .ok w) := by
  refine ⟨fun hf _ => ?_, SetRowsStrFromMaster_not_file fuel w m⟩
  obtain ⟨next, h1, h2, h3, _, h5, _, _, h8⟩ := SetRowsStrFromMaster_spec fuel w m hf
  refine ⟨next, h1, h2, ?_, ?_, ?_, ?_, h8⟩
  · intro e he hne
    rw [h3, if_pos ⟨he, hne⟩]
  · rw [h3, if_neg (fun h => h.2 rfl)]
  · intro e he
    rw [h3, if_neg (fun h => he h.1)]
  · intro e he
    rw [h5, if_pos he]

/-- C10 at the sample regular file with master view 0 holding the bytes 1, 2 and an empty view 1. -/
theorem C10_SetRowsStrFromMaster_witness :
    ∃ next, SetRowsStrFromMaster 1 mirrorWorld 0 = .ok next ∧
      next.info = mirrorWorld.info ∧
      (∀ e ∈ mirrorWorld.info.ERows, e ≠ 0 →
        (next.rows e).content = (mirrorWorld.rows 0).content) ∧
      (next.rows 0).content = (mirrorWorld.rows 0).content ∧
      (∀ e, e ∉ mirrorWorld.info.ERows → (next.rows e).content = (mirrorWorld.rows e).content) ∧
      (∀ e ∈ mirrorWorld.info.ERows, (next.rows e).disableTextAreaSetStrCallback = false) ∧
      (∃ tail, next.log = mirrorWorld.log ++
          (mirrorWorld.info.ERows.filter (fun e => e != 0)).map
            (fun e => Event.updateDuplicate 0 e true) ++ tail ∧
        ∀ ev ∈ tail, ∃ err, ev = Event.edError err) :=
  (C10_SetRowsStrFromMaster 0 mirrorWorld 0).1 rfl (by decide)


theorem saveFsFile_open_err (env : SaveEnv) (w : World) (b : Bytes) (err : OsError)
    (h : env.openErr = some err) :
    saveFsFile env w b = .ok (w.emit (.openFile w.info.name), some (.os err)) := by
  unfold saveFsFile
  rw [h]
  rfl

theorem saveFsFile_write_err (env : SaveEnv) (w : World) (b : Bytes) (err : OsError)
    (ho : env.openErr = none) (h : env.writeErr = some err) :
    saveFsFile env w b =
      .ok ((w.emit (.openFile w.info.name)).emit (.write w.info.name b), some (.os err)) := by
  unfold saveFsFile
  rw [ho, h]
  rfl

theorem saveFsFile_written (env : SaveEnv) (w : World) (b : Bytes)
    (ho : env.openErr = none) (hw : env.writeErr = none) :
    saveFsFile env w b =
      (readFileInfo env.stat ((w.emit (.openFile w.info.name)).emit (.write w.info.name b))).map
        (fun w3 => (setSavedHash (bytesHash b) b.length (setFsHash (bytesHash b) w3), none)) := by
  unfold saveFsFile
  rw [ho, hw]
  change (readFileInfo env.stat
    ((w.emit (.openFile w.info.name)).emit (.write w.info.name b)) >>= fun w3 =>
      pure (setSavedHash (bytesHash b) b.length (setFsHash (bytesHash b) w3), none)) = _
  cases readFileInfo env.stat ((w.emit (.openFile w.info.name)).emit (.write w.info.name b))
    <;> rfl

theorem saveFile_not_file (env : SaveEnv) (w : World) (b : Bytes)
    (hf : w.info.IsFileButNotDir = false) :
    saveFile env w b = .ok (w, none, false, some (.notAFile w.info.name)) := by
  unfold saveFile
  simp [hf]
  rfl

theorem saveFile_file (env : SaveEnv) (w : World) (b : Bytes)
    (hf : w.info.IsFileButNotDir = true) :
    ∃ changes, saveFile env w b =
      (saveFsFile env (afterGoImports w) (writtenBytes env w.info.name b)).map
        (fun p => match p.2 with
          | some err => (p.1, none, changes, some err)
          | none => (p.1, some (writtenBytes env w.info.name b), changes, none)) := by
  unfold saveFile afterGoImports writtenBytes
  simp only [hf, Bool.not_true, Bool.false_eq_true, if_false]
  by_cases hext : (filepathExt w.info.name == ".go") = true
  · simp only [hext, if_true]
    cases hg : env.goimports with
    | ok u =>
      refine ⟨true, ?_⟩
      simp only [bind, Except.bind, pure, Except.pure, Except.map]
      cases saveFsFile env (w.emit (Event.goimports (filepathDir w.info.name))) u with
      | error f => rfl
      | ok p =>
        obtain ⟨w1, e⟩ := p
        cases e <;> rfl
    | error e =>
      refine ⟨false, ?_⟩
      simp only [bind, Except.bind, pure, Except.pure, Except.map]
      cases saveFsFile env (w.emit (Event.goimports (filepathDir w.info.name))) b with
      | error f => rfl
      | ok p =>
        obtain ⟨w1, e⟩ := p
        cases e <;> rfl
  · simp only [hext, Bool.false_eq_true, if_false]
    refine ⟨false, ?_⟩
    simp only [bind, Except.bind, pure, Except.pure, Except.map]
    cases saveFsFile env w b with
    | error f => rfl
    | ok p =>
      obtain ⟨w1, e⟩ := p
      cases e <;> rfl


theorem SaveFile_no_views (fuel : Nat) (env : SaveEnv) (w : World) (hv : w.info.ERows = []) :
    SaveFile fuel env w = .ok (w, none) := by
  unfold SaveFile
  rw [hv]
  rfl

theorem SaveFile_bytes_err (fuel : Nat) (env : SaveEnv) (w : World) (e0 : RowId)
    (rest : List RowId) (hv : w.info.ERows = e0 :: rest) (err : GoError)
    (hb : (w.rows e0).Bytes = .error err) :
    SaveFile fuel env w = .ok (w, some err) := by
  unfold SaveFile
  rw [hv]
  simp only [hb]
  rfl

theorem SaveFile_not_file (fuel : Nat) (env : SaveEnv) (w : World) (e0 : RowId)
    (rest : List RowId) (hv : w.info.ERows = e0 :: rest) (b : Bytes)
    (hb : (w.rows e0).Bytes = .ok b) (hf : w.info.IsFileButNotDir = false) :
    SaveFile fuel env w = .ok (w, some (.notAFile w.info.name)) := by
  unfold SaveFile
  rw [hv]
  simp only [hb, saveFile_not_file env w b hf]
  rfl

theorem SaveFile_file (fuel : Nat) (env : SaveEnv) (w : World) (e0 : RowId)
    (rest : List RowId) (hv : w.info.ERows = e0 :: rest) (b : Bytes)
    (hb : (w.rows e0).Bytes = .ok b) (hf : w.info.IsFileButNotDir = true) :
    SaveFile fuel env w =
      (saveFsFile env (afterGoImports w) (writtenBytes env w.info.name b)).bind
        (fun p => match p.2 with
          | some err => .ok (p.1, some err)
          | none => (SetRowsBytes fuel p.1 (writtenBytes env w.info.name b)).map
              (fun w5 => (w5, none))) := by
  obtain ⟨changes, hs⟩ := saveFile_file env w b hf
  unfold SaveFile
  rw [hv]
  simp only [hb, hs]
  cases saveFsFile env (afterGoImports w) (writtenBytes env w.info.name b) with
  | error f => rfl
  | ok p =>
    obtain ⟨w4, e⟩ := p
    cases e with
    | some err => rfl
    | none =>
      simp only [Except.map, Except.bind, bind, pure, Except.pure, Option.getD]

@[simp]
theorem afterGoImports_info (w : World) : (afterGoImports w).info = w.info := by
  unfold afterGoImports
  split <;> rfl

@[simp]
theorem afterGoImports_rows (w : World) : (afterGoImports w).rows = w.rows := by
  unfold afterGoImports
  split <;> rfl

/-- C3: on an identity without views SaveFile returns success for every recursion budget and
every outcome of the filesystem calls, and the returned state is the state it was called in:
nothing is appended to the trace (no file is opened or written), and savedHash, fsHash and
the cached stat are those of before. -/
theorem C3_SaveFile_no_views (fuel : Nat) (env : SaveEnv) (w : World)
    (hv : w.info.ERows = []) :
    SaveFile fuel env w = .ok (w, none) ∧
    ∀ next r, SaveFile fuel env w = .ok (next, r) →
      r = none ∧ next.log = w.log ∧ next.info.savedHash = w.info.savedHash ∧
      next.info.fsHash = w.info.fsHash ∧ next.info.fi = w.info.fi ∧
      next.info.fiErr = w.info.fiErr := by
  refine ⟨SaveFile_no_views fuel env w hv, fun next r h => ?_⟩
  rw [SaveFile_no_views fuel env w hv] at h
  cases h
  exact ⟨rfl, rfl, rfl, rfl, rfl, rfl⟩

/-- C3 at the sample identity without views, for a filesystem on which the save would
succeed. -/
theorem C3_SaveFile_no_views_witness :
    SaveFile 0 sampleSaveEnv noViewsWorld = .ok (noViewsWorld, none) :=
  (C3_SaveFile_no_views 0 sampleSaveEnv noViewsWorld rfl).1

/-- C2: when SaveFile returns an error, the identity (view list, name, cached stat, savedHash
and fsHash) and every ERow (content, row states, callback flag) are the same as before the
call. With at least one view, SaveFile does return an error, for every recursion budget,
whenever TextArea.Bytes of the first view fails, the identity is not a regular file, or
opening or writing the file fails. -/
theorem C2_SaveFile_failure (fuel : Nat) (env : SaveEnv) (w : World) :
    (∀ next err, SaveFile fuel env w = .ok (next, some err) →
      next.info = w.info ∧ next.rows = w.rows) ∧
    (∀ e0 rest, w.info.ERows = e0 :: rest →
      ((∃ err, (w.rows e0).Bytes = .error err) ∨ w.info.IsFileButNotDir = false ∨
        env.openErr ≠ none ∨ env.writeErr ≠ none) →
      ∃ next err, SaveFile fuel env w = .ok (next, some err)) := by
  refine ⟨fun next err h => ?_, fun e0 rest hv hc => ?_⟩
  · cases hv : w.info.ERows with
    | nil =>
      rw [SaveFile_no_views fuel env w hv] at h
      cases h
    | cons e0 rest =>
      cases hb : (w.rows e0).Bytes with
      | error e =>
        rw [SaveFile_bytes_err fuel env w e0 rest hv e hb] at h
        cases h
        exact ⟨rfl, rfl⟩
      | ok b =>
        cases hf : w.info.IsFileButNotDir with
        | false =>
          rw [SaveFile_not_file fuel env w e0 rest hv b hb hf] at h
          cases h
          exact ⟨rfl, rfl⟩
        | true =>
          rw [SaveFile_file fuel env w e0 rest hv b hb hf] at h
          cases ho : env.openErr with
          | some oe =>
            rw [saveFsFile_open_err env _ _ oe ho] at h
            cases h
            exact ⟨afterGoImports_info w, afterGoImports_rows w⟩
          | none =>
            cases hw : env.writeErr with
            | some we =>
              rw [saveFsFile_write_err env _ _ we ho hw] at h
              cases h
              exact ⟨afterGoImports_info w, afterGoImports_rows w⟩
            | none =>
              rw [saveFsFile_written env _ _ ho hw] at h
              cases hr : readFileInfo env.stat (((afterGoImports w).emit
                  (.openFile (afterGoImports w).info.name)).emit
                  (.write (afterGoImports w).info.name (writtenBytes env w.info.name b))) with
              | error f => rw [hr] at h; cases h
              | ok w3 =>
                rw [hr] at h
                simp only [Except.map, Except.bind] at h
                cases hs : SetRowsBytes fuel
                    (setSavedHash (bytesHash (writtenBytes env w.info.name b))
                      (writtenBytes env w.info.name b).length
                      (setFsHash (bytesHash (writtenBytes env w.info.name b)) w3))
                    (writtenBytes env w.info.name b) with
                | error f => rw [hs] at h; cases h
                | ok w5 => rw [hs] at h; cases h
  · cases hb : (w.rows e0).Bytes with
    | error e => exact ⟨_, _, SaveFile_bytes_err fuel env w e0 rest hv e hb⟩
    | ok b =>
      cases hf : w.info.IsFileButNotDir with
      | false => exact ⟨_, _, SaveFile_not_file fuel env w e0 rest hv b hb hf⟩
      | true =>
        rw [SaveFile_file fuel env w e0 rest hv b hb hf]
        cases ho : env.openErr with
        | some oe =>
          rw [saveFsFile_open_err env _ _ oe ho]
          exact ⟨_, _, rfl⟩
        | none =>
          cases hw : env.writeErr with
          | some we =>
            rw [saveFsFile_write_err env _ _ we ho hw]
            exact ⟨_, _, rfl⟩
          | none =>
            exfalso
            rcases hc with ⟨e, he⟩ | hc | hc | hc
            · rw [hb] at he; cases he
            · rw [hf] at hc; cases hc
            · exact hc ho
            · exact hc hw

/-- C2 at the sample file with two views when opening the file fails with a permission
error. -/
theorem C2_SaveFile_failure_witness :
    (editedWorld.emit (.openFile "a.txt")).info = editedWorld.info ∧
      (editedWorld.emit (.openFile "a.txt")).rows = editedWorld.rows :=
  (C2_SaveFile_failure 1 failingSaveEnv editedWorld).1
    (editedWorld.emit (.openFile "a.txt")) (.os .permission) rfl


theorem readFileInfo_isFile (st : Except OsError FileInfo) (w next : World)
    (h : readFileInfo st w = .ok next) (hf : w.info.IsFileButNotDir = true)
    (hstat : ∀ fi, st = .ok fi → fi.isDir = false) : next.info.IsFileButNotDir = true := by
  obtain ⟨_, _, _, _, _, hok, herr⟩ := readFileInfo_frame st w next h
  cases st with
  | error err =>
    unfold ERowInfo.IsFileButNotDir
    rw [herr err rfl]
    exact hf
  | ok fi =>
    rcases hok fi rfl with h1 | h1
    · unfold ERowInfo.IsFileButNotDir
      rw [h1]
      simp [hstat fi rfl]
    · unfold ERowInfo.IsFileButNotDir
      rw [h1]
      exact hf

theorem UpdateFsDifferRowState_state_mem (w : World) (hf : w.info.IsFileButNotDir = true)
    (e : RowId) (he : e ∈ w.info.ERows) :
    ((UpdateFsDifferRowState w).rows e).state .FsDiffer
      = !(w.info.fsHash.hash == w.info.savedHash.hash) := by
  simp [UpdateFsDifferRowState, hf, updateRowState_state_mem _ _ _ _ he]

theorem IsFileButNotDir_some (info : ERowInfo) (hf : info.IsFileButNotDir = true) :
    ∃ fi, info.fi = some fi := by
  unfold ERowInfo.IsFileButNotDir at hf
  cases h : info.fi with
  | none => rw [h] at hf; cases hf
  | some fi => exact ⟨fi, rfl⟩

/-- The state after the two hash updates of saveFsFile on a regular file. -/
theorem setHashes_spec (h : Bytes) (n : Nat) (w : World) (hf : w.info.IsFileButNotDir = true) :
    (setSavedHash h n (setFsHash h w)).info.savedHash = { size := n, hash := h } ∧
    (setSavedHash h n (setFsHash h w)).info.fsHash.hash = h ∧
    (setSavedHash h n (setFsHash h w)).info.ERows = w.info.ERows ∧
    (setSavedHash h n (setFsHash h w)).info.fi = w.info.fi ∧
    (setSavedHash h n (setFsHash h w)).log = w.log ∧
    ViewsKeep w (setSavedHash h n (setFsHash h w)) [.FsDiffer] ∧
    ∀ e ∈ w.info.ERows, ((setSavedHash h n (setFsHash h w)).rows e).state .FsDiffer = false := by
  obtain ⟨fi, hfi⟩ := IsFileButNotDir_some _ hf
  have hi := setFsHash_info_some h w fi hfi
  refine ⟨by simp, by simp [hi], by simp [hi], by simp, by simp, ?_, ?_⟩
  · exact ViewsKeep.trans (setFsHash_keep h w) (setSavedHash_keep h n _) (fun _ x => x)
      (fun _ x => x)
  · intro e he
    unfold setSavedHash
    rw [UpdateFsDifferRowState_state_mem]
    · simp [hi]
    · show ERowInfo.IsFileButNotDir { (setFsHash h w).info with savedHash := _ } = true
      unfold ERowInfo.IsFileButNotDir
      simp only [setFsHash_fi]
      exact hf
    · show e ∈ (setFsHash h w).info.ERows
      rw [hi]
      exact he

/-- SetRowsBytes on a regular file with first view e0: it returns for every positive
recursion budget and touches neither the identity nor a row state other than Edited; when the
callback of e0 is enabled and e0 can be read, every view of the list receives the bytes and
the Edited state is recomputed from them. -/
theorem SetRowsBytes_spec (fuel : Nat) (w : World) (b : Bytes) (e0 : RowId) (rest : List RowId)
    (hf : w.info.IsFileButNotDir = true) (hv : w.info.ERows = e0 :: rest) :
    ∃ next, SetRowsBytes (fuel + 1) w b = .ok next ∧
      next.info = w.info ∧
      (∀ e t, t ≠ UI.RowState.Edited → (next.rows e).state t = (w.rows e).state t) ∧
      (∃ tail, next.log = w.log ++ tail) ∧
      ((w.rows e0).disableTextAreaSetStrCallback = false → (w.rows e0).bytesErr = none →
        (∀ e ∈ w.info.ERows, (next.rows e).content = b) ∧
        (∀ e ∈ w.info.ERows, (next.rows e).state .Edited =
          decide (b.length ≠ w.info.savedHash.size ∨ bytesHash b ≠ w.info.savedHash.hash))) := by
  let w5 : World :=
    { (w.emit (.setBytes e0 b)) with
      rows := Function.update w.rows e0 { w.rows e0 with content := b } }
  have hstate5 : ∀ e, (w5.rows e).state = (w.rows e).state := by
    intro e
    by_cases hee : e = e0
    · subst hee
      simp [w5]
    · simp [w5, Function.update_noteq hee]
  cases hflag : (w.rows e0).disableTextAreaSetStrCallback with
  | true =>
    have hstep : SetRowsBytes (fuel + 1) w b = .ok w5 := by
      unfold SetRowsBytes
      simp only [hf, hv, Bool.not_true, Bool.false_eq_true, if_false]
      simp [TextArea.SetBytes, ERow.setStrCallback, hflag, w5, World.emit]
    refine ⟨w5, hstep, rfl, fun e t _ => by rw [hstate5], ⟨[Event.setBytes e0 b], rfl⟩, ?_⟩
    intro h
    cases h
  | false =>
    have hstep : SetRowsBytes (fuel + 1) w b = SetRowsStrFromMaster (fuel + 1) w5 e0 := by
      unfold SetRowsBytes
      simp only [hf, hv, Bool.not_true, Bool.false_eq_true, if_false]
      simp [TextArea.SetBytes, ERow.setStrCallback, hflag, w5, World.emit]
    have hf5 : w5.info.IsFileButNotDir = true := hf
    obtain ⟨next, h1, h2, h3, h4, _, h6, h7, tail, h8, _⟩ :=
      SetRowsStrFromMaster_spec fuel w5 e0 hf5
    have hmem0 : e0 ∈ w.info.ERows := by rw [hv]; exact List.mem_cons_self _ _
    have hc0 : (w5.rows e0).content = b := by simp [w5]
    have hcontent : ∀ e ∈ w.info.ERows, (next.rows e).content = b := by
      intro e he
      rw [h3]
      by_cases hee : e = e0
      · subst hee
        simp [hc0]
      · rw [if_pos ⟨he, hee⟩, hc0]
    refine ⟨next, by rw [hstep, h1], h2, ?_, ?_, fun _ hread => ⟨hcontent, ?_⟩⟩
    · intro e t ht
      rw [h6 e t ht, hstate5]
    · refine ⟨Event.setBytes e0 b :: ((w5.info.ERows.filter (fun e => e != e0)).map
        (fun e => Event.updateDuplicate e0 e true) ++ tail), ?_⟩
      rw [h8]
      simp [w5, World.emit]
    · intro e he
      rw [h7 e0 rest hv e he]
      have hb0 : bytesOrEmpty (next.rows e0) = b := by
        unfold bytesOrEmpty ERow.Bytes
        rw [h4, hcontent e0 hmem0]
        have : (w5.rows e0).bytesErr = none := by simp [w5, hread]
        rw [this]
      rw [hb0]
      rfl

theorem SetRowsBytes_returns (fuel : Nat) (w : World) (b : Bytes) :
    ∃ next, SetRowsBytes (fuel + 1) w b = .ok next ∧ next.info = w.info ∧
      ∃ tail, next.log = w.log ++ tail := by
  cases hf : w.info.IsFileButNotDir with
  | false => exact ⟨w, by simp [SetRowsBytes, hf], rfl, [], by simp⟩
  | true =>
    cases hv : w.info.ERows with
    | nil => exact ⟨w, by simp [SetRowsBytes, hf, hv], rfl, [], by simp⟩
    | cons e0 rest =>
      obtain ⟨next, h1, h2, _, h4, _⟩ := SetRowsBytes_spec fuel w b e0 rest hf hv
      exact ⟨next, h1, h2, h4⟩

theorem setHashes_info (h : Bytes) (n : Nat) (w : World) (hsome : w.info.fi.isSome = true) :
    (setSavedHash h n (setFsHash h w)).info.savedHash = { size := n, hash := h } ∧
    (setSavedHash h n (setFsHash h w)).info.fsHash.hash = h ∧
    (setSavedHash h n (setFsHash h w)).info.ERows = w.info.ERows ∧
    (setSavedHash h n (setFsHash h w)).log = w.log := by
  obtain ⟨fi, hfi⟩ := Option.isSome_iff_exists.1 hsome
  have hi := setFsHash_info_some h w fi hfi
  exact ⟨by simp, by simp [hi], by simp [hi], by simp⟩


/-- The path of SaveFile on which the file is written and the stat after the write has
returned state w3. -/
theorem SaveFile_written_spec (fuel : Nat) (env : SaveEnv) (w : World) (e0 : RowId)
    (rest : List RowId) (b : Bytes) (w3 : World)
    (hf : w.info.IsFileButNotDir = true) (hv : w.info.ERows = e0 :: rest)
    (hb : (w.rows e0).Bytes = .ok b)
    (ho : env.openErr = none) (hw : env.writeErr = none)
    (hr : readFileInfo env.stat (((afterGoImports w).emit
      (.openFile (afterGoImports w).info.name)).emit
      (.write (afterGoImports w).info.name (writtenBytes env w.info.name b))) = .ok w3) :
    ∃ next, SaveFile (fuel + 1) env w = .ok (next, none) ∧
      Event.write w.info.name (writtenBytes env w.info.name b) ∈ next.log ∧
      next.info.savedHash = { size := (writtenBytes env w.info.name b).length,
                              hash := bytesHash (writtenBytes env w.info.name b) } ∧
      next.info.fsHash.hash = bytesHash (writtenBytes env w.info.name b) ∧
      next.info.ERows = w.info.ERows ∧
      ((∀ fi, env.stat = .ok fi → fi.isDir = false) →
        (∀ e ∈ w.info.ERows, (next.rows e).state .FsDiffer = false) ∧
        ((w.rows e0).disableTextAreaSetStrCallback = false →
          ∀ e ∈ w.info.ERows, (next.rows e).state .Edited = false ∧
            (next.rows e).content = writtenBytes env w.info.name b)) := by
  obtain ⟨hik, _, hvk, hlog, hsome, _, _⟩ := readFileInfo_frame env.stat _ w3 hr
  have hsome3 : w3.info.fi.isSome = true := by
    apply hsome
    obtain ⟨fi, hfi⟩ := IsFileButNotDir_some _ hf
    simp [World.emit, hfi]
  have hrows3 : w3.info.ERows = w.info.ERows := by
    rw [hik.1]
    simp [World.emit]
  obtain ⟨s1, s2, s3, s5⟩ :=
    setHashes_info (bytesHash (writtenBytes env w.info.name b))
      (writtenBytes env w.info.name b).length w3 hsome3
  obtain ⟨next, n1, n2, tail, n6⟩ :=
    SetRowsBytes_returns fuel
      (setSavedHash (bytesHash (writtenBytes env w.info.name b))
        (writtenBytes env w.info.name b).length
        (setFsHash (bytesHash (writtenBytes env w.info.name b)) w3))
      (writtenBytes env w.info.name b)
  refine ⟨next, ?_, ?_, ?_, ?_, ?_, ?_⟩
  · rw [SaveFile_file (fuel + 1) env w e0 rest hv b hb hf, saveFsFile_written env _ _ ho hw, hr]
    simp only [Except.map, Except.bind, n1]
  · rw [n6, s5]
    apply List.mem_append_left
    rcases hlog with hlog | hlog
    · rw [hlog]
      simp [World.emit]
    · rw [hlog]
      simp [World.emit]
  · rw [n2, s1]
  · rw [n2, s2]
  · rw [n2, s3, hrows3]
  · intro hstat
    have hf3 : w3.info.IsFileButNotDir = true :=
      readFileInfo_isFile env.stat _ w3 hr (by simpa [World.emit] using hf) hstat
    obtain ⟨_, _, _, s4, _, s6, s7⟩ :=
      setHashes_spec (bytesHash (writtenBytes env w.info.name b))
        (writtenBytes env w.info.name b).length w3 hf3
    have hkeep0 : ∀ e, (w3.rows e).bytesErr = (w.rows e).bytesErr ∧
        (w3.rows e).disableTextAreaSetStrCallback
          = (w.rows e).disableTextAreaSetStrCallback := by
      intro e
      have := hvk e
      simp only [World.emit, afterGoImports_rows] at this
      exact ⟨this.2.1, this.2.2.1⟩
    have hread : (w.rows e0).bytesErr = none := by
      unfold ERow.Bytes at hb
      cases hbe : (w.rows e0).bytesErr with
      | none => rfl
      | some err => rw [hbe] at hb; cases hb
    obtain ⟨next2, m1, _, m4, _, m7⟩ :=
      SetRowsBytes_spec fuel
        (setSavedHash (bytesHash (writtenBytes env w.info.name b))
          (writtenBytes env w.info.name b).length
          (setFsHash (bytesHash (writtenBytes env w.info.name b)) w3))
        (writtenBytes env w.info.name b) e0 rest
        (by unfold ERowInfo.IsFileButNotDir; rw [s4]; exact hf3)
        (by rw [s3, hrows3]; exact hv)
    have hnext : next2 = next := by
      rw [m1] at n1
      cases n1
      rfl
    subst hnext
    refine ⟨fun e he => ?_, fun hidle e he => ?_⟩
    · rw [m4 e _ (by decide)]
      exact s7 e (by rw [hrows3]; exact he)
    · obtain ⟨n3, n5⟩ := m7 (by rw [(s6 e0).2.2.1, (hkeep0 e0).2]; exact hidle)
        (by rw [(s6 e0).2.1, (hkeep0 e0).1]; exact hread)
      have he4 : e ∈ (setSavedHash (bytesHash (writtenBytes env w.info.name b))
          (writtenBytes env w.info.name b).length
          (setFsHash (bytesHash (writtenBytes env w.info.name b)) w3)).info.ERows := by
        rw [s3, hrows3]; exact he
      refine ⟨?_, n3 e he4⟩
      rw [n5 e he4, s1]
      simp

/-- C1 as stated fails. The bytes 1, 2 are typed into the only view of the loaded sample
file, which sets Edited. (a) A save during which the name comes to denote a directory
between the write and the stat that follows it returns without error, and Edited is still
true: UpdateFsDifferRowState and SetRowsBytes return at their IsFileButNotDir guard. (b) A
save entered while the set-string callback of the view is disabled (inside a mirroring pass)
returns without error with Edited still true: the callback that recomputes Edited does not
run. -/
theorem C1_counterexample :
    ∃ typed next next2,
      TextArea.SetBytes (SetRowsStrFromMaster 1) loadedWorld 0 [1, 2] = .ok typed ∧
      typed.info.IsFileButNotDir = true ∧ typed.info.ERows = [0] ∧
      SaveFile 1 dirAfterWriteEnv typed = .ok (next, none) ∧
      (next.rows 0).state .Edited = true ∧
      SaveFile 1 sampleSaveEnv (disableCB true typed) = .ok (next2, none) ∧
      (next2.rows 0).state .Edited = true :=
  ⟨_, _, _, rfl, rfl, rfl, rfl, rfl, rfl, rfl⟩

/-- C1 (amended): on a regular file with first view e0, whenever SaveFile returns without
error the buffer of e0 was readable, the bytes handed to the write (the buffer content, or
the goimports output for a .go name) were written, savedHash holds their length and digest
and fsHash holds their digest. When the stat taken after the write does not report a
directory (the identity is still a regular file), every view of the identity has FsDiffer
false, and, when moreover the set-string callback of e0 is enabled (no mirroring in
progress), every view has Edited false and the written bytes as content. SaveFile does
return without error, for every positive recursion budget, when the name is non-empty, the
buffer is readable and opening and writing the file succeed. -/
theorem C1_SaveFile_success_amended (fuel : Nat) (env : SaveEnv) (w : World) (e0 : RowId)
    (rest : List RowId)
    (hf : w.info.IsFileButNotDir = true) (hv : w.info.ERows = e0 :: rest) :
    (∀ next, SaveFile (fuel + 1) env w = .ok (next, none) →
      ∃ b, (w.rows e0).Bytes = .ok b ∧
        Event.write w.info.name (writtenBytes env w.info.name b) ∈ next.log ∧
        next.info.savedHash = { size := (writtenBytes env w.info.name b).length,
                                hash := bytesHash (writtenBytes env w.info.name b) } ∧
        next.info.fsHash.hash = bytesHash (writtenBytes env w.info.name b) ∧
        next.info.ERows = w.info.ERows ∧
        ((∀ fi, env.stat = .ok fi → fi.isDir = false) →
          (∀ e ∈ w.info.ERows, (next.rows e).state .FsDiffer = false) ∧
          ((w.rows e0).disableTextAreaSetStrCallback = false →
            ∀ e ∈ w.info.ERows, (next.rows e).state .Edited = false ∧
              (next.rows e).content = writtenBytes env w.info.name b))) ∧
    (w.info.name ≠ "" → (w.rows e0).bytesErr = none → env.openErr = none →
      env.writeErr = none → ∃ next, SaveFile (fuel + 1) env w = .ok (next, none)) := by
  refine ⟨fun next h => ?_, fun hname hread ho hw => ?_⟩
  · cases hb : (w.rows e0).Bytes with
    | error e =>
      rw [SaveFile_bytes_err (fuel + 1) env w e0 rest hv e hb] at h
      cases h
    | ok b =>
      cases ho : env.openErr with
      | some oe =>
        rw [SaveFile_file (fuel + 1) env w e0 rest hv b hb hf,
          saveFsFile_open_err env _ _ oe ho] at h
        cases h
      | none =>
        cases hw : env.writeErr with
        | some we =>
          rw [SaveFile_file (fuel + 1) env w e0 rest hv b hb hf,
            saveFsFile_write_err env _ _ we ho hw] at h
          cases h
        | none =>
          cases hr : readFileInfo env.stat (((afterGoImports w).emit
              (.openFile (afterGoImports w).info.name)).emit
              (.write (afterGoImports w).info.name (writtenBytes env w.info.name b))) with
          | error f =>
            rw [SaveFile_file (fuel + 1) env w e0 rest hv b hb hf,
              saveFsFile_written env _ _ ho hw, hr] at h
            cases h
          | ok w3 =>
            obtain ⟨next2, hs, hpost⟩ :=
              SaveFile_written_spec fuel env w e0 rest b w3 hf hv hb ho hw hr
            rw [hs] at h
            cases h
            exact ⟨b, rfl, hpost⟩
  · have hb : (w.rows e0).Bytes = .ok (w.rows e0).content := by
      unfold ERow.Bytes
      rw [hread]
    obtain ⟨w3, hr⟩ := readFileInfo_returns env.stat (((afterGoImports w).emit
        (.openFile (afterGoImports w).info.name)).emit
        (.write (afterGoImports w).info.name (writtenBytes env w.info.name (w.rows e0).content)))
      (by simpa [World.emit] using hname)
    obtain ⟨next, hs, _⟩ :=
      SaveFile_written_spec fuel env w e0 rest _ w3 hf hv hb ho hw hr
    exact ⟨next, hs⟩

/-- C1 (amended) at the sample file with two views holding the bytes 1, 2: the save returns
without error. -/
theorem C1_SaveFile_success_amended_witness :
    ∃ next, SaveFile 1 sampleSaveEnv editedWorld = .ok (next, none) :=
  (C1_SaveFile_success_amended 0 sampleSaveEnv editedWorld 0 [1] rfl rfl).2 (by decide) rfl
    rfl rfl

end Core

/-! ## Theorems: core/parseutil/misc.go -/

namespace Parseutil

theorem byteLen_cons (r : Char) (s : List Char) :
    byteLen (r :: s) = r.utf8Size + byteLen s := by
  simp [byteLen]

theorem byteLen_append (s t : List Char) : byteLen (s ++ t) = byteLen s + byteLen t := by
  simp [byteLen]

theorem byteLen_nil : byteLen [] = 0 := rfl

/-- The result expression shared by ExpandIndexFunc and the loop lemma. -/
theorem IndexFuncLoop_expand (max : Int) (truth : Bool) (f : Char → Bool) (total : Int) :
    ∀ (s : List Char) (i c : Int), c ≤ max → RuneError ∉ s → 0 ≤ i → total = i + byteLen s →
      (let res := IndexFuncLoop truth (expandF2 max truth f) s i c
       if res.2 > max then (-1 : Int) else if res.1.1 < 0 then total else res.1.1)
        = expandSpec truth f s (max - c).toNat i := by
  intro s
  induction s with
  | nil =>
    intro i c hc _ _ ht
    simp only [IndexFuncLoop, expandSpec]
    rw [if_neg (by omega), if_pos (by omega), ht, byteLen_nil]
    simp
  | cons r rest ih =>
    intro i c hc hs hi ht
    have hr : r ≠ RuneError := fun h => hs (h ▸ List.mem_cons_self _ _)
    have hrest : RuneError ∉ rest := fun h => hs (List.mem_cons_of_mem _ h)
    simp only [IndexFuncLoop, hr, if_false]
    by_cases hcm : c + 1 > max
    · have hb : (max - c).toNat = 0 := by omega
      rw [hb]
      simp only [expandF2, hcm, if_true, beq_self_eq_true, expandSpec]
    · obtain ⟨b, hb⟩ : ∃ b, (max - c).toNat = b + 1 := ⟨(max - c).toNat - 1, by omega⟩
      rw [hb]
      simp only [expandF2, hcm, if_false, expandSpec]
      by_cases hf : (f r == truth) = true
      · simp only [hf, if_true]
        rw [if_neg hcm, if_neg (by omega)]
      · simp only [hf, if_false]
        have := ih (i + (r.utf8Size : Int)) (c + 1) (by omega) hrest (by omega)
          (by rw [ht, byteLen_cons]; push_cast; ring)
        have hb2 : (max - (c + 1)).toNat = b := by omega
        rw [hb2] at this
        exact this

theorem ExpandIndexFunc_eq (str : List Char) (max : Int) (truth : Bool) (f : Char → Bool)
    (hmax : 0 ≤ max) (hs : RuneError ∉ str) :
    ExpandIndexFunc str max truth f = expandSpec truth f str max.toNat 0 := by
  have := IndexFuncLoop_expand max truth f (byteLen str) str 0 0 hmax hs (le_refl _) (by simp)
  simpa [ExpandIndexFunc, IndexFunc] using this

theorem expandSpec_nonneg (truth : Bool) (f : Char → Bool) :
    ∀ (s : List Char) (b : Nat) (i : Int), 0 ≤ i →
      expandSpec truth f s b i = -1 ∨ 0 ≤ expandSpec truth f s b i := by
  intro s
  induction s with
  | nil => intro b i hi; right; simpa [expandSpec] using hi
  | cons r rest ih =>
    intro b i hi
    cases b with
    | zero => left; rfl
    | succ b =>
      simp only [expandSpec]
      split
      · right; exact hi
      · exact ih b _ (by omega)

theorem expandSpec_neg_iff (truth : Bool) (f : Char → Bool) :
    ∀ (s : List Char) (b : Nat) (i : Int), 0 ≤ i →
      (expandSpec truth f s b i = -1 ↔ b < s.length ∧ ∀ r ∈ s.take b, f r ≠ truth) := by
  intro s
  induction s with
  | nil =>
    intro b i hi
    simp only [expandSpec, List.length_nil, Nat.not_lt_zero, false_and, iff_false]
    omega
  | cons r rest ih =>
    intro b i hi
    cases b with
    | zero => simp [expandSpec]
    | succ b =>
      simp only [expandSpec, List.length_cons, List.take_succ_cons, List.mem_cons]
      by_cases hf : (f r == truth) = true
      · simp only [hf, if_true]
        constructor
        · intro h; omega
        · rintro ⟨_, h⟩
          exact absurd (by simpa using hf) (h r (Or.inl rfl))
      · have hf2 : f r ≠ truth := by simpa using hf
        have hf3 : (f r == truth) = false := by simpa using hf
        simp only [hf3, Bool.false_eq_true, if_false]
        rw [ih b _ (by omega)]
        constructor
        · rintro ⟨h1, h2⟩
          refine ⟨by omega, ?_⟩
          rintro x (hx | hx)
          · rw [hx]; exact hf2
          · exact h2 x hx
        · rintro ⟨h1, h2⟩
          exact ⟨by omega, fun x hx => h2 x (Or.inr hx)⟩

theorem expandSpec_found (truth : Bool) (f : Char → Bool) :
    ∀ (pre : List Char) (r : Char) (post : List Char) (b : Nat) (i : Int),
      (∀ x ∈ pre, f x ≠ truth) → f r = truth → pre.length < b →
      expandSpec truth f (pre ++ r :: post) b i = i + byteLen pre := by
  intro pre
  induction pre with
  | nil =>
    intro r post b i _ hr hb
    obtain ⟨b, rfl⟩ : ∃ b2, b = b2 + 1 := ⟨b - 1, by simp at hb; omega⟩
    simp [expandSpec, hr, byteLen_nil]
  | cons x pre ih =>
    intro r post b i hpre hr hb
    obtain ⟨b, rfl⟩ : ∃ b2, b = b2 + 1 := ⟨b - 1, by simp at hb; omega⟩
    have hx : f x ≠ truth := hpre x (List.mem_cons_self _ _)
    have hx2 : (f x == truth) = false := by simpa using hx
    simp only [List.cons_append, expandSpec, hx2, Bool.false_eq_true, if_false, List.append_eq]
    rw [ih r post b _ (fun y hy => hpre y (List.mem_cons_of_mem _ hy)) hr
      (by simp at hb; omega), byteLen_cons]
    push_cast
    ring

theorem expandSpec_none (truth : Bool) (f : Char → Bool) :
    ∀ (s : List Char) (b : Nat) (i : Int),
      (∀ x ∈ s, f x ≠ truth) → s.length ≤ b →
      expandSpec truth f s b i = i + byteLen s := by
  intro s
  induction s with
  | nil => intro b i _ _; simp [expandSpec, byteLen_nil]
  | cons x s ih =>
    intro b i hs hb
    obtain ⟨b, rfl⟩ : ∃ b2, b = b2 + 1 := ⟨b - 1, by simp at hb; omega⟩
    have hx : f x ≠ truth := hs x (List.mem_cons_self _ _)
    have hx2 : (f x == truth) = false := by simpa using hx
    simp only [expandSpec, hx2, Bool.false_eq_true, if_false]
    rw [ih b _ (fun y hy => hs y (List.mem_cons_of_mem _ hy)) (by simp at hb; omega),
      byteLen_cons]
    push_cast
    ring

/-- Position of the first rune with f r = truth lies within the budget when the result is
not -1. -/
theorem first_within_budget (truth : Bool) (f : Char → Bool) (pre : List Char) (r : Char)
    (post : List Char) (b : Nat) (hpre : ∀ x ∈ pre, f x ≠ truth)
    (hnot : ¬ (b < (pre ++ r :: post).length ∧ ∀ x ∈ (pre ++ r :: post).take b, f x ≠ truth)) :
    pre.length < b := by
  by_contra hlt
  apply hnot
  have hb : b ≤ pre.length := by omega
  refine ⟨by simp; omega, fun x hx => ?_⟩
  rw [List.take_append_of_le_length hb] at hx
  exact hpre x (List.mem_of_mem_take hx)

/-- C19: for a valid UTF-8 string without U+FFFD and max >= 0, ExpandIndexFunc returns -1
exactly when the string has more than max runes and none of its first max runes r has
f r = truth; otherwise it returns the byte offset of the first rune with f r = truth (the
number of bytes of the runes before it), or the byte length of the string when no rune has
f r = truth. -/
theorem C19_ExpandIndexFunc (s : List Char) (max : Int) (truth : Bool) (f : Char → Bool)
    (hmax : 0 ≤ max) (hs : RuneError ∉ s) :
    (ExpandIndexFunc s max truth f = -1 ↔
      ((s.length : Int) > max ∧ ∀ r ∈ s.take max.toNat, f r ≠ truth)) ∧
    (¬ ((s.length : Int) > max ∧ ∀ r ∈ s.take max.toNat, f r ≠ truth) →
      (∀ pre r post, s = pre ++ r :: post → (∀ x ∈ pre, f x ≠ truth) → f r = truth →
        ExpandIndexFunc s max truth f = byteLen pre) ∧
      ((∀ x ∈ s, f x ≠ truth) → ExpandIndexFunc s max truth f = byteLen s)) := by
  rw [ExpandIndexFunc_eq s max truth f hmax hs]
  have hlen : ((s.length : Int) > max) ↔ max.toNat < s.length := by omega
  refine ⟨?_, fun hnot => ⟨?_, ?_⟩⟩
  · rw [expandSpec_neg_iff truth f s max.toNat 0 (le_refl _), hlen]
  · intro pre r post hsplit hpre hr
    subst hsplit
    rw [hlen] at hnot
    have := first_within_budget truth f pre r post max.toNat hpre hnot
    rw [expandSpec_found truth f pre r post max.toNat 0 hpre hr this]
    simp
  · intro hall
    rw [hlen] at hnot
    have hle : s.length ≤ max.toNat := by
      by_contra hlt
      exact hnot ⟨by omega, fun x hx => hall x (List.mem_of_mem_take hx)⟩
    rw [expandSpec_none truth f s max.toNat 0 hall hle]
    simp

/-- C19 at the string "a b" with max 2, looking for a space: the result is offset 1. -/
theorem C19_ExpandIndexFunc_witness :
    ExpandIndexFunc ['a', ' ', 'b'] 2 true (fun c => c == ' ') = byteLen ['a'] :=
  ((C19_ExpandIndexFunc ['a', ' ', 'b'] 2 true (fun c => c == ' ') (by decide)
    (by decide)).2 (by decide)).1 ['a'] ' ' ['b'] rfl (by decide) (by decide)


theorem LastIndexFuncLoop_expand (max : Int) (truth : Bool) (f : Char → Bool) :
    ∀ (rev : List Char) (i c : Int), c ≤ max → RuneError ∉ rev → i = byteLen rev →
      (let res := LastIndexFuncLoop truth (expandF2 max truth f) rev i c
       if res.2 > max then (-1 : Int) else if res.1.1 < 0 then 0 else res.1.1 + res.1.2)
        = expandLastSpec truth f rev (max - c).toNat i := by
  intro rev
  induction rev with
  | nil =>
    intro i c hc _ _
    simp only [LastIndexFuncLoop, expandLastSpec]
    rw [if_neg (by omega), if_pos (by omega)]
  | cons r rest ih =>
    intro i c hc hs hi
    have hr : r ≠ RuneError := fun h => hs (h ▸ List.mem_cons_self _ _)
    have hrest : RuneError ∉ rest := fun h => hs (List.mem_cons_of_mem _ h)
    have hi2 : i - (r.utf8Size : Int) = byteLen rest := by
      rw [hi, byteLen_cons]; push_cast; ring
    simp only [LastIndexFuncLoop, hr, if_false]
    by_cases hcm : c + 1 > max
    · have hb : (max - c).toNat = 0 := by omega
      rw [hb]
      simp only [expandF2, hcm, if_true, beq_self_eq_true, expandLastSpec]
    · obtain ⟨b, hb⟩ : ∃ b, (max - c).toNat = b + 1 := ⟨(max - c).toNat - 1, by omega⟩
      rw [hb]
      simp only [expandF2, hcm, if_false, expandLastSpec]
      by_cases hf : (f r == truth) = true
      · simp only [hf, if_true]
        rw [if_neg hcm, if_neg (by omega)]
        ring
      · have hf3 : (f r == truth) = false := by simpa using hf
        simp only [hf3, Bool.false_eq_true, if_false]
        have := ih (i - (r.utf8Size : Int)) (c + 1) (by omega) hrest hi2
        have hb2 : (max - (c + 1)).toNat = b := by omega
        rw [hb2] at this
        exact this

theorem ExpandLastIndexFunc_eq (str : List Char) (max : Int) (truth : Bool)
    (f : Char → Bool) (hmax : 0 ≤ max) (hs : RuneError ∉ str) :
    ExpandLastIndexFunc str max truth f
      = expandLastSpec truth f str.reverse max.toNat (byteLen str.reverse) := by
  have hrev : byteLen str.reverse = byteLen str := by
    simp [byteLen, List.sum_reverse]
  have := LastIndexFuncLoop_expand max truth f str.reverse (byteLen str) 0 hmax
    (by simpa using hs) (by rw [hrev])
  rw [hrev]
  simpa [ExpandLastIndexFunc, LastIndexFunc] using this

theorem expandLastSpec_neg_iff (truth : Bool) (f : Char → Bool) :
    ∀ (rev : List Char) (b : Nat),
      (expandLastSpec truth f rev b (byteLen rev) = -1
        ↔ b < rev.length ∧ ∀ r ∈ rev.take b, f r ≠ truth) := by
  intro rev
  induction rev with
  | nil =>
    intro b
    simp [expandLastSpec]
  | cons r rest ih =>
    intro b
    cases b with
    | zero => simp [expandLastSpec]
    | succ b =>
      simp only [expandLastSpec, List.length_cons, List.take_succ_cons, List.mem_cons]
      have hi2 : ((byteLen (r :: rest) : Nat) : Int) - (r.utf8Size : Int) = byteLen rest := by
        rw [byteLen_cons]; push_cast; ring
      by_cases hf : (f r == truth) = true
      · simp only [hf, if_true]
        constructor
        · intro h; omega
        · rintro ⟨_, h⟩
          exact absurd (by simpa using hf) (h r (Or.inl rfl))
      · have hf2 : f r ≠ truth := by simpa using hf
        have hf3 : (f r == truth) = false := by simpa using hf
        simp only [hf3, Bool.false_eq_true, if_false]
        rw [hi2, ih b]
        constructor
        · rintro ⟨h1, h2⟩
          refine ⟨by omega, ?_⟩
          rintro x (hx | hx)
          · rw [hx]; exact hf2
          · exact h2 x hx
        · rintro ⟨h1, h2⟩
          exact ⟨by omega, fun x hx => h2 x (Or.inr hx)⟩

theorem expandLastSpec_found (truth : Bool) (f : Char → Bool) :
    ∀ (postR : List Char) (r : Char) (preR : List Char) (b : Nat) (i : Int),
      (∀ x ∈ postR, f x ≠ truth) → f r = truth → postR.length < b →
      expandLastSpec truth f (postR ++ r :: preR) b i = i - byteLen postR := by
  intro postR
  induction postR with
  | nil =>
    intro r preR b i _ hr hb
    obtain ⟨b, rfl⟩ : ∃ b2, b = b2 + 1 := ⟨b - 1, by simp at hb; omega⟩
    simp [expandLastSpec, hr, byteLen_nil]
  | cons x postR ih =>
    intro r preR b i hpost hr hb
    obtain ⟨b, rfl⟩ : ∃ b2, b = b2 + 1 := ⟨b - 1, by simp at hb; omega⟩
    have hx : f x ≠ truth := hpost x (List.mem_cons_self _ _)
    have hx2 : (f x == truth) = false := by simpa using hx
    simp only [List.cons_append, expandLastSpec, hx2, Bool.false_eq_true, if_false,
      List.append_eq]
    rw [ih r preR b _ (fun y hy => hpost y (List.mem_cons_of_mem _ hy)) hr
      (by simp at hb; omega), byteLen_cons]
    push_cast
    ring

theorem expandLastSpec_none (truth : Bool) (f : Char → Bool) :
    ∀ (rev : List Char) (b : Nat) (i : Int),
      (∀ x ∈ rev, f x ≠ truth) → rev.length ≤ b →
      expandLastSpec truth f rev b i = 0 := by
  intro rev
  induction rev with
  | nil => intro b i _ _; simp [expandLastSpec]
  | cons x rev ih =>
    intro b i hs hb
    obtain ⟨b, rfl⟩ : ∃ b2, b = b2 + 1 := ⟨b - 1, by simp at hb; omega⟩
    have hx : f x ≠ truth := hs x (List.mem_cons_self _ _)
    have hx2 : (f x == truth) = false := by simpa using hx
    simp only [expandLastSpec, hx2, Bool.false_eq_true, if_false]
    exact ih b _ (fun y hy => hs y (List.mem_cons_of_mem _ hy)) (by simp at hb; omega)

theorem mem_lastRunes_iff (s : List Char) (n : Nat) (x : Char) :
    x ∈ s.reverse.take n ↔ x ∈ s.drop (s.length - n) := by
  rw [List.take_reverse, List.mem_reverse]

/-- C20: for a valid UTF-8 string without U+FFFD and max >= 0, ExpandLastIndexFunc returns -1
exactly when the string has more than max runes and none of its last max runes r has
f r = truth; otherwise it returns the byte offset just after the last rune with f r = truth
(the number of bytes up to and including it), or 0 when no rune has f r = truth. -/
theorem C20_ExpandLastIndexFunc (s : List Char) (max : Int) (truth : Bool) (f : Char → Bool)
    (hmax : 0 ≤ max) (hs : RuneError ∉ s) :
    (ExpandLastIndexFunc s max truth f = -1 ↔
      ((s.length : Int) > max ∧ ∀ r ∈ s.drop (s.length - max.toNat), f r ≠ truth)) ∧
    (¬ ((s.length : Int) > max ∧ ∀ r ∈ s.drop (s.length - max.toNat), f r ≠ truth) →
      (∀ pre r post, s = pre ++ r :: post → f r = truth → (∀ x ∈ post, f x ≠ truth) →
        ExpandLastIndexFunc s max truth f = byteLen (pre ++ [r])) ∧
      ((∀ x ∈ s, f x ≠ truth) → ExpandLastIndexFunc s max truth f = 0)) := by
  rw [ExpandLastIndexFunc_eq s max truth f hmax hs]
  have hcond : ((s.length : Int) > max ∧ ∀ r ∈ s.drop (s.length - max.toNat), f r ≠ truth)
      ↔ (max.toNat < s.reverse.length ∧ ∀ r ∈ s.reverse.take max.toNat, f r ≠ truth) := by
    rw [List.length_reverse]
    constructor
    · rintro ⟨h1, h2⟩
      exact ⟨by omega, fun r hr => h2 r ((mem_lastRunes_iff s _ r).1 hr)⟩
    · rintro ⟨h1, h2⟩
      exact ⟨by omega, fun r hr => h2 r ((mem_lastRunes_iff s _ r).2 hr)⟩
  rw [hcond]
  refine ⟨expandLastSpec_neg_iff truth f s.reverse max.toNat, fun hnot => ⟨?_, ?_⟩⟩
  · intro pre r post hsplit hr hpost
    subst hsplit
    have hrev : (pre ++ r :: post).reverse = post.reverse ++ r :: pre.reverse := by simp
    rw [hrev] at hnot ⊢
    have hpostR : ∀ x ∈ post.reverse, f x ≠ truth := fun x hx => hpost x (by simpa using hx)
    have := first_within_budget truth f post.reverse r pre.reverse max.toNat hpostR hnot
    rw [expandLastSpec_found truth f post.reverse r pre.reverse max.toNat _ hpostR hr this]
    simp only [byteLen_append, byteLen_cons, byteLen_nil]
    have h1 : byteLen post.reverse = byteLen post := by simp [byteLen, List.sum_reverse]
    have h2 : byteLen pre.reverse = byteLen pre := by simp [byteLen, List.sum_reverse]
    rw [h1, h2]
    push_cast
    ring
  · intro hall
    have hle : s.reverse.length ≤ max.toNat := by
      by_contra hlt
      exact hnot ⟨by omega, fun x hx => hall x (by simpa using List.mem_of_mem_take hx)⟩
    exact expandLastSpec_none truth f s.reverse max.toNat _ (fun x hx => hall x (by simpa using hx))
      hle

/-- C20 at the string "a bc" with max 3, looking for a space: the result is offset 2. -/
theorem C20_ExpandLastIndexFunc_witness :
    ExpandLastIndexFunc ['a', ' ', 'b', 'c'] 3 true (fun c => c == ' ')
      = byteLen (['a'] ++ [' ']) :=
  ((C20_ExpandLastIndexFunc ['a', ' ', 'b', 'c'] 3 true (fun c => c == ' ') (by decide)
    (by decide)).2 (by decide)).1 ['a'] ' ' ['b', 'c'] rfl (by decide) (by decide)

end Parseutil

/-! ## Theorems: core/sessions.go -/

namespace Core

theorem findSession_none (name : String) :
    ∀ (l : List (Option Session)) (i : Nat), none ∉ l → (∀ s, some s ∈ l → s.Name ≠ name) →
      findSession name l i = .ok none := by
  intro l
  induction l with
  | nil => intro i _ _; rfl
  | cons o rest ih =>
    intro i hnn h
    cases o with
    | none => exact absurd (List.mem_cons_self _ _) hnn
    | some s =>
      have hs : (s.Name == name) = false := by simpa using h s (List.mem_cons_self _ _)
      simp only [findSession, hs, Bool.false_eq_true, if_false]
      exact ih (i + 1) (fun hx => hnn (List.mem_cons_of_mem _ hx))
        (fun x hx => h x (List.mem_cons_of_mem _ hx))

theorem findSession_first (name : String) :
    ∀ (pre : List Session) (s : Session) (post : List (Option Session)) (i : Nat),
      (∀ x ∈ pre, x.Name ≠ name) → s.Name = name →
      findSession name (pre.map some ++ some s :: post) i = .ok (some (i + pre.length)) := by
  intro pre
  induction pre with
  | nil =>
    intro s post i _ hs
    simp [findSession, hs]
  | cons x pre ih =>
    intro s post i hpre hs
    have hx : (x.Name == name) = false := by simpa using hpre x (List.mem_cons_self _ _)
    simp only [List.map_cons, List.cons_append, findSession, hx, Bool.false_eq_true, if_false,
      List.append_eq]
    rw [ih s post (i + 1) (fun y hy => hpre y (List.mem_cons_of_mem _ hy)) hs]
    simp
    omega

/-- A nil entry met before any session with the name makes the loop panic. -/
theorem findSession_nil (name : String) :
    ∀ (pre : List Session) (post : List (Option Session)) (i : Nat),
      (∀ x ∈ pre, x.Name ≠ name) →
      findSession name (pre.map some ++ none :: post) i = .error nilDereference := by
  intro pre
  induction pre with
  | nil => intro post i _; rfl
  | cons x pre ih =>
    intro post i hpre
    have hx : (x.Name == name) = false := by simpa using hpre x (List.mem_cons_self _ _)
    simp only [List.map_cons, List.cons_append, findSession, hx, Bool.false_eq_true, if_false,
      List.append_eq]
    exact ih post (i + 1) (fun y hy => hpre y (List.mem_cons_of_mem _ hy))

/-- A list in which the name occurs and every nil entry comes after a session with the name
splits at the first session with the name, with sessions only before it. -/
theorem exists_first_named (name : String) :
    ∀ (l : List (Option Session)), (∃ s, some s ∈ l ∧ s.Name = name) →
      (∀ pre post, l = pre ++ none :: post → ∃ s, some s ∈ pre ∧ s.Name = name) →
      ∃ (pre : List Session) (s : Session) (post : List (Option Session)), l = pre.map some ++ some s :: post ∧ s.Name = name ∧
        ∀ x ∈ pre, x.Name ≠ name := by
  intro l
  induction l with
  | nil => rintro ⟨s, hs, _⟩ _; cases hs
  | cons o rest ih =>
    rintro ⟨s, hs, hn⟩ hnil
    cases o with
    | none =>
      obtain ⟨t, ht, _⟩ := hnil [] rest rfl
      cases ht
    | some x =>
      by_cases hx : x.Name = name
      · exact ⟨[], x, rest, rfl, hx, by simp⟩
      · have hocc : ∃ s, some s ∈ rest ∧ s.Name = name := by
          rcases List.mem_cons.1 hs with h | h
          · cases h; exact absurd hn hx
          · exact ⟨s, h, hn⟩
        have hnil2 : ∀ pre post, rest = pre ++ none :: post →
            ∃ s, some s ∈ pre ∧ s.Name = name := by
          intro pre post e
          obtain ⟨t, ht, htn⟩ := hnil (some x :: pre) post (by rw [e]; rfl)
          rcases List.mem_cons.1 ht with h | h
          · cases h; exact absurd htn hx
          · exact ⟨t, h, htn⟩
        obtain ⟨pre, s2, post, h1, h2, h3⟩ := ih hocc hnil2
        refine ⟨x :: pre, s2, post, by rw [h1]; rfl, h2, ?_⟩
        intro y hy
        rcases List.mem_cons.1 hy with h | h
        · rw [h]; exact hx
        · exact h3 y h

theorem deleteSession_found (env : SessionsSaveEnv) (cmd name : String)
    (pre : List Session) (s : Session) (post : List (Option Session))
    (hpre : ∀ x ∈ pre, x.Name ≠ name) (hs : s.Name = name) :
    deleteSession env (.stored { Sessions := pre.map some ++ some s :: post })
        { Args := [cmd, name] } =
      .ok { err := (Sessions.save { Sessions := pre.map some ++ post } env
                  (.stored { Sessions := pre.map some ++ some s :: post })).1,
            file := (Sessions.save { Sessions := pre.map some ++ post } env
                  (.stored { Sessions := pre.map some ++ some s :: post })).2,
            log := [.read, .save { Sessions := pre.map some ++ post }] } := by
  have hfind := findSession_first name pre s post 0 hpre hs
  have hlen : (pre.map some).length = pre.length := List.length_map _ _
  have htake : (pre.map some ++ some s :: post).take (0 + pre.length) = pre.map some := by
    rw [Nat.zero_add, ← hlen]; simp
  have hdrop : (pre.map some ++ some s :: post).drop (0 + pre.length + 1) = post := by
    rw [Nat.zero_add, ← hlen, List.drop_append_eq_append_drop]
    simp
  simp only [deleteSession, NewSessions, List.length_cons, List.length_nil, List.getD_cons_succ,
    List.getD_cons_zero, hfind, htake, hdrop]
  rfl

/-- C16 as stated fails on the list decoded from the JSON array [null, S] with S named a: the
name a occurs in the stored list, but the loop of deleteSession reads s.Name of the nil
first entry and panics, so nothing is saved. -/
theorem C16_counterexample :
    (∃ s, some s ∈ nullFirstSessions.Sessions ∧ s.Name = "a") ∧
    deleteSession okSessionsSaveEnv (.stored nullFirstSessions)
      { Args := ["DeleteSession", "a"] } = .error nilDereference :=
  ⟨⟨sampleSession "a", by decide, rfl⟩, rfl⟩

/-- C16 (amended): for a stored session list in which the name occurs and no nil entry comes
before the first session of that name, the list splits at that session s as
pre ++ s :: post with sessions only in pre, and deleteSession returns, having read the file
and handed exactly pre ++ post to save: that one entry is removed and every other entry is
kept, unmodified and in its order. When save succeeds the call returns no error and the file
holds pre ++ post. -/
theorem C16_deleteSession_amended (env : SessionsSaveEnv) (ss : Sessions) (cmd name : String)
    (hocc : ∃ s, some s ∈ ss.Sessions ∧ s.Name = name)
    (hnil : ∀ pre post, ss.Sessions = pre ++ none :: post → ∃ s, some s ∈ pre ∧ s.Name = name) :
    ∃ (pre : List Session) (s : Session) (post : List (Option Session)) (r : SessionsResult),
      ss.Sessions = pre.map some ++ some s :: post ∧ s.Name = name ∧
      (∀ x ∈ pre, x.Name ≠ name) ∧
      deleteSession env (.stored ss) { Args := [cmd, name] } = .ok r ∧
      r.log = [.read, .save { Sessions := pre.map some ++ post }] ∧
      (env.openErr = none → env.encodeErr = none →
        r.err = none ∧ r.file = .stored { Sessions := pre.map some ++ post }) := by
  obtain ⟨pre, s, post, hsplit, hs, hpre⟩ := exists_first_named name ss.Sessions hocc hnil
  have hss : ss = { Sessions := pre.map some ++ some s :: post } := by
    cases ss; simp only at hsplit; rw [hsplit]
  refine ⟨pre, s, post, _, hsplit, hs, hpre,
    by rw [hss]; exact deleteSession_found env cmd name pre s post hpre hs, rfl, ?_⟩
  intro ho he
  simp [Sessions.save, ho, he]

/-- C16 (amended) at the sample list a, b, a: deleting a saves b, a. -/
theorem C16_deleteSession_amended_witness :
    ∃ (pre : List Session) (s : Session) (post : List (Option Session)) (r : SessionsResult),
      sampleSessions.Sessions = pre.map some ++ some s :: post ∧ s.Name = "a" ∧
      (∀ x ∈ pre, x.Name ≠ "a") ∧
      deleteSession okSessionsSaveEnv (.stored sampleSessions)
        { Args := ["DeleteSession", "a"] } = .ok r ∧
      r.log = [.read, .save { Sessions := pre.map some ++ post }] ∧
      (okSessionsSaveEnv.openErr = none → okSessionsSaveEnv.encodeErr = none →
        r.err = none ∧ r.file = .stored { Sessions := pre.map some ++ post }) :=
  C16_deleteSession_amended okSessionsSaveEnv sampleSessions "DeleteSession" "a"
    ⟨sampleSession "a", by decide, rfl⟩
    (fun pre post e => by
      have h : none ∈ sampleSessions.Sessions := by rw [e]; simp
      exact absurd h (by decide))

/-- C17 as stated fails on the list decoded from the JSON array [null]: the name a does not
occur in the stored list, but deleteSession does not return the error session not found: its
loop reads s.Name of the nil entry and panics. -/
theorem C17_counterexample :
    (∀ s, some s ∈ nullOnlySessions.Sessions → s.Name ≠ "a") ∧
    deleteSession okSessionsSaveEnv (.stored nullOnlySessions)
      { Args := ["DeleteSession", "a"] } = .error nilDereference :=
  ⟨fun s hs => by simp [nullOnlySessions] at hs, rfl⟩

/-- C17 (amended): when the stored session list has no nil entry and the name does not occur
in it (or the file does not exist), deleteSession returns the error session not found after
reading the file, makes no save call and leaves the file as it was. When the command does
not have exactly two arguments (its name and one more) it returns the error missing session
name with no read and no save. -/
theorem C17_deleteSession_errors_amended (env : SessionsSaveEnv) (file : SessionsFile)
    (part : Part) :
    (∀ ss cmd name, file = .stored ss → part = { Args := [cmd, name] } →
      none ∉ ss.Sessions → (∀ s, some s ∈ ss.Sessions → s.Name ≠ name) →
      deleteSession env file part =
        .ok { err := some (.notFound "deletesession" name), file := file, log := [.read] }) ∧
    (∀ cmd name, file = .openFails .notExist → part = { Args := [cmd, name] } →
      deleteSession env file part =
        .ok { err := some (.notFound "deletesession" name), file := file, log := [.read] }) ∧
    (part.Args.length ≠ 2 →
      deleteSession env file part =
        .ok { err := some (.missingName "deletesession"), file := file, log := [] }) := by
  refine ⟨?_, ?_, ?_⟩
  · intro ss cmd name hfile hpart hnn hno
    subst hfile hpart
    have := findSession_none name ss.Sessions 0 hnn hno
    simp [deleteSession, NewSessions, this]
  · intro cmd name hfile hpart
    subst hfile hpart
    simp [deleteSession, NewSessions, osIsNotExist, findSession]
  · intro h
    simp [deleteSession, h]

/-- C17 (amended) at the sample list a, b, a and the absent name c. -/
theorem C17_deleteSession_errors_amended_witness :
    deleteSession okSessionsSaveEnv (.stored sampleSessions) { Args := ["DeleteSession", "c"] } =
      .ok { err := some (.notFound "deletesession" "c"), file := .stored sampleSessions,
            log := [.read] } :=
  (C17_deleteSession_errors_amended okSessionsSaveEnv (.stored sampleSessions)
    { Args := ["DeleteSession", "c"] }).1 sampleSessions "DeleteSession" "c" rfl rfl
    (by decide)
    (fun s hs => by
      simp only [sampleSessions, List.mem_cons, Option.some.injEq, List.mem_singleton,
        List.not_mem_nil, or_false] at hs
      rcases hs with rfl | rfl | rfl <;> decide)

theorem findSession_ok_some (name : String) :
    ∀ (l : List (Option Session)) (i k : Nat), findSession name l i = .ok (some k) →
      ∃ (pre : List Session) (s : Session) (post : List (Option Session)),
        l = pre.map some ++ some s :: post ∧ s.Name = name ∧ (∀ x ∈ pre, x.Name ≠ name) ∧
        k = i + pre.length := by
  intro l
  induction l with
  | nil => intro i k h; simp [findSession] at h
  | cons o rest ih =>
    intro i k h
    cases o with
    | none => simp [findSession] at h
    | some x =>
      by_cases hx : x.Name = name
      · have hb : (x.Name == name) = true := by simpa using hx
        simp only [findSession, hb, if_true, Except.ok.injEq, Option.some.injEq] at h
        exact ⟨[], x, rest, rfl, hx, by simp, by simp [h]⟩
      · have hb : (x.Name == name) = false := by simpa using hx
        simp only [findSession, hb, Bool.false_eq_true, if_false] at h
        obtain ⟨pre, s, post, e, hs, hpre, hk⟩ := ih (i + 1) k h
        refine ⟨x :: pre, s, post, by rw [e]; rfl, hs, ?_, by rw [hk, List.length_cons]; omega⟩
        intro y hy
        rcases List.mem_cons.1 hy with h1 | h1
        · rw [h1]; exact hx
        · exact hpre y h1

theorem findSession_ok_none (name : String) :
    ∀ (l : List (Option Session)) (i : Nat), findSession name l i = .ok none →
      none ∉ l ∧ ∀ s, some s ∈ l → s.Name ≠ name := by
  intro l
  induction l with
  | nil => intro i _; exact ⟨by simp, fun s hs => by cases hs⟩
  | cons o rest ih =>
    intro i h
    cases o with
    | none => simp [findSession, nilDereference] at h
    | some x =>
      by_cases hx : x.Name = name
      · have hb : (x.Name == name) = true := by simpa using hx
        simp [findSession, hb] at h
      · have hb : (x.Name == name) = false := by simpa using hx
        simp only [findSession, hb, Bool.false_eq_true, if_false] at h
        obtain ⟨h1, h2⟩ := ih (i + 1) h
        refine ⟨?_, ?_⟩
        · intro hm
          rcases List.mem_cons.1 hm with e | e
          · cases e
          · exact h1 e
        · intro s hs
          rcases List.mem_cons.1 hs with e | e
          · cases e; exact hx
          · exact h2 s e

theorem saveSession_replace (env : SessionsSaveEnv) (snapshot : Session) (cmd n : String)
    (pre : List Session) (s : Session) (post : List (Option Session))
    (hpre : ∀ x ∈ pre, x.Name ≠ n) (hs : s.Name = n) :
    saveSession env (.stored { Sessions := pre.map some ++ some s :: post }) snapshot
        { Args := [cmd, n] } =
      .ok { err := (Sessions.save
                  { Sessions := pre.map some ++ some { snapshot with Name := n } :: post } env
                  (.stored { Sessions := pre.map some ++ some s :: post })).1,
            file := (Sessions.save
                  { Sessions := pre.map some ++ some { snapshot with Name := n } :: post } env
                  (.stored { Sessions := pre.map some ++ some s :: post })).2,
            log := [.read, .save
                  { Sessions := pre.map some ++ some { snapshot with Name := n } :: post }] } := by
  have hfind := findSession_first n pre s post 0 hpre hs
  have hlen : (pre.map some).length = pre.length := List.length_map _ _
  have hset : (pre.map some ++ some s :: post).set (0 + pre.length)
      (some { snapshot with Name := n })
      = pre.map some ++ some { snapshot with Name := n } :: post := by
    rw [Nat.zero_add, ← hlen, List.set_append_right _ _ (le_refl _)]
    simp
  simp only [saveSession, NewSessions, List.length_cons, List.length_nil, List.getD_cons_succ,
    List.getD_cons_zero, hfind, hset]
  rfl

theorem saveSession_append (env : SessionsSaveEnv) (snapshot : Session) (cmd n : String)
    (ss : Sessions) (hnn : none ∉ ss.Sessions) (hno : ∀ x, some x ∈ ss.Sessions → x.Name ≠ n) :
    saveSession env (.stored ss) snapshot { Args := [cmd, n] } =
      .ok { err := (Sessions.save
                  { Sessions := ss.Sessions ++ [some { snapshot with Name := n }] } env
                  (.stored ss)).1,
            file := (Sessions.save
                  { Sessions := ss.Sessions ++ [some { snapshot with Name := n }] } env
                  (.stored ss)).2,
            log := [.read, .save
                  { Sessions := ss.Sessions ++ [some { snapshot with Name := n }] }] } := by
  have hfind := findSession_none n ss.Sessions 0 hnn hno
  simp only [saveSession, NewSessions, List.length_cons, List.length_nil, List.getD_cons_succ,
    List.getD_cons_zero, hfind]
  rfl

theorem sessionNames_append (l m : List (Option Session)) :
    sessionNames (l ++ m) = sessionNames l ++ sessionNames m := by
  simp [sessionNames, List.filterMap_append]

theorem sessionNames_map_some (pre : List Session) :
    sessionNames (pre.map some) = pre.map Session.Name := by
  induction pre with
  | nil => rfl
  | cons x pre ih =>
    have : sessionNames (some x :: pre.map some) = x.Name :: sessionNames (pre.map some) := by
      simp [sessionNames, List.filterMap_cons]
    rw [List.map_cons, this, ih, List.map_cons]

theorem sessionNames_cons_some (s : Session) (l : List (Option Session)) :
    sessionNames (some s :: l) = s.Name :: sessionNames l := by
  simp [sessionNames, List.filterMap_cons]

theorem mem_sessionNames (l : List (Option Session)) (n : String) :
    n ∈ sessionNames l ↔ ∃ s, some s ∈ l ∧ s.Name = n := by
  simp only [sessionNames, List.mem_filterMap, Option.map_eq_some']
  constructor
  · rintro ⟨o, ho, s, rfl, hs⟩
    exact ⟨s, ho, hs⟩
  · rintro ⟨s, hs, hn⟩
    exact ⟨some s, hs, s, rfl, hn⟩

/-- C18 as stated fails on the list decoded from the JSON array [null] with the name a: no
entry is named a, but saveSession does not append the new session: its loop reads s.Name of
the nil entry and panics, so nothing is stored. -/
theorem C18_counterexample :
    (∀ s, some s ∈ nullOnlySessions.Sessions → s.Name ≠ "a") ∧
    saveSession okSessionsSaveEnv (.stored nullOnlySessions) (sampleSession "")
      { Args := ["SaveSession", "a"] } = .error nilDereference :=
  ⟨fun s hs => by simp [nullOnlySessions] at hs, rfl⟩

/-- C18 (amended): for a stored session list and a name n, when some entry is named n and no
nil entry comes before the first such entry, saveSession returns, having read the file and
handed to save the list in which that entry is replaced in place by the new session (the
editor snapshot under the name n), all other entries and the length being unchanged; when no
entry is named n and the list has no nil entry, it hands to save the list with the new
session appended at the end. On success the file holds that list. Whenever saveSession
returns, the names of the saved list are pairwise distinct if the names of the stored list
are. -/
theorem C18_saveSession_amended (env : SessionsSaveEnv) (ss : Sessions) (snapshot : Session)
    (cmd n : String) :
    ((∃ s, some s ∈ ss.Sessions ∧ s.Name = n) →
      (∀ pre post, ss.Sessions = pre ++ none :: post → ∃ s, some s ∈ pre ∧ s.Name = n) →
      ∃ (pre : List Session) (s : Session) (post : List (Option Session)) (r : SessionsResult),
        ss.Sessions = pre.map some ++ some s :: post ∧ s.Name = n ∧
        (∀ x ∈ pre, x.Name ≠ n) ∧
        saveSession env (.stored ss) snapshot { Args := [cmd, n] } = .ok r ∧
        r.log = [.read, .save
          { Sessions := pre.map some ++ some { snapshot with Name := n } :: post }] ∧
        (pre.map some ++ some { snapshot with Name := n } :: post).length
          = ss.Sessions.length ∧
        (env.openErr = none → env.encodeErr = none →
          r.err = none ∧ r.file = .stored
            { Sessions := pre.map some ++ some { snapshot with Name := n } :: post })) ∧
    ((∀ s, some s ∈ ss.Sessions → s.Name ≠ n) → none ∉ ss.Sessions →
      ∃ r, saveSession env (.stored ss) snapshot { Args := [cmd, n] } = .ok r ∧
        r.log = [.read, .save { Sessions := ss.Sessions ++ [some { snapshot with Name := n }] }] ∧
        (env.openErr = none → env.encodeErr = none →
          r.err = none ∧ r.file = .stored
            { Sessions := ss.Sessions ++ [some { snapshot with Name := n }] })) ∧
    (∀ r, saveSession env (.stored ss) snapshot { Args := [cmd, n] } = .ok r →
      ∃ saved, r.log = [.read, .save saved] ∧
        ((sessionNames ss.Sessions).Nodup → (sessionNames saved.Sessions).Nodup)) := by
  refine ⟨fun hocc hnil => ?_, fun hno hnn => ?_, fun r hr => ?_⟩
  · obtain ⟨pre, s, post, hsplit, hs, hpre⟩ := exists_first_named n ss.Sessions hocc hnil
    have hss : ss = { Sessions := pre.map some ++ some s :: post } := by
      cases ss; simp only at hsplit; rw [hsplit]
    refine ⟨pre, s, post, _, hsplit, hs, hpre,
      by rw [hss]; exact saveSession_replace env snapshot cmd n pre s post hpre hs, rfl,
      by rw [hsplit]; simp, ?_⟩
    intro ho he
    simp [Sessions.save, ho, he]
  · refine ⟨_, saveSession_append env snapshot cmd n ss hnn hno, rfl, ?_⟩
    intro ho he
    simp [Sessions.save, ho, he]
  · cases hf : findSession n ss.Sessions 0 with
    | error f =>
      simp [saveSession, NewSessions, hf] at hr
    | ok found =>
      cases found with
      | some k =>
        obtain ⟨pre, s, post, hsplit, hs, hpre, -⟩ := findSession_ok_some n ss.Sessions 0 k hf
        have hss : ss = { Sessions := pre.map some ++ some s :: post } := by
          cases ss; simp only at hsplit; rw [hsplit]
        rw [hss, saveSession_replace env snapshot cmd n pre s post hpre hs] at hr
        simp only [Except.ok.injEq] at hr
        subst hr
        refine ⟨_, rfl, ?_⟩
        intro hnd
        rw [hss] at hnd
        simp only [sessionNames_append, sessionNames_cons_some] at hnd ⊢
        rw [hs] at hnd
        exact hnd
      | none =>
        obtain ⟨hnn, hno⟩ := findSession_ok_none n ss.Sessions 0 hf
        rw [saveSession_append env snapshot cmd n ss hnn hno] at hr
        simp only [Except.ok.injEq] at hr
        subst hr
        refine ⟨_, rfl, ?_⟩
        intro hnd
        have e : sessionNames (ss.Sessions ++ [some { snapshot with Name := n }]) =
            sessionNames ss.Sessions ++ [n] := by
          rw [sessionNames_append, sessionNames_cons_some]
          rfl
        simp only
        rw [e, List.nodup_append]
        refine ⟨hnd, List.nodup_singleton _, ?_⟩
        intro a ha hb
        rw [List.mem_singleton] at hb
        obtain ⟨s, hs, hsn⟩ := (mem_sessionNames ss.Sessions a).1 ha
        exact hno s hs (hsn.trans hb)

/-- C18 (amended) at the sample list a, b, a and the name b: the entry b is replaced in
place. -/
theorem C18_saveSession_amended_witness :
    ∃ (pre : List Session) (s : Session) (post : List (Option Session)) (r : SessionsResult),
      sampleSessions.Sessions = pre.map some ++ some s :: post ∧ s.Name = "b" ∧
      (∀ x ∈ pre, x.Name ≠ "b") ∧
      saveSession okSessionsSaveEnv (.stored sampleSessions) (sampleSession "")
        { Args := ["SaveSession", "b"] } = .ok r ∧
      r.log = [.read, .save
        { Sessions := pre.map some ++ some { sampleSession "" with Name := "b" } :: post }] ∧
      (pre.map some ++ some { sampleSession "" with Name := "b" } :: post).length
        = sampleSessions.Sessions.length ∧
      (okSessionsSaveEnv.openErr = none → okSessionsSaveEnv.encodeErr = none →
        r.err = none ∧ r.file = .stored
          { Sessions := pre.map some ++ some { sampleSession "" with Name := "b" } :: post }) :=
  (C18_saveSession_amended okSessionsSaveEnv sampleSessions (sampleSession "") "SaveSession"
    "b").1 ⟨sampleSession "b", by decide, rfl⟩
    (fun pre post e => by
      have h : none ∈ sampleSessions.Sessions := by rw [e]; simp
      exact absurd h (by decide))

end Core

/-! ## Theorems: util/uiutil/widget/texthistory.go -/

namespace Widget

/-- C11: BeginEdit panics exactly when an edit is already open (th.edit is not nil). When
none is open it returns the same history, buffer and cursor with a fresh open Edit that has
no operations, no PostState and, as PreState, the cursor state at the call. -/
theorem C11_BeginEdit (th : TextHistory) :
    ((∃ msg, th.BeginEdit = .error (.panic msg)) ↔ th.edit ≠ none) ∧
    (th.edit = none →
      th.BeginEdit = .ok
        { hist := th.hist, te := th.te,
          edit := some { list := [], PreState := some th.te.TextCursor, PostState := none } }) := by
  cases h : th.edit with
  | none =>
    refine ⟨?_, fun _ => ?_⟩
    · simp [TextHistory.BeginEdit, h]
    · simp [TextHistory.BeginEdit, h, TextHistory.cursorState]
  | some e =>
    refine ⟨?_, fun h2 => by cases h2⟩
    simp [TextHistory.BeginEdit, h]

/-- C11 at a fresh TextHistory. -/
theorem C11_BeginEdit_witness :
    sampleTextHistory.BeginEdit = .ok
      { hist := sampleTextHistory.hist, te := sampleTextHistory.te,
        edit := some { list := [], PreState := some sampleTextHistory.te.TextCursor,
                       PostState := none } } :=
  (C11_BeginEdit sampleTextHistory).2 rfl

theorem recordSteps_spec (steps : List (TextEdit × UndoRedo)) :
    ∀ (th : TextHistory) (e : Edit), th.edit = some e →
      ∃ te, recordSteps th steps = .ok
        { hist := th.hist, te := te,
          edit := some { e with list := e.list ++ steps.map Prod.snd } } := by
  induction steps with
  | nil =>
    intro th e he
    obtain ⟨h0, te0, edit0⟩ := th
    simp only at he
    subst he
    exact ⟨te0, by simp [recordSteps]⟩
  | cons s rest ih =>
    intro th e he
    obtain ⟨te, ur⟩ := s
    simp only [recordSteps, TextHistory.Append, he]
    obtain ⟨te2, h2⟩ := ih { hist := th.hist, te := te, edit := some (e.Append ur) }
      (e.Append ur) rfl
    exact ⟨te2, by rw [h2]; simp [Edit.Append]⟩

theorem History.Append_last (h : History) (edit : Edit) (hmax : 1 ≤ h.max) :
    ∃ k, (h.Append edit).entries = (h.entries.take h.cur).drop k ++ [edit] ∧
      (h.Append edit).cur = (h.Append edit).entries.length ∧
      (h.Append edit).entries.length ≤ h.max ∧ (h.Append edit).max = h.max := by
  refine ⟨(h.entries.take h.cur ++ [edit]).length - h.max, ?_, rfl, ?_, rfl⟩
  · simp only [History.Append]
    rw [List.drop_append_of_le_length]
    simp only [List.length_append, List.length_singleton]
    omega
  · simp only [History.Append, List.length_drop, List.length_append, List.length_singleton]
    omega

/-- C12: started with no edit open, the sequence BeginEdit, Append(op_1), ..., Append(op_n),
EndEdit returns; it hands to the history exactly one Edit, holding op_1..op_n in that order,
the cursor state at BeginEdit as PreState and the cursor state at EndEdit as PostState; no
edit is open afterwards, so a following BeginEdit does not panic. In a history with room for
at least one entry that Edit is the last entry, right behind the entries done before (the
oldest of which may be evicted), and the position is at the end. -/
theorem C12_recordEdit (th : TextHistory) (steps : List (TextEdit × UndoRedo))
    (teEnd : TextEdit) (hidle : th.edit = none) :
    recordEdit th steps teEnd = .ok
      { hist := th.hist.Append
          { list := steps.map Prod.snd, PreState := some th.te.TextCursor,
            PostState := some teEnd.TextCursor },
        te := teEnd, edit := none } ∧
    (∀ next, recordEdit th steps teEnd = .ok next →
      next.edit = none ∧ (∃ th2, next.BeginEdit = .ok th2) ∧
      (1 ≤ th.hist.max →
        ∃ k, next.hist.entries = (th.hist.entries.take th.hist.cur).drop k ++
            [{ list := steps.map Prod.snd, PreState := some th.te.TextCursor,
               PostState := some teEnd.TextCursor }] ∧
          next.hist.cur = next.hist.entries.length)) := by
  have hrun : recordEdit th steps teEnd = .ok
      { hist := th.hist.Append
          { list := steps.map Prod.snd, PreState := some th.te.TextCursor,
            PostState := some teEnd.TextCursor },
        te := teEnd, edit := none } := by
    simp only [recordEdit, TextHistory.BeginEdit, hidle, TextHistory.cursorState]
    obtain ⟨te2, h2⟩ := recordSteps_spec steps
      { th with edit := some { list := [], PreState := some th.te.TextCursor,
                               PostState := none } } _ rfl
    rw [h2]
    simp [TextHistory.EndEdit, TextHistory.cursorState]
  refine ⟨hrun, fun next hnext => ?_⟩
  rw [hrun] at hnext
  cases hnext
  refine ⟨rfl, ⟨_, rfl⟩, fun hmax => ?_⟩
  obtain ⟨k, h1, h2, _, _⟩ := History.Append_last th.hist
    { list := steps.map Prod.snd, PreState := some th.te.TextCursor,
      PostState := some teEnd.TextCursor } hmax
  exact ⟨k, h1, h2⟩

/-- C12 at a fresh TextHistory with one insert. -/
theorem C12_recordEdit_witness :
    recordEdit sampleTextHistory
        [({ sampleTextEdit with brw := [1, 9, 2, 3] }, { Index := 1, S := [9], D := false })]
        { sampleTextEdit with brw := [1, 9, 2, 3], TextCursor := { index := 2, selection := none } }
      = .ok
      { hist := sampleTextHistory.hist.Append
          { list := [{ Index := 1, S := [9], D := false }],
            PreState := some sampleTextHistory.te.TextCursor,
            PostState := some { index := 2, selection := none } },
        te := { sampleTextEdit with brw := [1, 9, 2, 3],
                                    TextCursor := { index := 2, selection := none } },
        edit := none } :=
  (C12_recordEdit sampleTextHistory _ _ rfl).1

/-- C13: with no edit open and no Edit available in the requested direction (History.UndoRedo
returns nil: position 0 for undo, position at or past the end for redo), Undo and Redo
return a nil error and the whole state, buffer and cursor included, is unchanged. -/
theorem C13_undoRedo_nothing (th : TextHistory) (hidle : th.edit = none) :
    (∀ redo, (th.hist.UndoRedo redo).1 = none → th.undoRedo redo = .ok (th, none)) ∧
    (th.hist.cur = 0 → th.Undo = .ok (th, none)) ∧
    (th.hist.entries.length ≤ th.hist.cur → th.Redo = .ok (th, none)) := by
  have key : ∀ redo, (th.hist.UndoRedo redo) = (none, th.hist) →
      th.undoRedo redo = .ok (th, none) := by
    intro redo h
    cases th
    simp only at hidle
    subst hidle
    simp [TextHistory.undoRedo, TextCursor.panicIfEditing, h]
  have hnone : ∀ redo, (th.hist.UndoRedo redo).1 = none →
      th.hist.UndoRedo redo = (none, th.hist) := by
    intro redo h
    unfold History.UndoRedo at h ⊢
    cases redo with
    | true =>
      simp only [if_true] at h ⊢
      cases hg : th.hist.entries.get? th.hist.cur with
      | none => rfl
      | some e => rw [hg] at h; cases h
    | false =>
      simp only [Bool.false_eq_true, if_false] at h ⊢
      cases hc : th.hist.cur with
      | zero => rfl
      | succ c =>
        rw [hc] at h
        simp only at h ⊢
        cases hg : th.hist.entries.get? c with
        | none => rfl
        | some e => rw [hg] at h; cases h
  refine ⟨fun redo h => key redo (hnone redo h), fun h0 => ?_, fun hlen => ?_⟩
  · apply key
    simp [History.UndoRedo, h0]
  · apply key
    have : th.hist.entries.get? th.hist.cur = none := List.get?_eq_none.2 hlen
    simp only [History.UndoRedo, if_true, this]

/-- C13 at a fresh TextHistory: nothing to undo. -/
theorem C13_undoRedo_nothing_witness :
    sampleTextHistory.Undo = .ok (sampleTextHistory, none) :=
  (C13_undoRedo_nothing sampleTextHistory rfl).2.1 rfl

/-- C15: restoreCursorState sets the cursor to the saved state and appends exactly one
visibility request: with the selection off, the cursor index; with the selection on at anchor
si, the range that starts at the smaller of si and the index and has as length the distance
between them. History, open edit and buffer are unchanged. -/
theorem C15_restoreCursorState (th : TextHistory) (state : TextCursorState) :
    ∃ next, th.restoreCursorState (some state) = .ok next ∧
      next.te.TextCursor = state ∧
      next.hist = th.hist ∧ next.edit = th.edit ∧ next.te.brw = th.te.brw ∧
      (state.selectionOn = false →
        next.te.log = th.te.log ++ [.makeIndexVisible state.index]) ∧
      (state.selectionOn = true →
        next.te.log = th.te.log ++
          [.makeRangeVisible (min state.selectionIndex state.index)
            (|state.selectionIndex - state.index|)]) := by
  obtain ⟨idx, sel⟩ := state
  cases sel with
  | none =>
    refine ⟨_, rfl, ?_, rfl, rfl, rfl, ?_, ?_⟩
    · simp [TextCursorState.selectionOn, TextCursor.SetIndex, TextCursor.SetSelectionOff]
    · intro _
      simp [TextCursorState.selectionOn, TextCursor.SetIndex, TextCursor.SetSelectionOff,
        TextCursor.SelectionOn, TextCursor.Index]
    · intro h
      simp [TextCursorState.selectionOn] at h
  | some si =>
    refine ⟨_, rfl, ?_, rfl, rfl, rfl, ?_, ?_⟩
    · simp [TextCursorState.selectionOn, TextCursorState.selectionIndex, TextCursor.SetSelection]
    · intro h
      simp [TextCursorState.selectionOn] at h
    · intro _
      simp only [TextCursorState.selectionOn, TextCursorState.selectionIndex,
        TextCursor.SetSelection, TextCursor.SelectionOn, TextCursor.SelectionIndex,
        TextCursor.Index, Option.isSome_some, Option.getD_some, if_true, Bool.not_true,
        Bool.false_eq_true, if_false]
      by_cases hgt : si > idx
      · simp only [hgt, if_true]
        rw [min_eq_right (le_of_lt hgt), abs_of_pos (by omega)]
      · simp only [hgt, if_false]
        rw [min_eq_left (by omega), abs_of_nonpos (by omega)]
        simp

/-- C15 at a fresh TextHistory and a saved state with the selection on from 5 back to 2. -/
theorem C15_restoreCursorState_witness :
    ∃ next, sampleTextHistory.restoreCursorState (some { index := 2, selection := some 5 })
        = .ok next ∧ next.te.log = sampleTextHistory.te.log ++ [.makeRangeVisible 2 3] := by
  obtain ⟨next, h1, _, _, _, _, _, h7⟩ :=
    C15_restoreCursorState sampleTextHistory { index := 2, selection := some 5 }
  exact ⟨next, h1, by simpa [TextCursorState.selectionOn, TextCursorState.selectionIndex] using h7 rfl⟩


theorem bufInsert_ok (b : Bytes) (i : Int) (p w : Bytes) (h : bufInsert b i p = .ok w) :
    ∃ k : Nat, i = k ∧ k ≤ b.length ∧ w = b.take k ++ p ++ b.drop k := by
  unfold bufInsert at h
  split at h
  · cases h
  · rename_i hc
    simp only [not_or, not_lt] at hc
    obtain ⟨k, rfl⟩ := Int.eq_ofNat_of_zero_le hc.1
    refine ⟨k, rfl, by omega, ?_⟩
    cases h
    simp

theorem bufDelete_ok (b : Bytes) (i n : Int) (w : Bytes) (h : bufDelete b i n = .ok w) :
    ∃ k m : Nat, i = k ∧ n = m ∧ k + m ≤ b.length ∧ w = b.take k ++ b.drop (k + m) := by
  unfold bufDelete at h
  split at h
  · cases h
  · rename_i hc
    simp only [not_or, not_lt] at hc
    obtain ⟨k, rfl⟩ := Int.eq_ofNat_of_zero_le hc.1
    obtain ⟨m, rfl⟩ := Int.eq_ofNat_of_zero_le hc.2.1
    refine ⟨k, m, rfl, rfl, by omega, ?_⟩
    cases h
    have : ((k : Int) + (m : Int)).toNat = k + m := by omega
    simp [this]

theorem bufInsert_nat (b : Bytes) (k : Nat) (p : Bytes) (hk : k ≤ b.length) :
    bufInsert b k p = .ok (b.take k ++ p ++ b.drop k) := by
  unfold bufInsert
  rw [if_neg (by omega)]
  simp

theorem bufDelete_nat (b : Bytes) (k m : Nat) (hk : k + m ≤ b.length) :
    bufDelete b k m = .ok (b.take k ++ b.drop (k + m)) := by
  unfold bufDelete
  rw [if_neg (by omega)]
  have : ((k : Int) + (m : Int)).toNat = k + m := by omega
  simp [this]

/-- An insert that succeeded is replayed by redo and taken back by undo. -/
theorem insert_record (b : Bytes) (i : Int) (p w : Bytes) (h : bufInsert b i p = .ok w) :
    UndoRedo.Apply { Index := i, S := p, D := false } b true = .ok w ∧
    UndoRedo.Apply { Index := i, S := p, D := false } w false = .ok b := by
  refine ⟨by simpa [UndoRedo.Apply] using h, ?_⟩
  obtain ⟨k, rfl, hk, rfl⟩ := bufInsert_ok b i p w h
  simp only [UndoRedo.Apply, beq_self_eq_true, if_true]
  rw [bufDelete_nat _ k p.length (by simp; omega)]
  congr 1
  have h1 : (b.take k ++ p ++ b.drop k).take k = b.take k := by
    rw [List.append_assoc, List.take_append_of_le_length (by simp [hk])]
    simp [hk]
  have h2 : (b.take k ++ p ++ b.drop k).drop (k + p.length) = b.drop k := by
    have hl : (b.take k ++ p).length = k + p.length := by simp [hk]
    rw [← hl, List.drop_left]
  rw [h1, h2, List.take_append_drop]

/-- A delete that succeeded is replayed by redo and taken back by undo. -/
theorem delete_record (b : Bytes) (i n : Int) (w : Bytes) (h : bufDelete b i n = .ok w) :
    UndoRedo.Apply { Index := i, S := (b.drop i.toNat).take n.toNat, D := true } b true = .ok w ∧
    UndoRedo.Apply { Index := i, S := (b.drop i.toNat).take n.toNat, D := true } w false
      = .ok b := by
  obtain ⟨k, m, rfl, rfl, hk, rfl⟩ := bufDelete_ok b i n w h
  have hS : ((b.drop k).take m).length = m := by simp; omega
  simp only [Int.toNat_ofNat]
  refine ⟨?_, ?_⟩
  · simp only [UndoRedo.Apply, beq_self_eq_true, if_true, hS]
    exact bufDelete_nat b k m hk
  · simp only [UndoRedo.Apply, Bool.true_eq_false, beq_iff_eq, if_false]
    rw [bufInsert_nat _ k _ (by simp; omega)]
    congr 1
    have hl : (b.take k).length = k := by simp; omega
    have h1 : (b.take k ++ b.drop (k + m)).take k = b.take k := by
      have := List.take_left (b.take k) (b.drop (k + m))
      rwa [hl] at this
    have h2 : (b.take k ++ b.drop (k + m)).drop k = b.drop (k + m) := by
      have := List.drop_left (b.take k) (b.drop (k + m))
      rwa [hl] at this
    rw [h1, h2, List.append_assoc]
    have h3 : (b.drop k).take m ++ b.drop (k + m) = b.drop k := by
      rw [← List.drop_drop]
      exact List.take_append_drop m (b.drop k)
    rw [h3, List.take_append_drop]

theorem applyAll_append (redo : Bool) (xs ys : List UndoRedo) (b b2 : Bytes)
    (h : applyAll redo xs b = (b2, none)) :
    applyAll redo (xs ++ ys) b = applyAll redo ys b2 := by
  induction xs generalizing b with
  | nil =>
    simp only [applyAll, Prod.mk.injEq, and_true] at h
    rw [h]
    rfl
  | cons x xs ih =>
    simp only [List.cons_append, applyAll] at h ⊢
    cases hx : x.Apply b redo with
    | error e => rw [hx] at h; simp at h
    | ok w =>
      rw [hx] at h
      simp only at h ⊢
      exact ih w h


/-- One recorded primitive edit: the record appended replays and inverts the change. -/
theorem recordOp_spec (th th2 : TextHistory) (op : EditOp) (e : Edit)
    (he : th.edit = some e) (h : recordOp th op = some th2) :
    th2.hist = th.hist ∧ th2.te.TextCursor = th.te.TextCursor ∧ th2.te.log = th.te.log ∧
    ∃ r, th2.edit = some { e with list := e.list ++ [r] } ∧
      r.Apply th.te.brw true = .ok th2.te.brw ∧ r.Apply th2.te.brw false = .ok th.te.brw := by
  cases op with
  | insert i p =>
    simp only [recordOp] at h
    cases hb : bufInsert th.te.brw i p with
    | error err => rw [hb] at h; cases h
    | ok w =>
      rw [hb] at h
      simp only [TextHistory.Append, he, Except.toOption, Option.some.injEq] at h
      subst h
      exact ⟨rfl, rfl, rfl, _, rfl, insert_record _ _ _ _ hb⟩
  | delete i n =>
    simp only [recordOp] at h
    cases hb : bufDelete th.te.brw i n with
    | error err => rw [hb] at h; cases h
    | ok w =>
      rw [hb] at h
      simp only [TextHistory.Append, he, Except.toOption, Option.some.injEq] at h
      subst h
      exact ⟨rfl, rfl, rfl, _, rfl, delete_record _ _ _ _ hb⟩

theorem recordOps_spec (ops : List EditOp) :
    ∀ (th th2 : TextHistory) (e : Edit), th.edit = some e → recordOps th ops = some th2 →
      th2.hist = th.hist ∧ th2.te.TextCursor = th.te.TextCursor ∧ th2.te.log = th.te.log ∧
      ∃ recs, th2.edit = some { e with list := e.list ++ recs } ∧
        applyAll true recs th.te.brw = (th2.te.brw, none) ∧
        applyAll false recs.reverse th2.te.brw = (th.te.brw, none) := by
  induction ops with
  | nil =>
    intro th th2 e he h
    simp only [recordOps, Option.some.injEq] at h
    subst h
    exact ⟨rfl, rfl, rfl, [], by simp [he], rfl, rfl⟩
  | cons op rest ih =>
    intro th th2 e he h
    simp only [recordOps] at h
    cases h1 : recordOp th op with
    | none => rw [h1] at h; cases h
    | some th1 =>
      rw [h1] at h
      simp only at h
      obtain ⟨a1, a2, a3, r, a4, a5, a6⟩ := recordOp_spec th th1 op e he h1
      obtain ⟨b1, b2, b3, recs, b4, b5, b6⟩ := ih th1 th2 _ a4 h
      refine ⟨b1.trans a1, b2.trans a2, b3.trans a3, r :: recs, ?_, ?_, ?_⟩
      · rw [b4]
        simp
      · simp only [applyAll, a5]
        exact b5
      · rw [List.reverse_cons, applyAll_append false _ _ _ _ b6]
        simp only [applyAll, a6]

/-- One transaction run from a state with no edit open. -/
theorem runTxn_spec (th th2 : TextHistory) (t : Txn) (hidle : th.edit = none)
    (h : runTxn th t = some th2) :
    th2.edit = none ∧ th2.te.TextCursor = t.post ∧
    ∃ e, th2.hist = th.hist.Append e ∧ e.PreState = some t.pre ∧ e.PostState = some t.post ∧
      Link e th.te.brw th2.te.brw := by
  simp only [runTxn, TextHistory.BeginEdit, hidle, TextHistory.cursorState] at h
  cases h1 : recordOps
      { hist := th.hist, te := { brw := th.te.brw, TextCursor := t.pre, log := th.te.log },
        edit := some { list := [], PreState := some t.pre, PostState := none } } t.ops with
  | none => rw [h1] at h; cases h
  | some th1 =>
    rw [h1] at h
    obtain ⟨a1, _, _, recs, a4, a5, a6⟩ := recordOps_spec t.ops _ th1 _ rfl h1
    simp only [TextHistory.EndEdit, a4, Except.toOption, TextHistory.cursorState,
      Option.some.injEq] at h
    subst h
    refine ⟨rfl, rfl, _, by rw [a1], rfl, rfl, ?_⟩
    simpa [Link] using ⟨a5, a6⟩

theorem History.Append_room (h : History) (edit : Edit) (hcur : h.cur = h.entries.length)
    (hroom : h.entries.length + 1 ≤ h.max) :
    h.Append edit = { entries := h.entries ++ [edit], cur := h.entries.length + 1,
                      max := h.max } := by
  simp only [History.Append, hcur, List.take_length, List.length_append, List.length_singleton]
  have : h.entries.length + 1 - h.max = 0 := by omega
  simp [this]

theorem ScriptPath_length (b : Bytes) :
    ∀ (es : List Edit) (ts : List Txn) (b3 : Bytes), ScriptPath b es ts b3 →
      es.length = ts.length := by
  intro es
  induction es generalizing b with
  | nil =>
    intro ts b3 h
    cases ts with
    | nil => rfl
    | cons t ts => simp [ScriptPath] at h
  | cons e es ih =>
    intro ts b3 h
    cases ts with
    | nil => simp [ScriptPath] at h
    | cons t ts =>
      obtain ⟨_, _, b2, _, h2⟩ := h
      simp [ih b2 ts b3 h2]

theorem ScriptPath_append (b b2 b3 : Bytes) :
    ∀ (es1 : List Edit) (ts1 : List Txn) (es2 : List Edit) (ts2 : List Txn),
      ScriptPath b es1 ts1 b2 → ScriptPath b2 es2 ts2 b3 →
      ScriptPath b (es1 ++ es2) (ts1 ++ ts2) b3 := by
  intro es1
  induction es1 generalizing b with
  | nil =>
    intro ts1 es2 ts2 h1 h2
    cases ts1 with
    | nil =>
      simp only [ScriptPath] at h1
      subst h1
      simpa using h2
    | cons t ts => simp [ScriptPath] at h1
  | cons e es ih =>
    intro ts1 es2 ts2 h1 h2
    cases ts1 with
    | nil => simp [ScriptPath] at h1
    | cons t ts =>
      obtain ⟨p1, p2, bm, p3, p4⟩ := h1
      exact ⟨p1, p2, bm, p3, ih bm ts es2 ts2 p4 h2⟩

theorem ScriptPath_single (e : Edit) (t : Txn) (b b2 : Bytes)
    (h1 : e.PreState = some t.pre) (h2 : e.PostState = some t.post) (h3 : Link e b b2) :
    ScriptPath b [e] [t] b2 :=
  ⟨h1, h2, b2, h3, rfl⟩

theorem ScriptPath_snoc (b b3 : Bytes) :
    ∀ (es : List Edit) (e : Edit) (ts : List Txn), ScriptPath b (es ++ [e]) ts b3 →
      ∃ ts1 t b2, ts = ts1 ++ [t] ∧ ScriptPath b es ts1 b2 ∧ e.PreState = some t.pre ∧
        e.PostState = some t.post ∧ Link e b2 b3 := by
  intro es
  induction es generalizing b with
  | nil =>
    intro e ts h
    cases ts with
    | nil => simp [ScriptPath] at h
    | cons t ts =>
      obtain ⟨p1, p2, bm, p3, p4⟩ := h
      cases ts with
      | nil =>
        simp only [ScriptPath] at p4
        subst p4
        exact ⟨[], t, b, rfl, rfl, p1, p2, p3⟩
      | cons t2 ts2 => simp [ScriptPath] at p4
  | cons e0 es ih =>
    intro e ts h
    cases ts with
    | nil => simp [ScriptPath] at h
    | cons t ts =>
      obtain ⟨p1, p2, bm, p3, p4⟩ := h
      obtain ⟨ts1, t1, b2, q1, q2, q3, q4, q5⟩ := ih bm e ts p4
      exact ⟨t :: ts1, t1, b2, by rw [q1]; rfl, ⟨p1, p2, bm, p3, q2⟩, q3, q4, q5⟩

theorem runScript_append (s1 s2 : List Txn) :
    ∀ th : TextHistory, runScript th (s1 ++ s2) = (runScript th s1).bind (fun m => runScript m s2) := by
  induction s1 with
  | nil => intro th; rfl
  | cons t rest ih =>
    intro th
    simp only [List.cons_append, runScript]
    cases runTxn th t with
    | none => rfl
    | some th1 => exact ih th1

/-- A script run from a state with no edit open, the position at the end of the entries and
room for the new entries: the history gains one Edit per transaction, in order. -/
theorem runScript_spec (script : List Txn) :
    ∀ (th th2 : TextHistory), th.edit = none → th.hist.cur = th.hist.entries.length →
      th.hist.entries.length + script.length ≤ th.hist.max →
      runScript th script = some th2 →
      th2.edit = none ∧ th2.hist.max = th.hist.max ∧
      th2.hist.cur = th2.hist.entries.length ∧
      (∀ t ∈ script.getLast?, th2.te.TextCursor = t.post) ∧
      (script = [] → th2 = th) ∧
      ∃ es, th2.hist.entries = th.hist.entries ++ es ∧
        ScriptPath th.te.brw es script th2.te.brw := by
  induction script with
  | nil =>
    intro th th2 _ hcur _ h
    simp only [runScript, Option.some.injEq] at h
    subst h
    exact ⟨by assumption, rfl, hcur, by simp, fun _ => rfl, [], by simp, rfl⟩
  | cons t rest ih =>
    intro th th2 hidle hcur hroom h
    simp only [runScript] at h
    cases h1 : runTxn th t with
    | none => rw [h1] at h; cases h
    | some th1 =>
      rw [h1] at h
      simp only at h
      obtain ⟨a1, a2, e, a3, a4, a5, a6⟩ := runTxn_spec th th1 t hidle h1
      have happ := History.Append_room th.hist e hcur (by simp at hroom; omega)
      rw [happ] at a3
      obtain ⟨b1, b2, b3, b4, b5, es, b6, b7⟩ := ih th1 th2 a1 (by rw [a3]; simp)
        (by rw [a3]; simp at hroom ⊢; omega) h
      refine ⟨b1, by rw [b2, a3], b3, ?_, fun hnil => absurd hnil (List.cons_ne_nil _ _),
        e :: es, ?_, ?_⟩
      · intro t2 ht2
        cases rest with
        | nil =>
          simp only [List.getLast?_singleton, Option.mem_def, Option.some.injEq] at ht2
          subst ht2
          rw [b5 rfl]
          exact a2
        | cons t3 rest3 =>
          exact b4 t2 (by simpa [List.getLast?_cons_cons] using ht2)
      · rw [b6, a3]
        simp
      · exact ⟨a4, a5, th1.te.brw, a6, b7⟩


theorem restoreCursorState_ok (th : TextHistory) (state : TextCursorState) :
    ∃ next, th.restoreCursorState (some state) = .ok next ∧ next.te.TextCursor = state ∧
      next.hist = th.hist ∧ next.edit = th.edit ∧ next.te.brw = th.te.brw := by
  obtain ⟨idx, sel⟩ := state
  cases sel with
  | none =>
    exact ⟨_, rfl, by simp [TextCursorState.selectionOn, TextCursor.SetIndex,
      TextCursor.SetSelectionOff], rfl, rfl, rfl⟩
  | some si =>
    exact ⟨_, rfl, by simp [TextCursorState.selectionOn, TextCursorState.selectionIndex,
      TextCursor.SetSelection], rfl, rfl, rfl⟩

theorem undoRedo_none (th : TextHistory) (redo : Bool) (hidle : th.edit = none)
    (h : th.hist.UndoRedo redo = (none, th.hist)) : th.undoRedo redo = .ok (th, none) := by
  obtain ⟨h0, te0, edit0⟩ := th
  simp only at hidle
  subst hidle
  simp only at h
  simp [TextHistory.undoRedo, TextCursor.panicIfEditing, h]

/-- One Undo or Redo of the Edit e found by History.UndoRedo, whose operations take the buffer
to b2 in that direction and whose cursor state for that direction is st. -/
theorem undoRedo_step (th : TextHistory) (redo : Bool) (e : Edit) (hnew : History)
    (b2 : Bytes) (st : TextCursorState) (hidle : th.edit = none)
    (hh : th.hist.UndoRedo redo = (some e, hnew))
    (hops : applyAll redo (if redo then e.list else e.list.reverse) th.te.brw = (b2, none))
    (hst : (if redo then e.PostState else e.PreState) = some st) :
    ∃ next, th.undoRedo redo = .ok (next, none) ∧ next.edit = none ∧ next.hist = hnew ∧
      next.te.brw = b2 ∧ next.te.TextCursor = st := by
  obtain ⟨r, h1, h2, h3, h4, h5⟩ := restoreCursorState_ok
    { hist := hnew, te := { th.te with brw := b2 }, edit := th.edit } st
  refine ⟨{ r with te := { r.te with log := r.te.log ++ [.changes] } }, ?_, ?_, ?_, ?_, ?_⟩
  · simp only [TextHistory.undoRedo, TextCursor.panicIfEditing, hidle, Option.isSome_none,
      Bool.false_eq_true, if_false, hh, Edit.ApplyUndoRedo, hops, hst]
    rw [hidle] at h1
    rw [h1]
  · rw [h4]
    exact hidle
  · exact h3
  · exact h5
  · exact h2

theorem History.UndoRedo_undo (h : History) (L F : List Edit) (e : Edit)
    (hent : h.entries = L ++ e :: F) (hcur : h.cur = L.length + 1) :
    h.UndoRedo false = (some e, { h with cur := L.length }) := by
  have : h.entries[L.length]? = some e := by
    rw [hent, List.getElem?_append_right (le_refl _)]
    simp
  simp only [History.UndoRedo, Bool.false_eq_true, if_false, hcur, List.get?_eq_getElem?, this]

theorem History.UndoRedo_redo (h : History) (L F : List Edit) (e : Edit)
    (hent : h.entries = L ++ e :: F) (hcur : h.cur = L.length) :
    h.UndoRedo true = (some e, { h with cur := L.length + 1 }) := by
  have : h.entries[L.length]? = some e := by
    rw [hent, List.getElem?_append_right (le_refl _)]
    simp
  simp only [History.UndoRedo, if_true, List.get?_eq_getElem?, hcur, this]

/-- Undo through the Edits R, the last entries before the position. -/
theorem undo_many (R : List Edit) :
    ∀ (L F : List Edit) (ts : List Txn) (b : Bytes) (th : TextHistory),
      th.edit = none → th.hist.entries = L ++ R ++ F → th.hist.cur = (L ++ R).length →
      ScriptPath b R ts th.te.brw →
      ∃ next, undoRedoTimes false R.length th = some next ∧ next.edit = none ∧
        next.hist.entries = th.hist.entries ∧ next.hist.cur = L.length ∧
        next.hist.max = th.hist.max ∧ next.te.brw = b ∧
        (∀ t ∈ ts.head?, next.te.TextCursor = t.pre) ∧ (R = [] → next = th) := by
  induction R using List.reverseRecOn with
  | nil =>
    intro L F ts b th hidle hent hcur hpath
    cases ts with
    | nil =>
      simp only [ScriptPath] at hpath
      exact ⟨th, rfl, hidle, rfl, by simpa using hcur, rfl, hpath, by simp, fun _ => rfl⟩
    | cons t ts => simp [ScriptPath] at hpath
  | append_singleton R e ih =>
    intro L F ts b th hidle hent hcur hpath
    obtain ⟨ts1, t, b2, hts, hp1, hpre, _, hlink⟩ := ScriptPath_snoc b th.te.brw R e ts hpath
    have hent2 : th.hist.entries = (L ++ R) ++ e :: F := by rw [hent]; simp
    have hcur2 : th.hist.cur = (L ++ R).length + 1 := by rw [hcur]; simp; omega
    obtain ⟨th1, s1, s2, s3, s4, s5⟩ := undoRedo_step th false e _ b2 t.pre hidle
      (History.UndoRedo_undo th.hist (L ++ R) F e hent2 hcur2)
      (by simpa using hlink.2) (by simpa using hpre)
    obtain ⟨next, n1, n2, n3, n4, n5, n6, n7, n8⟩ := ih L (e :: F) ts1 b th1 s2
      (by rw [s3]; simpa using hent2) (by rw [s3]) (by rw [s4]; exact hp1)
    refine ⟨next, ?_, n2, by rw [n3, s3], n4, by rw [n5, s3], n6, ?_, ?_⟩
    · rw [List.length_append, List.length_singleton]
      simp only [undoRedoTimes, s1]
      exact n1
    · intro t2 ht2
      cases R with
      | nil =>
        cases ts1 with
        | nil =>
          rw [hts] at ht2
          simp only [List.nil_append, List.head?_cons, Option.mem_def, Option.some.injEq] at ht2
          subst ht2
          rw [n8 rfl]
          exact s5
        | cons t3 ts3 => simp [ScriptPath] at hp1
      | cons e2 R2 =>
        cases ts1 with
        | nil => simp [ScriptPath] at hp1
        | cons t3 ts3 =>
          apply n7
          rw [hts] at ht2
          simpa using ht2
    · intro hnil
      simp at hnil

/-- Redo through the Edits R, the first entries from the position on. -/
theorem redo_many (R : List Edit) :
    ∀ (L F : List Edit) (ts : List Txn) (b2 : Bytes) (th : TextHistory),
      th.edit = none → th.hist.entries = L ++ R ++ F → th.hist.cur = L.length →
      ScriptPath th.te.brw R ts b2 →
      ∃ next, undoRedoTimes true R.length th = some next ∧ next.edit = none ∧
        next.hist.entries = th.hist.entries ∧ next.hist.cur = (L ++ R).length ∧
        next.hist.max = th.hist.max ∧ next.te.brw = b2 ∧
        (∀ t ∈ ts.getLast?, next.te.TextCursor = t.post) ∧ (R = [] → next = th) := by
  induction R with
  | nil =>
    intro L F ts b2 th hidle hent hcur hpath
    cases ts with
    | nil =>
      simp only [ScriptPath] at hpath
      exact ⟨th, rfl, hidle, rfl, by simpa using hcur, rfl, hpath.symm, by simp, fun _ => rfl⟩
    | cons t ts => simp [ScriptPath] at hpath
  | cons e R ih =>
    intro L F ts b2 th hidle hent hcur hpath
    cases ts with
    | nil => simp [ScriptPath] at hpath
    | cons t ts1 =>
      obtain ⟨_, hpost, bm, hlink, hp1⟩ := hpath
      have hent2 : th.hist.entries = L ++ e :: (R ++ F) := by rw [hent]; simp
      obtain ⟨th1, s1, s2, s3, s4, s5⟩ := undoRedo_step th true e _ bm t.post hidle
        (History.UndoRedo_redo th.hist L (R ++ F) e hent2 hcur)
        (by simpa using hlink.1) (by simpa using hpost)
      obtain ⟨next, n1, n2, n3, n4, n5, n6, n7, n8⟩ := ih (L ++ [e]) F ts1 b2 th1 s2
        (by rw [s3]; simpa using hent2) (by rw [s3]; simp) (by rw [s4]; exact hp1)
      refine ⟨next, ?_, n2, by rw [n3, s3], by rw [n4]; simp, by rw [n5, s3], n6, ?_, ?_⟩
      · simp only [List.length_cons, undoRedoTimes, s1]
        exact n1
      · intro t2 ht2
        cases R with
        | nil =>
          cases ts1 with
          | nil =>
            simp only [List.getLast?_singleton, Option.mem_def, Option.some.injEq] at ht2
            subst ht2
            rw [n8 rfl]
            exact s5
          | cons t3 ts3 => simp [ScriptPath] at hp1
        | cons e2 R2 =>
          cases ts1 with
          | nil => simp [ScriptPath] at hp1
          | cons t3 ts3 =>
            exact n7 t2 (by simpa [List.getLast?_cons_cons] using ht2)
      · intro hnil
        cases hnil


/-- C14: run a script of transactions (BeginEdit, inserts and deletes, EndEdit) on a fresh
TextHistory whose history has room for all of them. Then Undo can be called once per
transaction, after which a further Undo changes nothing and the buffer is the initial one;
from there Redo can be called once per transaction, after which a further Redo changes
nothing and buffer and cursor state are those from before the first Undo. At every step the
state is that of the matching transaction boundary: undoing back through a transaction t
gives the buffer from before t and the cursor state t had at BeginEdit, and redoing up to and
including t gives the buffer and the cursor state from right after t. -/
theorem C14_undo_redo_roundtrip (max : Nat) (b0 : Bytes) (c0 : TextCursorState)
    (script : List Txn) (th : TextHistory) (hlen : script.length ≤ max)
    (hrun : runScript (freshTextHistory max b0 c0) script = some th) :
    ∃ u0 rn,
      undoRedoTimes false script.length th = some u0 ∧ u0.Undo = .ok (u0, none) ∧
      u0.te.brw = b0 ∧
      undoRedoTimes true script.length u0 = some rn ∧ rn.Redo = .ok (rn, none) ∧
      rn.te.brw = th.te.brw ∧ rn.te.TextCursor = th.te.TextCursor ∧
      ∀ init t rest, script = init ++ t :: rest →
        ∃ before after u r,
          runScript (freshTextHistory max b0 c0) init = some before ∧
          runTxn before t = some after ∧
          undoRedoTimes false (rest.length + 1) th = some u ∧
          u.te.brw = before.te.brw ∧ u.te.TextCursor = t.pre ∧
          undoRedoTimes true (init.length + 1) u0 = some r ∧
          r.te.brw = after.te.brw ∧ r.te.TextCursor = after.te.TextCursor ∧
          after.te.TextCursor = t.post := by
  have hfresh_cur : (freshTextHistory max b0 c0).hist.cur
      = (freshTextHistory max b0 c0).hist.entries.length := rfl
  obtain ⟨w1, w2, w3, w4, w5, E, w6, w7⟩ := runScript_spec script (freshTextHistory max b0 c0) th
    rfl hfresh_cur (by simpa [freshTextHistory, NewHistory] using hlen) hrun
  have hE : th.hist.entries = E := by simpa [freshTextHistory, NewHistory] using w6
  have hElen : E.length = script.length := ScriptPath_length _ _ _ _ w7
  have hpath : ScriptPath b0 E script th.te.brw := w7
  -- undo until exhausted
  obtain ⟨u0, a1, a2, a3, a4, a5, a6, _, a8⟩ := undo_many E [] [] script b0 th w1
    (by simpa using hE) (by rw [w3, hE]; simp) hpath
  have hu0 : u0.Undo = .ok (u0, none) := by
    apply undoRedo_none u0 false a2
    have : u0.hist.cur = 0 := by simpa using a4
    simp [History.UndoRedo, this]
  -- redo until exhausted
  obtain ⟨rn, r1, r2, r3, r4, r5, r6, r7, r8⟩ := redo_many E [] [] script th.te.brw u0 a2
    (by rw [a3]; simpa using hE) (by simpa using a4) (by rw [a6]; exact hpath)
  have hrn : rn.Redo = .ok (rn, none) := by
    apply undoRedo_none rn true r2
    have hc : rn.hist.entries[rn.hist.cur]? = none := by
      rw [List.getElem?_eq_none_iff, r4, r3, a3, hE]
      simp
    simp only [History.UndoRedo, if_true, List.get?_eq_getElem?, hc]
  have hcursor : rn.te.TextCursor = th.te.TextCursor := by
    cases hs : script.getLast? with
    | none =>
      have hnil : script = [] := List.getLast?_eq_none_iff.1 hs
      have hEnil : E = [] := List.eq_nil_of_length_eq_zero (by rw [hElen, hnil]; rfl)
      rw [r8 hEnil, a8 hEnil]
    | some t =>
      rw [r7 t hs, w4 t hs]
  refine ⟨u0, rn, by rw [← hElen]; exact a1, hu0, a6, by rw [← hElen]; exact r1, hrn, r6,
    hcursor, ?_⟩
  intro init t rest hsplit
  subst hsplit
  rw [runScript_append] at hrun
  cases hb : runScript (freshTextHistory max b0 c0) init with
  | none => rw [hb] at hrun; cases hrun
  | some before =>
    rw [hb] at hrun
    simp only [Option.bind, runScript] at hrun
    cases ha : runTxn before t with
    | none => rw [ha] at hrun; cases hrun
    | some after =>
      rw [ha] at hrun
      simp only at hrun
      have hlen3 : init.length + 1 + rest.length ≤ max := by
        simp at hlen
        omega
      obtain ⟨i1, i2, i3, _, _, E1, i6, i7⟩ := runScript_spec init (freshTextHistory max b0 c0)
        before rfl hfresh_cur (by simp [freshTextHistory, NewHistory]; omega) hb
      have hE1 : before.hist.entries = E1 := by simpa [freshTextHistory, NewHistory] using i6
      have hE1len : E1.length = init.length := ScriptPath_length _ _ _ _ i7
      have hmaxb : before.hist.max = max := by rw [i2]; rfl
      obtain ⟨t1, t2, e, t3, t4, t5, t6⟩ := runTxn_spec before after t i1 ha
      rw [History.Append_room before.hist e i3 (by rw [hE1, hE1len, hmaxb]; omega)] at t3
      obtain ⟨_, _, _, _, _, E2, j6, j7⟩ := runScript_spec rest after th t1
        (by rw [t3]; simp) (by rw [t3]; simp; rw [hE1, hE1len, hmaxb]; omega) hrun
      have hent : th.hist.entries = E1 ++ (e :: E2) := by
        rw [j6, t3, hE1]
        simp
      have hE2len : E2.length = rest.length := ScriptPath_length _ _ _ _ j7
      obtain ⟨u, c1, _, _, _, _, c6, c7, _⟩ := undo_many (e :: E2) E1 [] (t :: rest)
        before.te.brw th w1 (by rw [hent]; simp) (by rw [w3, hent])
        ⟨t4, t5, after.te.brw, t6, j7⟩
      obtain ⟨r, d1, _, _, _, _, d6, d7, _⟩ := redo_many (E1 ++ [e]) [] E2 (init ++ [t])
        after.te.brw u0 a2 (by rw [a3, hent]; simp) (by simpa using a4)
        (by
          rw [a6]
          exact ScriptPath_append b0 before.te.brw after.te.brw E1 init [e] [t] i7
            (ScriptPath_single e t _ _ t4 t5 t6))
      refine ⟨before, after, u, r, rfl, ha, ?_, c6, c7 t (by simp), ?_, d6, ?_, t2⟩
      · have : (e :: E2).length = rest.length + 1 := by simp [hE2len]
        rw [← this]
        exact c1
      · have : (E1 ++ [e]).length = init.length + 1 := by simp [hE1len]
        rw [← this]
        exact d1
      · rw [d7 t (by simp), t2]

/-- C14 at a two-transaction script on the buffer 1, 2, 3 with room for five entries. -/
theorem C14_undo_redo_roundtrip_witness :
    ∃ th u0 rn,
      runScript (freshTextHistory 5 [1, 2, 3] { index := 0, selection := none }) sampleScript
        = some th ∧
      undoRedoTimes false sampleScript.length th = some u0 ∧ u0.Undo = .ok (u0, none) ∧
      u0.te.brw = [1, 2, 3] ∧
      undoRedoTimes true sampleScript.length u0 = some rn ∧ rn.Redo = .ok (rn, none) ∧
      rn.te.brw = th.te.brw ∧ rn.te.TextCursor = th.te.TextCursor := by
  have hrun : ∃ th, runScript (freshTextHistory 5 [1, 2, 3] { index := 0, selection := none })
      sampleScript = some th := ⟨_, rfl⟩
  obtain ⟨th, hth⟩ := hrun
  obtain ⟨u0, rn, h1, h2, h3, h4, h5, h6, h7, _⟩ :=
    C14_undo_redo_roundtrip 5 [1, 2, 3] { index := 0, selection := none } sampleScript th
      (by decide) hth
  exact ⟨th, u0, rn, hth, h1, h2, h3, h4, h5, h6, h7⟩

end Widget

/-! ## Theorems: creating and reloading views (core/erowinfo.go) -/

namespace Core

theorem NewDirERow_not_dir (ops : ViewOps) (w : World) (rowPos : RowPos)
    (hd : w.info.IsDir = false) :
    NewDirERow ops w rowPos = .ok (w, none, some .notADirectory) := by
  simp [NewDirERow, hd]

theorem ReloadDir_not_dir (ops : ViewOps) (w : World) (erow : RowId)
    (hd : w.info.IsDir = false) :
    ReloadDir ops w erow = .ok (w, some .notADirectory) := by
  simp [ReloadDir, hd]

/-- On a directory NewDirERow creates the View and then lists the directory into it. -/
theorem NewDirERow_isDir (ops : ViewOps) (w : World) (rowPos : RowPos)
    (hd : w.info.IsDir = true) (w1 w2 : World) (erow : RowId)
    (h1 : ops.newERow w rowPos = .ok (w1, erow))
    (h2 : ops.listDirERow w1 erow w1.info.name false true = .ok w2) :
    NewDirERow ops w rowPos = .ok (w2, some erow, none) := by
  simp only [NewDirERow, hd, Bool.not_true, Bool.false_eq_true, if_false, h1, h2]

/-- On the sample directory the trace of NewDirERow holds the creation of View 1 and the
listing of the directory into it. -/
theorem NewDirERow_dirWorld :
    ∃ next, NewDirERow sampleViewOps dirWorld ⟨0, none⟩ = .ok (next, some 1, none) ∧
      next.log = [.newERow 1, .listDir 1 "/tmp"] ∧ next.info.ERows = [1] :=
  ⟨_, NewDirERow_isDir sampleViewOps dirWorld ⟨0, none⟩ rfl _ _ 1 rfl rfl, rfl, rfl⟩

/-- When the identity is a directory NewDirERow returns no error: it fails only if one of
the two calls it makes fails. -/
theorem NewDirERow_dir (ops : ViewOps) (w : World) (rowPos : RowPos)
    (hd : w.info.IsDir = true) (next : World) (v : Option RowId) (err : Option GoError)
    (h : NewDirERow ops w rowPos = .ok (next, v, err)) : v.isSome = true ∧ err = none := by
  simp only [NewDirERow, hd, Bool.not_true, Bool.false_eq_true, if_false] at h
  cases h1 : ops.newERow w rowPos with
  | error f => rw [h1] at h; cases h
  | ok r =>
    obtain ⟨w1, erow⟩ := r
    rw [h1] at h
    simp only at h
    cases h2 : ops.listDirERow w1 erow w1.info.name false true with
    | error f => rw [h2] at h; cases h
    | ok w2 =>
      rw [h2] at h
      simp only [Except.ok.injEq, Prod.mk.injEq] at h
      obtain ⟨-, rfl, rfl⟩ := h
      exact ⟨rfl, rfl⟩

theorem readFsFile_error_os (rd : Except OsError Bytes) (st : Except OsError FileInfo)
    (w next : World) (err : GoError) (h : readFsFile rd st w = .ok (next, .error err)) :
    ∃ e, err = .os e := by
  unfold readFsFile at h
  cases rd with
  | error e =>
    simp only [pure, Except.pure, Except.ok.injEq, Prod.mk.injEq, Except.error.injEq] at h
    exact ⟨e, h.2.symm⟩
  | ok b =>
    simp only at h
    change (readFileInfo st (w.emit (.readFile w.info.name)) >>= fun w3 =>
      pure (setFsHash (bytesHash b) w3, Except.ok b)) = _ at h
    cases h3 : readFileInfo st (w.emit (.readFile w.info.name)) with
    | error f => rw [h3] at h; cases h
    | ok w3 =>
      rw [h3] at h
      simp only [bind, Except.bind, pure, Except.pure, Except.ok.injEq, Prod.mk.injEq] at h
      exact absurd h.2 (by simp)

/-- A returning NewFileERow gives a View and no error, or no View and an error of the os
package. -/
theorem NewFileERow_result (fuel : Nat) (ops : ViewOps) (rd : Except OsError Bytes)
    (st : Except OsError FileInfo) (w : World) (rowPos : RowPos) (next : World)
    (v : Option RowId) (err : Option GoError)
    (h : NewFileERow fuel ops rd st w rowPos = .ok (next, v, err)) :
    (v.isSome = true ∧ err = none) ∨ (v = none ∧ ∃ e, err = some (.os e)) := by
  unfold NewFileERow at h
  cases hv : w.info.ERows with
  | cons erow0 rest =>
    rw [hv] at h
    simp only at h
    cases h1 : ops.newERow w rowPos with
    | error f => rw [h1] at h; cases h
    | ok r =>
      obtain ⟨w1, erow⟩ := r
      rw [h1] at h
      simp only at h
      cases h2 : SetRowsStrFromMaster fuel w1 erow0 with
      | error f => rw [h2] at h; cases h
      | ok w2 =>
        rw [h2] at h
        simp only [Except.ok.injEq, Prod.mk.injEq] at h
        obtain ⟨-, rfl, rfl⟩ := h
        exact Or.inl ⟨rfl, rfl⟩
  | nil =>
    rw [hv] at h
    simp only at h
    cases h1 : readFsFile rd st w with
    | error f => rw [h1] at h; cases h
    | ok r =>
      obtain ⟨w1, res⟩ := r
      rw [h1] at h
      cases res with
      | error e0 =>
        simp only [Except.ok.injEq, Prod.mk.injEq] at h
        obtain ⟨-, rfl, rfl⟩ := h
        obtain ⟨e, he⟩ := readFsFile_error_os rd st w w1 e0 h1
        exact Or.inr ⟨rfl, e, by rw [he]⟩
      | ok b =>
        simp only at h
        cases h2 : ops.newERow (setSavedHash w1.info.fsHash.hash b.length w1) rowPos with
        | error f => rw [h2] at h; cases h
        | ok r2 =>
          obtain ⟨w2, erow⟩ := r2
          rw [h2] at h
          simp only at h
          cases h3 : ops.setBytesClearHistory w2 erow b with
          | error f => rw [h3] at h; cases h
          | ok w3 =>
            rw [h3] at h
            simp only [Except.ok.injEq, Prod.mk.injEq] at h
            obtain ⟨-, rfl, rfl⟩ := h
            exact Or.inl ⟨rfl, rfl⟩

theorem NewERow_unexpected (fuel : Nat) (ops : ViewOps) (rd : Except OsError Bytes)
    (st : Except OsError FileInfo) (w : World) (rowPos : RowPos)
    (hs : isSpecialName w.info.name = .ok false) (hd : w.info.IsDir = false)
    (hf : w.info.IsFileButNotDir = false) :
    NewERow fuel ops rd st w rowPos = .ok (w, none, some .unexpectedERowType) := by
  simp [NewERow, hs, hd, hf]

theorem NewERow_unexpected_only (fuel : Nat) (ops : ViewOps) (rd : Except OsError Bytes)
    (st : Except OsError FileInfo) (w : World) (rowPos : RowPos) (next : World)
    (v : Option RowId)
    (h : NewERow fuel ops rd st w rowPos = .ok (next, v, some .unexpectedERowType)) :
    isSpecialName w.info.name = .ok false ∧ w.info.IsDir = false ∧
      w.info.IsFileButNotDir = false := by
  unfold NewERow at h
  cases hs : isSpecialName w.info.name with
  | error f => rw [hs] at h; cases h
  | ok sp =>
    rw [hs] at h
    cases sp with
    | true =>
      simp only at h
      cases h1 : ops.newERow w rowPos with
      | error f => rw [h1] at h; cases h
      | ok r =>
        obtain ⟨w1, erow⟩ := r
        rw [h1] at h
        simp at h
    | false =>
      simp only at h
      cases hd : w.info.IsDir with
      | true =>
        rw [hd, if_pos rfl] at h
        have := (NewDirERow_dir ops w rowPos hd next v _ h).2
        cases this
      | false =>
        rw [hd] at h
        simp only [Bool.false_eq_true, if_false] at h
        cases hf : w.info.IsFileButNotDir with
        | true =>
          rw [hf, if_pos rfl] at h
          rcases NewFileERow_result fuel ops rd st w rowPos next v _ h with h2 | h2
          · cases h2.2
          · obtain ⟨e, he⟩ := h2.2
            cases he
        | false => exact ⟨rfl, rfl, rfl⟩

/-- C21: type mismatches abort with an error and no state change. When the identity is not a
directory, NewDirERow and ReloadDir return the "not a directory" error and the state they
were given (no View is created and nothing is listed, whatever the constructor and the
listing would do); when it is not a regular file, saveFile returns the "not a file" error
and the state it was given (nothing is written, the hashes are unchanged); and NewERow
returns the "unexpected erow type" error exactly when the identity is neither special, nor
a directory, nor a regular file, and then with a nil View and the state it was given. -/
theorem C21_type_mismatch (fuel : Nat) (ops : ViewOps) (rd : Except OsError Bytes)
    (st : Except OsError FileInfo) (env : SaveEnv) (w : World) (rowPos : RowPos)
    (erow : RowId) (b : Bytes) :
    (w.info.IsDir = false →
      NewDirERow ops w rowPos = .ok (w, none, some .notADirectory) ∧
      ReloadDir ops w erow = .ok (w, some .notADirectory)) ∧
    (w.info.IsFileButNotDir = false →
      saveFile env w b = .ok (w, none, false, some (.notAFile w.info.name))) ∧
    ((∃ next v, NewERow fuel ops rd st w rowPos = .ok (next, v, some .unexpectedERowType)) ↔
      (isSpecialName w.info.name = .ok false ∧ w.info.IsDir = false ∧
        w.info.IsFileButNotDir = false)) ∧
    (∀ next v, NewERow fuel ops rd st w rowPos = .ok (next, v, some .unexpectedERowType) →
      v = none ∧ next = w) := by
  refine ⟨fun hd => ⟨NewDirERow_not_dir ops w rowPos hd, ReloadDir_not_dir ops w erow hd⟩,
    fun hf => saveFile_not_file env w b hf, ⟨?_, ?_⟩, ?_⟩
  · rintro ⟨next, v, h⟩
    exact NewERow_unexpected_only fuel ops rd st w rowPos next v h
  · rintro ⟨hs, hd, hf⟩
    exact ⟨w, none, NewERow_unexpected fuel ops rd st w rowPos hs hd hf⟩
  · intro next v h
    obtain ⟨hs, hd, hf⟩ := NewERow_unexpected_only fuel ops rd st w rowPos next v h
    rw [NewERow_unexpected fuel ops rd st w rowPos hs hd hf] at h
    simp only [Except.ok.injEq, Prod.mk.injEq, and_true] at h
    exact ⟨h.2.symm, h.1.symm⟩

/-- C21 at a name that was never found on disk: NewDirERow, ReloadDir, saveFile and NewERow
return their errors and the state unchanged. -/
theorem C21_type_mismatch_witness :
    (NewDirERow sampleViewOps missingWorld ⟨0, none⟩ =
        .ok (missingWorld, none, some .notADirectory) ∧
      ReloadDir sampleViewOps missingWorld 0 = .ok (missingWorld, some .notADirectory)) ∧
    saveFile sampleSaveEnv missingWorld [1] =
      .ok (missingWorld, none, false, some (.notAFile "gone.txt")) ∧
    ∃ next v, NewERow 1 sampleViewOps (.ok []) (.error .notExist) missingWorld ⟨0, none⟩ =
      .ok (next, v, some .unexpectedERowType) :=
  ⟨(C21_type_mismatch 1 sampleViewOps (.ok []) (.error .notExist) sampleSaveEnv missingWorld
      ⟨0, none⟩ 0 [1]).1 rfl,
    (C21_type_mismatch 1 sampleViewOps (.ok []) (.error .notExist) sampleSaveEnv missingWorld
      ⟨0, none⟩ 0 [1]).2.1 rfl,
    (C21_type_mismatch 1 sampleViewOps (.ok []) (.error .notExist) sampleSaveEnv missingWorld
      ⟨0, none⟩ 0 [1]).2.2.1.2 ⟨rfl, rfl, rfl⟩⟩

end Core

/-! ## Theorems: escapes, lines and columns (core/parseutil/misc.go) -/

namespace Parseutil

theorem backslashBefore_cons (ru : Char) (s : List Char) :
    backslashBefore (ru :: s) =
      (if ru ∈ [' ', ':', '%', '?', '<', '>', '(', ')'] then ['\\', ru] else [ru]) ++
        backslashBefore s := by
  simp [backslashBefore, List.flatMap_cons]

theorem containsRune_filename (ru : Char) :
    ContainsRune FilenameEscapeRunes ru = true ↔
      ru ∈ [' ', ':', '%', '?', '<', '>', '(', ')'] := by
  simp [ContainsRune, FilenameEscapeRunes]

theorem containsRune_escape (ru : Char) :
    ContainsRune EscapeRunes ru = true ↔ ru = '\\' := by
  simp [ContainsRune, EscapeRunes, EscapeRune]

theorem EscapeFilenameLoop_eq (s : List Char) :
    ∀ w, EscapeFilenameLoop s w = w ++ backslashBefore s := by
  induction s with
  | nil => intro w; simp [EscapeFilenameLoop, backslashBefore]
  | cons ru s ih =>
    intro w
    rw [backslashBefore_cons, EscapeFilenameLoop, ih]
    by_cases h : ru ∈ [' ', ':', '%', '?', '<', '>', '(', ')']
    · rw [if_pos ((containsRune_filename ru).2 h), if_pos h]
      simp [EscapeRune]
    · rw [if_neg (fun hc => h ((containsRune_filename ru).1 hc)), if_neg h]
      simp

theorem filename_rune_ne_backslash (ru : Char)
    (h : ru ∈ [' ', ':', '%', '?', '<', '>', '(', ')']) : ru ≠ '\\' := by
  intro hc
  subst hc
  revert h
  decide

theorem UnescapeStringLoop_escaped (s : List Char) (hs : '\\' ∉ s) :
    ∀ rest w, UnescapeStringLoop (backslashBefore s ++ rest) w false =
      UnescapeStringLoop rest (w ++ s) false := by
  induction s with
  | nil => intro rest w; simp [backslashBefore]
  | cons ru s ih =>
    intro rest w
    have hru : ru ≠ '\\' := fun hc => hs (by simp [hc])
    have hs2 : '\\' ∉ s := fun hc => hs (List.mem_cons_of_mem _ hc)
    have hne : ContainsRune EscapeRunes ru = false := by
      rw [Bool.eq_false_iff]; exact fun hc => hru ((containsRune_escape ru).1 hc)
    have hbs : ContainsRune EscapeRunes '\\' = true := (containsRune_escape _).2 rfl
    rw [backslashBefore_cons]
    by_cases h : ru ∈ [' ', ':', '%', '?', '<', '>', '(', ')']
    · rw [if_pos h]
      simp only [List.cons_append, List.nil_append, List.append_eq, UnescapeStringLoop, hbs, hne,
        Bool.not_false, Bool.and_true, Bool.not_true, Bool.false_and, if_true,
        Bool.false_eq_true, if_false]
      rw [ih hs2]
      simp
    · rw [if_neg h]
      simp only [List.cons_append, List.nil_append, List.append_eq, UnescapeStringLoop, hne,
        Bool.and_false, Bool.false_eq_true, if_false]
      rw [ih hs2]
      simp

theorem UnescapeRunesLoop_escaped (s : List Char) (hs : '\\' ∉ s) :
    ∀ rest w, UnescapeRunesLoop FilenameEscapeRunes (backslashBefore s ++ rest) w false =
      UnescapeRunesLoop FilenameEscapeRunes rest (w ++ s) false := by
  induction s with
  | nil => intro rest w; simp [backslashBefore]
  | cons ru s ih =>
    intro rest w
    have hru : ru ≠ '\\' := fun hc => hs (by simp [hc])
    have hs2 : '\\' ∉ s := fun hc => hs (List.mem_cons_of_mem _ hc)
    have hne : ContainsRune EscapeRunes ru = false := by
      rw [Bool.eq_false_iff]; exact fun hc => hru ((containsRune_escape ru).1 hc)
    have hbs : ContainsRune EscapeRunes '\\' = true := (containsRune_escape _).2 rfl
    rw [backslashBefore_cons]
    by_cases h : ru ∈ [' ', ':', '%', '?', '<', '>', '(', ')']
    · rw [if_pos h]
      have hin : ContainsRune FilenameEscapeRunes ru = true := (containsRune_filename ru).2 h
      simp only [List.cons_append, List.nil_append, List.append_eq, UnescapeRunesLoop, hbs, hne, hin,
        Bool.not_false, Bool.and_true, Bool.not_true, Bool.false_and, if_true,
        Bool.false_eq_true, if_false]
      rw [ih hs2]
      simp
    · rw [if_neg h]
      simp only [List.cons_append, List.nil_append, List.append_eq, UnescapeRunesLoop, hne,
        Bool.and_false, Bool.false_eq_true, if_false]
      rw [ih hs2]
      simp

/-- C22: for every string s (valid UTF-8, given by its runes) without a backslash,
UnescapeString (EscapeFilename s) = s and UnescapeRunes (EscapeFilename s)
FilenameEscapeRunes = s; and EscapeFilename s is s with one backslash inserted before each
rune of " :%?<>()" and nothing else changed. -/
theorem C22_EscapeFilename_roundtrip (s : List Char) (hs : '\\' ∉ s) :
    UnescapeString (EscapeFilename s) = s ∧
    UnescapeRunes (EscapeFilename s) FilenameEscapeRunes = s ∧
    EscapeFilename s = backslashBefore s := by
  have e : EscapeFilename s = backslashBefore s := by
    rw [EscapeFilename, EscapeFilenameLoop_eq, List.nil_append]
  refine ⟨?_, ?_, e⟩
  · have := UnescapeStringLoop_escaped s hs [] []
    rw [List.append_nil, List.nil_append] at this
    rw [e, UnescapeString, this, UnescapeStringLoop]
  · have := UnescapeRunesLoop_escaped s hs [] []
    rw [List.append_nil, List.nil_append] at this
    rw [e, UnescapeRunes, this, UnescapeRunesLoop]

/-- C22 at the string "a b:c". -/
theorem C22_EscapeFilename_roundtrip_witness :
    UnescapeString (EscapeFilename "a b:c".data) = "a b:c".data ∧
    UnescapeRunes (EscapeFilename "a b:c".data) FilenameEscapeRunes = "a b:c".data ∧
    EscapeFilename "a b:c".data = "a\\ b\\:c".data :=
  C22_EscapeFilename_roundtrip "a b:c".data (by decide)


theorem utf8Size_of_lt_128 (c : Char) (h : c.toNat < 128) : c.utf8Size = 1 := by
  have h2 : c.val ≤ 127 := by
    rw [UInt32.le_def]
    have : c.val.toNat < 128 := h
    exact Nat.lt_succ_iff.mp this
  simp [Char.utf8Size, h2]

theorem isASCII_cons {c : Char} {s : List Char} (h : isASCII (c :: s)) :
    c.toNat < 128 ∧ isASCII s :=
  ⟨h c (List.mem_cons_self _ _), fun x hx => h x (List.mem_cons_of_mem _ hx)⟩

theorem isASCII_append {s t : List Char} (h : isASCII (s ++ t)) : isASCII s ∧ isASCII t :=
  ⟨fun x hx => h x (List.mem_append_left _ hx), fun x hx => h x (List.mem_append_right _ hx)⟩

theorem byteLen_ascii (s : List Char) (h : isASCII s) : byteLen s = s.length := by
  induction s with
  | nil => rfl
  | cons c s ih =>
    rw [byteLen_cons, utf8Size_of_lt_128 c (isASCII_cons h).1, ih (isASCII_cons h).2,
      List.length_cons]
    omega

theorem IndexLineColumnLoop_no_newline (s : List Char) (h : '\n' ∉ s) :
    ∀ ri line lineStart, IndexLineColumnLoop s ri line lineStart = (line, lineStart) := by
  induction s with
  | nil => intro ri line lineStart; rfl
  | cons c s ih =>
    intro ri line lineStart
    have hc : c ≠ '\n' := fun e => h (by simp [e])
    rw [IndexLineColumnLoop, if_neg hc]
    exact ih (fun e => h (List.mem_cons_of_mem _ e)) _ _ _

theorem IndexLineColumnLoop_newline (pre last : List Char) (hp : isASCII pre) :
    ∀ ri line lineStart,
      IndexLineColumnLoop (pre ++ '\n' :: last) ri line lineStart =
        IndexLineColumnLoop last (ri + pre.length + 1) (line + pre.count '\n' + 1)
          (ri + pre.length) := by
  induction pre with
  | nil =>
    intro ri line lineStart
    simp [IndexLineColumnLoop, utf8Size_of_lt_128]
  | cons c pre ih =>
    intro ri line lineStart
    have hc := isASCII_cons hp
    rw [List.cons_append, IndexLineColumnLoop, utf8Size_of_lt_128 c hc.1]
    by_cases e : c = '\n'
    · rw [if_pos e, ih hc.2, e, List.count_cons_self, List.length_cons]
      push_cast
      congr 1 <;> omega
    · rw [if_neg e, ih hc.2, List.count_cons_of_ne (fun h => e h.symm), List.length_cons]
      push_cast
      congr 1 <;> omega

theorem exists_last_newline (s : List Char) (h : '\n' ∈ s) :
    ∃ pre last, s = pre ++ '\n' :: last ∧ '\n' ∉ last := by
  induction s with
  | nil => exact absurd h (List.not_mem_nil _)
  | cons c s ih =>
    by_cases hs : '\n' ∈ s
    · obtain ⟨pre, last, e, hl⟩ := ih hs
      exact ⟨c :: pre, last, by rw [e, List.cons_append], hl⟩
    · have hc : c = '\n' := by
        rcases List.mem_cons.1 h with e | e
        · exact e.symm
        · exact absurd e hs
      exact ⟨[], s, by rw [hc, List.nil_append], hs⟩

theorem LineColumnIndexLoop_skip (line column : Int) (pre rest : List Char)
    (hp : isASCII pre) :
    ∀ ri l c index, l + pre.count '\n' + 1 = line →
      LineColumnIndexLoop line column (pre ++ '\n' :: rest) ri l c index =
        LineColumnIndexLoop line column rest (ri + pre.length + 1) line c
          (ri + pre.length + 1) := by
  induction pre with
  | nil =>
    intro ri l c index hl
    simp only [List.count_nil, Nat.cast_zero, add_zero] at hl
    have h1 : l ≠ line := by omega
    simp only [List.nil_append, LineColumnIndexLoop, h1, false_and, if_false, if_true, hl,
      List.length_nil, Nat.cast_zero, add_zero]
    rw [utf8Size_of_lt_128 '\n' (by decide)]
    rfl
  | cons a pre ih =>
    intro ri l c index hl
    have ha := isASCII_cons hp
    have hk : (0 : Int) ≤ (pre.count '\n' : Int) := Int.natCast_nonneg _
    rw [List.cons_append, LineColumnIndexLoop, utf8Size_of_lt_128 a ha.1]
    by_cases e : a = '\n'
    · rw [e, List.count_cons_self] at hl
      push_cast at hl
      have h1 : l ≠ line := by omega
      have h2 : l + 1 ≠ line := by omega
      have h3 : ¬ l + 1 > line := by omega
      simp only [h1, false_and, if_false, e, if_true, h2, h3]
      rw [ih ha.2 _ _ _ _ (by omega), List.length_cons]
      push_cast
      congr 1 <;> omega
    · rw [List.count_cons_of_ne (fun h => e h.symm)] at hl
      have h1 : l ≠ line := by omega
      simp only [h1, false_and, if_false, e]
      rw [ih ha.2 _ _ _ _ hl, List.length_cons]
      push_cast
      congr 1 <;> omega

theorem LineColumnIndexLoop_line (line column : Int) (last : List Char) (x : Char)
    (rest : List Char) (hp : isASCII last) (hn : '\n' ∉ last) :
    ∀ ri c index, c + last.length = column →
      LineColumnIndexLoop line column (last ++ x :: rest) ri line c index =
        ri + last.length := by
  induction last with
  | nil =>
    intro ri c index hc
    simp only [List.length_nil, Nat.cast_zero, add_zero] at hc
    simp [LineColumnIndexLoop, hc]
  | cons a last ih =>
    intro ri c index hc
    have ha := isASCII_cons hp
    have e : a ≠ '\n' := fun h => hn (by simp [h])
    rw [List.length_cons] at hc
    push_cast at hc
    have hk : (0 : Int) ≤ (last.length : Int) := Int.natCast_nonneg _
    have h1 : c ≠ column := by omega
    rw [List.cons_append, LineColumnIndexLoop, utf8Size_of_lt_128 a ha.1]
    simp only [h1, and_false, if_false, if_true, e]
    rw [ih ha.2 (fun h => hn (List.mem_cons_of_mem _ h)) _ _ _ (by omega), List.length_cons]
    push_cast
    omega

theorem LineColumnIndexLoop_before_first (column : Int) (t : List Char) :
    ∀ ri c, column < c → LineColumnIndexLoop 0 column t ri 0 c 0 = 0 := by
  induction t with
  | nil => intro ri c _; rfl
  | cons a t ih =>
    intro ri c hc
    have h1 : c ≠ column := by omega
    rw [LineColumnIndexLoop]
    simp only [h1, and_false, if_false, if_true]
    by_cases e : a = '\n'
    · simp [e]
    · simp only [e, if_false]
      exact ih _ _ (by omega)

/-- What the composition of the two functions returns on ASCII input: the length of s
when s is empty or contains a newline, and one less when s is a non-empty first line. -/
theorem LineColumnIndex_IndexLineColumn (s t : List Char) (hs : isASCII s) (ht : t ≠ []) :
    LineColumnIndex (s ++ t) (IndexLineColumn s).1 (IndexLineColumn s).2 =
      if s ≠ [] ∧ '\n' ∉ s then (byteLen s : Int) - 1 else byteLen s := by
  obtain ⟨x, rest, rfl⟩ := List.exists_cons_of_ne_nil ht
  by_cases hn : '\n' ∈ s
  · rw [if_neg (fun h => h.2 hn)]
    obtain ⟨pre, last, e, hl⟩ := exists_last_newline s hn
    subst e
    have hpre := (isASCII_append hs).1
    have hlast : isASCII last := (isASCII_cons (isASCII_append hs).2).2
    have h1 : IndexLineColumn (pre ++ '\n' :: last) =
        ((pre.count '\n' : Int) + 1 + 1, (last.length : Int) + 1) := by
      simp only [IndexLineColumn]
      rw [IndexLineColumnLoop_newline pre last hpre,
        IndexLineColumnLoop_no_newline last hl, byteLen_ascii _ hs]
      simp only [List.length_append, List.length_cons]
      push_cast
      congr 1 <;> omega
    rw [h1, byteLen_ascii _ hs]
    simp only [LineColumnIndex, List.append_assoc, List.cons_append]
    rw [LineColumnIndexLoop_skip _ _ pre (last ++ x :: rest) hpre 0 0 0 0 (by omega),
      LineColumnIndexLoop_line _ _ last x rest hlast hl _ _ _ (by omega)]
    simp only [List.length_append, List.length_cons]
    push_cast
    omega
  · rcases s with _ | ⟨a, s⟩
    · rw [if_neg (fun h => h.1 rfl)]
      simp only [IndexLineColumn, IndexLineColumnLoop, LineColumnIndex, List.nil_append]
      exact LineColumnIndexLoop_before_first _ _ _ _ (by decide)
    · rw [if_pos ⟨List.cons_ne_nil _ _, hn⟩]
      have h1 : IndexLineColumn (a :: s) = (1, ((a :: s).length : Int)) := by
        simp only [IndexLineColumn]
        rw [IndexLineColumnLoop_no_newline _ hn, byteLen_ascii _ hs]
        simp
      rw [h1, byteLen_ascii _ hs]
      obtain ⟨init, z, e⟩ : ∃ init z, a :: s = init ++ [z] :=
        ⟨(a :: s).dropLast, (a :: s).getLast (List.cons_ne_nil _ _),
          (List.dropLast_append_getLast (List.cons_ne_nil _ _)).symm⟩
      rw [e] at hs hn ⊢
      have hinit := (isASCII_append hs).1
      have hn2 : '\n' ∉ init := fun h => hn (List.mem_append_left _ h)
      simp only [LineColumnIndex, List.append_assoc, List.cons_append, List.nil_append]
      rw [show (1 : Int) - 1 = 0 from rfl,
        LineColumnIndexLoop_line 0 _ init z (x :: rest) hinit hn2 0 0 0
          (by simp only [List.length_append, List.length_cons, List.length_nil]; push_cast; omega)]
      simp only [List.length_append, List.length_cons, List.length_nil]
      push_cast
      omega

/-- C23 fails on the code at s = "a", t = "b": IndexLineColumn "a" returns line 1 and
column 1 (on the first line the column is the number of bytes of s, not one more), and
LineColumnIndex "ab" 1 1 returns offset 0, while the length of s is 1. -/
theorem C23_IndexLineColumn_first_line :
    IndexLineColumn ['a'] = (1, 1) ∧
    LineColumnIndex (['a'] ++ ['b']) (IndexLineColumn ['a']).1 (IndexLineColumn ['a']).2 = 0 ∧
    byteLen ['a'] = 1 ∧
    LineColumnIndex (['a'] ++ ['b']) (IndexLineColumn ['a']).1 (IndexLineColumn ['a']).2 ≠
      byteLen ['a'] := by
  decide

end Parseutil

/-! ## Theorems: util/uiutil/widget/texteditx.go -/

namespace Widget

open Parseutil (byteLen byteLen_cons byteLen_append byteLen_nil)

theorem utf8Size_pos_int (c : Char) : (0 : Int) < (c.utf8Size : Int) := by
  have := Char.utf8Size_pos c
  omega

theorem ReadRuneAt_at (pre : List Char) (r : Char) (rest : List Char) :
    ReadRuneAt (pre ++ r :: rest) (byteLen pre) = some (r, (r.utf8Size : Int)) := by
  induction pre with
  | nil => simp [ReadRuneAt, byteLen]
  | cons a pre ih =>
    have ha := utf8Size_pos_int a
    have hb : (0 : Int) ≤ (byteLen pre : Int) := Int.natCast_nonneg _
    rw [List.cons_append, ReadRuneAt, byteLen_cons]
    push_cast
    rw [if_neg (by omega), if_neg (by omega)]
    have e : (a.utf8Size : Int) + (byteLen pre : Int) - (a.utf8Size : Int) = byteLen pre := by
      omega
    rw [e, ih]

theorem ReadRuneAt_some (buf : List Char) :
    ∀ (i : Int) (r : Char) (sz : Int), ReadRuneAt buf i = some (r, sz) →
      ∃ pre rest, buf = pre ++ r :: rest ∧ i = byteLen pre ∧ sz = r.utf8Size := by
  induction buf with
  | nil => intro i r sz h; simp [ReadRuneAt] at h
  | cons a buf ih =>
    intro i r sz h
    rw [ReadRuneAt] at h
    by_cases h0 : i = 0
    · rw [if_pos h0] at h
      simp only [Option.some.injEq, Prod.mk.injEq] at h
      obtain ⟨rfl, rfl⟩ := h
      exact ⟨[], buf, rfl, by simp [byteLen, h0], rfl⟩
    · rw [if_neg h0] at h
      by_cases h1 : i < (a.utf8Size : Int)
      · rw [if_pos h1] at h; cases h
      · rw [if_neg h1] at h
        obtain ⟨pre, rest, e, hi, hsz⟩ := ih _ r sz h
        refine ⟨a :: pre, rest, by rw [e, List.cons_append], ?_, hsz⟩
        rw [byteLen_cons]
        push_cast
        omega

theorem findParenthesisCloseLoop_scan (limit : Int) (openRu closeRu : Char)
    (segs : List Segment) (rest : List Char) :
    ∀ (pre : List Char) (fuel : Nat) (c : Int), rest.length < fuel →
      findParenthesisCloseLoop (pre ++ rest) limit openRu closeRu fuel (byteLen pre) c segs =
        some (match scanClose limit openRu closeRu rest (byteLen pre) c with
          | none => segs
          | some j => segs ++ [⟨j, j + closeRu.utf8Size⟩]) := by
  induction rest with
  | nil =>
    intro pre fuel c hf
    obtain ⟨fuel, rfl⟩ : ∃ k, fuel = k + 1 := ⟨fuel - 1, by simp at hf; omega⟩
    rw [findParenthesisCloseLoop, scanClose]
    by_cases hl : (byteLen pre : Int) ≥ limit
    · rw [if_pos hl]
    · rw [if_neg hl]
      have hnone : ReadRuneAt (pre ++ []) (byteLen pre) = none := by
        cases hr : ReadRuneAt (pre ++ []) (byteLen pre) with
        | none => rfl
        | some p =>
          obtain ⟨r, sz⟩ := p
          obtain ⟨pre2, rest2, e, hi, -⟩ := ReadRuneAt_some _ _ _ _ hr
          have := congrArg byteLen e
          rw [List.append_nil, byteLen_append, byteLen_cons] at this
          have hp := Char.utf8Size_pos r
          have hi2 : byteLen pre = byteLen pre2 := by exact_mod_cast hi
          omega
      rw [hnone]
  | cons r rest ih =>
    intro pre fuel c hf
    obtain ⟨fuel, rfl⟩ : ∃ k, fuel = k + 1 := ⟨fuel - 1, by simp at hf; omega⟩
    have hf2 : rest.length < fuel := by simp at hf; omega
    have e1 : pre ++ r :: rest = (pre ++ [r]) ++ rest := by simp
    have e2 : (byteLen pre : Int) + (r.utf8Size : Int) = (byteLen (pre ++ [r]) : Int) := by
      rw [byteLen_append, byteLen_cons, byteLen_nil]; push_cast; omega
    rw [findParenthesisCloseLoop, scanClose]
    by_cases hl : (byteLen pre : Int) ≥ limit
    · rw [if_pos hl, if_pos hl]
    · rw [if_neg hl, if_neg hl, ReadRuneAt_at]
      simp only
      by_cases hc : r = closeRu
      · rw [if_pos hc, if_pos hc]
        by_cases hpos : (if r = openRu then c + 1 else c) > 0
        · rw [if_pos hpos, if_pos hpos, e2, e1]
          exact ih (pre ++ [r]) fuel _ hf2
        · rw [if_neg hpos, if_neg hpos]
      · rw [if_neg hc, if_neg hc, e2, e1]
        exact ih (pre ++ [r]) fuel _ hf2

theorem balanced_iff_from (openRu closeRu : Char) (mid : List Char) :
    balanced openRu closeRu mid ↔ balancedFrom openRu closeRu 0 mid := by
  unfold balanced balancedFrom
  constructor
  · rintro ⟨h1, h2⟩
    refine ⟨by rw [h1]; simp, fun n => ?_⟩
    have := h2 n
    omega
  · rintro ⟨h1, h2⟩
    refine ⟨by omega, fun n => ?_⟩
    have := h2 n
    omega

theorem balancedFrom_nil (openRu closeRu : Char) (c : Int)
    (h : balancedFrom openRu closeRu c []) : c = 0 := by
  have := h.1
  simpa using this

theorem balancedFrom_cons (openRu closeRu : Char) (hne : openRu ≠ closeRu) (c : Int) (r : Char)
    (mid : List Char) (h : balancedFrom openRu closeRu c (r :: mid)) :
    (r = closeRu → 0 < c) ∧
    balancedFrom openRu closeRu
      ((if r = openRu then c + 1 else c) - (if r = closeRu then 1 else 0)) mid := by
  obtain ⟨h1, h2⟩ := h
  have key : ∀ l : List Char,
      (((r :: l).count closeRu : Nat) : Int) - (r :: l).count openRu =
        (l.count closeRu : Int) - l.count openRu +
          ((if r = closeRu then 1 else 0) - (if r = openRu then 1 else 0)) := by
    intro l
    by_cases ho : r = openRu
    · have hc : r ≠ closeRu := fun e => hne (ho.symm.trans e)
      rw [if_pos ho, if_neg hc, ho, List.count_cons_self,
        List.count_cons_of_ne hne.symm]
      push_cast; omega
    · by_cases hc : r = closeRu
      · rw [if_neg ho, if_pos hc, hc, List.count_cons_self,
          List.count_cons_of_ne hne]
        push_cast; omega
      · rw [if_neg ho, if_neg hc, List.count_cons_of_ne (fun e => hc e.symm),
          List.count_cons_of_ne (fun e => ho e.symm)]
        omega
  refine ⟨fun hc => ?_, ?_, fun n => ?_⟩
  · have h3 : ((List.count closeRu [r] : Nat) : Int) ≤ c + (List.count openRu [r] : Nat) :=
      h2 1
    have k := key []
    have ho : r ≠ openRu := fun e => hne (e.symm.trans hc)
    rw [if_pos hc, if_neg ho] at k
    simp only [List.count_nil, Nat.cast_zero] at k
    omega
  · have k := key mid
    split_ifs at k ⊢ <;> omega
  · have h3 := h2 (n + 1)
    rw [List.take_succ_cons] at h3
    have k := key (mid.take n)
    split_ifs at k ⊢ <;> omega

theorem scanClose_balanced (limit : Int) (openRu closeRu : Char) (hne : openRu ≠ closeRu)
    (post : List Char) (mid : List Char) :
    ∀ (i c : Int), balancedFrom openRu closeRu c mid →
      scanClose limit openRu closeRu (mid ++ closeRu :: post) i c =
        if i + byteLen mid < limit then some (i + byteLen mid) else none := by
  induction mid with
  | nil =>
    intro i c h
    have hc := balancedFrom_nil openRu closeRu c h
    subst hc
    rw [List.nil_append, scanClose, byteLen_nil]
    simp only [Nat.cast_zero, add_zero]
    by_cases hl : i ≥ limit
    · have h2 : ¬ i < limit := by omega
      rw [if_pos hl, if_neg h2]
    · have h2 : i < limit := by omega
      rw [if_neg hl, if_pos h2]
      simp [hne.symm]
  | cons r mid ih =>
    intro i c h
    obtain ⟨hpos, hrest⟩ := balancedFrom_cons openRu closeRu hne c r mid h
    have hb : (0 : Int) ≤ (byteLen mid : Int) := Int.natCast_nonneg _
    have hr := utf8Size_pos_int r
    rw [List.cons_append, scanClose, byteLen_cons]
    push_cast
    by_cases hl : i ≥ limit
    · have h2 : ¬ i + ((r.utf8Size : Int) + (byteLen mid : Int)) < limit := by omega
      rw [if_pos hl, if_neg h2]
    · rw [if_neg hl]
      by_cases hc : r = closeRu
      · have ho : r ≠ openRu := fun e => hne (e.symm.trans hc)
        rw [if_pos hc, if_neg ho] at hrest
        rw [if_pos hc, if_neg ho, if_pos (hpos hc), ih _ _ hrest]
        simp only [add_assoc]
      · rw [if_neg hc, sub_zero] at hrest
        rw [if_neg hc, ih _ _ hrest]
        simp only [add_assoc]

theorem balancedFrom_nil_zero (openRu closeRu : Char) : balancedFrom openRu closeRu 0 [] := by
  refine ⟨by simp, fun n => by simp⟩

theorem balancedFrom_cons_intro (openRu closeRu : Char) (hne : openRu ≠ closeRu) (c : Int)
    (r : Char) (mid : List Char) (h0 : 0 ≤ c)
    (h : balancedFrom openRu closeRu
      ((if r = openRu then c + 1 else c) - (if r = closeRu then 1 else 0)) mid) :
    balancedFrom openRu closeRu c (r :: mid) := by
  obtain ⟨h1, h2⟩ := h
  have key : ∀ l : List Char,
      (((r :: l).count closeRu : Nat) : Int) - (r :: l).count openRu =
        (l.count closeRu : Int) - l.count openRu +
          ((if r = closeRu then 1 else 0) - (if r = openRu then 1 else 0)) := by
    intro l
    by_cases ho : r = openRu
    · have hc : r ≠ closeRu := fun e => hne (ho.symm.trans e)
      rw [if_pos ho, if_neg hc, ho, List.count_cons_self,
        List.count_cons_of_ne hne.symm]
      push_cast; omega
    · by_cases hc : r = closeRu
      · rw [if_neg ho, if_pos hc, hc, List.count_cons_self,
          List.count_cons_of_ne hne]
        push_cast; omega
      · rw [if_neg ho, if_neg hc, List.count_cons_of_ne (fun e => hc e.symm),
          List.count_cons_of_ne (fun e => ho e.symm)]
        omega
  refine ⟨?_, fun n => ?_⟩
  · have k := key mid
    split_ifs at k h1 <;> omega
  · cases n with
    | zero => simpa using h0
    | succ n =>
      rw [List.take_succ_cons]
      have k := key (mid.take n)
      have h3 := h2 n
      split_ifs at k h3 <;> omega

theorem scanClose_some (limit : Int) (openRu closeRu : Char) (hne : openRu ≠ closeRu)
    (rest : List Char) :
    ∀ (i c j : Int), 0 ≤ c → scanClose limit openRu closeRu rest i c = some j →
      ∃ mid post, rest = mid ++ closeRu :: post ∧ balancedFrom openRu closeRu c mid ∧
        j = i + byteLen mid ∧ j < limit := by
  induction rest with
  | nil => intro i c j _ h; simp [scanClose] at h
  | cons r rest ih =>
    intro i c j h0 h
    rw [scanClose] at h
    by_cases hl : i ≥ limit
    · rw [if_pos hl] at h; cases h
    · rw [if_neg hl] at h
      by_cases hc : r = closeRu
      · have ho : r ≠ openRu := fun e => hne (e.symm.trans hc)
        rw [if_pos hc, if_neg ho] at h
        by_cases hpos : c > 0
        · rw [if_pos hpos] at h
          obtain ⟨mid, post, e, hb, hj, hlt⟩ := ih _ _ _ (by omega) h
          refine ⟨r :: mid, post, by rw [e, List.cons_append], ?_, ?_, hlt⟩
          · apply balancedFrom_cons_intro openRu closeRu hne c r mid h0
            rw [if_neg ho, if_pos hc]
            exact hb
          · rw [hj, byteLen_cons]; push_cast; omega
        · rw [if_neg hpos] at h
          simp only [Option.some.injEq] at h
          have hc0 : c = 0 := by omega
          subst hc0
          refine ⟨[], rest, by rw [hc, List.nil_append], balancedFrom_nil_zero _ _, ?_, ?_⟩
          · rw [byteLen_nil]; push_cast; omega
          · omega
      · rw [if_neg hc] at h
        obtain ⟨mid, post, e, hb, hj, hlt⟩ := ih _ _ _ (by split_ifs <;> omega) h
        refine ⟨r :: mid, post, by rw [e, List.cons_append], ?_, ?_, hlt⟩
        · apply balancedFrom_cons_intro openRu closeRu hne c r mid h0
          rw [if_neg hc, sub_zero]
          exact hb
        · rw [hj, byteLen_cons]; push_cast; omega

theorem byteLen_eq_zero (a : List Char) (h : byteLen a = 0) : a = [] := by
  cases a with
  | nil => rfl
  | cons c a =>
    rw [byteLen_cons] at h
    have := Char.utf8Size_pos c
    omega

/-- A close rune with balanced runes before it is found at one place only. -/
theorem balanced_unique (openRu closeRu : Char) (hne : openRu ≠ closeRu)
    (mid post mid2 post2 : List Char) (e : mid ++ closeRu :: post = mid2 ++ closeRu :: post2)
    (h : balanced openRu closeRu mid) (h2 : balanced openRu closeRu mid2) : mid2 = mid := by
  have s1 := scanClose_balanced (byteLen mid + byteLen mid2 + 1) openRu closeRu hne post mid 0 0
    ((balanced_iff_from _ _ _).1 h)
  have s2 := scanClose_balanced (byteLen mid + byteLen mid2 + 1) openRu closeRu hne post2 mid2
    0 0 ((balanced_iff_from _ _ _).1 h2)
  rw [e, s2, if_pos (by omega), if_pos (by omega)] at s1
  simp only [Option.some.injEq, zero_add, Nat.cast_inj] at s1
  rcases List.append_eq_append_iff.1 e with ⟨a, ha, -⟩ | ⟨a, ha, -⟩
  · have := congrArg byteLen ha
    rw [byteLen_append] at this
    rw [ha, byteLen_eq_zero a (by omega), List.append_nil]
  · have := congrArg byteLen ha
    rw [byteLen_append] at this
    rw [ha, byteLen_eq_zero a (by omega), List.append_nil]

theorem findParenthesisClose_scan (pre rest : List Char) (openRu closeRu : Char)
    (limit : Int) (segs : List Segment) :
    findParenthesisClose (pre ++ openRu :: rest) limit (byteLen pre) openRu openRu closeRu segs =
      some (match scanClose limit openRu closeRu rest
          ((byteLen pre : Int) + (openRu.utf8Size : Int)) 0 with
        | none => segs ++ [⟨byteLen pre, (byteLen pre : Int) + openRu.utf8Size⟩]
        | some j => segs ++ [⟨byteLen pre, (byteLen pre : Int) + openRu.utf8Size⟩] ++
            [⟨j, j + closeRu.utf8Size⟩]) := by
  have e1 : pre ++ openRu :: rest = (pre ++ [openRu]) ++ rest := by simp
  have e2 : (byteLen pre : Int) + (openRu.utf8Size : Int) = (byteLen (pre ++ [openRu]) : Int) := by
    rw [byteLen_append, byteLen_cons, byteLen_nil]; push_cast; omega
  unfold findParenthesisClose
  simp only
  rw [e2, e1]
  exact findParenthesisCloseLoop_scan limit openRu closeRu _ rest (pre ++ [openRu]) _ 0
    (by simp only [List.length_append, List.length_cons, List.length_nil]; omega)

/-- For every buffer, every cursor index and every earlier content of the group, source
findParenthesisClose returns: the iteration bound of the model is never used up. -/
theorem findParenthesisClose_returns (buf : List Char) (limit ci : Int)
    (cru openRu closeRu : Char) (segs : List Segment) :
    ∃ out, findParenthesisClose buf limit ci cru openRu closeRu segs = some out := by
  unfold findParenthesisClose
  simp only
  rw [findParenthesisCloseLoop]
  by_cases hl : ci + (cru.utf8Size : Int) ≥ limit
  · rw [if_pos hl]; exact ⟨_, rfl⟩
  · rw [if_neg hl]
    cases hr : ReadRuneAt buf (ci + (cru.utf8Size : Int)) with
    | none => exact ⟨_, rfl⟩
    | some p =>
      obtain ⟨ru, size⟩ := p
      obtain ⟨pre, rest, e, hi, hsz⟩ := ReadRuneAt_some _ _ _ _ hr
      have e1 : pre ++ ru :: rest = (pre ++ [ru]) ++ rest := by simp
      have e2 : ci + (cru.utf8Size : Int) + size = (byteLen (pre ++ [ru]) : Int) := by
        rw [byteLen_append, byteLen_cons, byteLen_nil, hi, hsz]; push_cast; omega
      have hlen : rest.length < buf.length := by
        rw [e]; simp only [List.length_append, List.length_cons]; omega
      have go : ∀ (c : Int) (sg : List Segment), ∃ out,
          findParenthesisCloseLoop (pre ++ [ru] ++ rest) limit openRu closeRu
            (pre ++ [ru] ++ rest).length (byteLen (pre ++ [ru])) c sg = some out := by
        intro c sg
        rw [findParenthesisCloseLoop_scan limit openRu closeRu _ rest (pre ++ [ru]) _ _
          (by rw [← e1, ← e]; exact hlen)]
        exact ⟨_, rfl⟩
      simp only
      rw [e2, e, e1]
      split_ifs <;> first | exact ⟨_, rfl⟩ | exact go _ _

theorem bracket_pair_facts (openRu closeRu : Char)
    (hpair : (openRu, closeRu) ∈ [('{', '}'), ('(', ')'), ('[', ']')]) :
    openRu ≠ closeRu ∧ openRu.utf8Size = 1 ∧ closeRu.utf8Size = 1 := by
  simp only [List.mem_cons, Prod.mk.injEq, List.mem_singleton, List.not_mem_nil, or_false] at hpair
  rcases hpair with ⟨rfl, rfl⟩ | ⟨rfl, rfl⟩ | ⟨rfl, rfl⟩ <;> decide

/-- The condition balanced, checked on the prefixes up to the length of the list. -/
theorem balanced_of_range (openRu closeRu : Char) (mid : List Char)
    (h1 : mid.count openRu = mid.count closeRu)
    (h2 : ∀ n ∈ List.range (mid.length + 1),
      (mid.take n).count closeRu ≤ (mid.take n).count openRu) :
    balanced openRu closeRu mid := by
  refine ⟨h1, fun n => ?_⟩
  by_cases hn : n ≤ mid.length
  · exact h2 n (List.mem_range.2 (by omega))
  · have := h2 mid.length (List.mem_range.2 (by omega))
    rw [List.take_length] at this
    rw [List.take_of_length_le (by omega)]
    exact this

theorem updateParenthesisOpt_open (pre rest : List Char) (openRu closeRu : Char)
    (hpair : (openRu, closeRu) ∈ [('{', '}'), ('(', ')'), ('[', ']')]) (top bottom : Int)
    (segs0 : List Segment) :
    updateParenthesisOpt true true true (pre ++ openRu :: rest) top bottom (byteLen pre) segs0 =
      findParenthesisClose (pre ++ openRu :: rest) bottom (byteLen pre) openRu openRu closeRu
        [] := by
  simp only [List.mem_cons, Prod.mk.injEq, List.mem_singleton, List.not_mem_nil, or_false] at hpair
  unfold updateParenthesisOpt
  simp only [Bool.not_true, Bool.false_eq_true, if_false, ReadRuneAt_at]
  rcases hpair with ⟨rfl, rfl⟩ | ⟨rfl, rfl⟩ | ⟨rfl, rfl⟩ <;> rfl

/-- C24: for every buffer, every bracket pair (open, close) among curly, round and square
brackets and every cursor offset ci at an open bracket, findParenthesisClose returns and
appends the segment [ci, ci+1) of the open bracket and then, when a close rune at an offset
j > ci has balanced open and close runes strictly between ci and j (equal counts, no prefix
with more closes than opens) and j is below the visible-bottom limit, the segment
[j, j+1); there is at most one such offset, so it is the first. When there is no such
offset, or it is at or past the limit, only the open bracket's segment is appended. Started
from no segments, as updateParenthesisOpt does, the resulting segments are in increasing
offset order. -/
theorem C24_findParenthesisClose (pre rest : List Char) (openRu closeRu : Char)
    (limit : Int) (segs : List Segment)
    (hpair : (openRu, closeRu) ∈ [('{', '}'), ('(', ')'), ('[', ']')]) :
    (∀ mid post, rest = mid ++ closeRu :: post → balanced openRu closeRu mid →
      ((byteLen pre : Int) + 1 + byteLen mid < limit →
        findParenthesisClose (pre ++ openRu :: rest) limit (byteLen pre) openRu openRu closeRu
            segs =
          some (segs ++ [⟨byteLen pre, (byteLen pre : Int) + 1⟩,
            ⟨(byteLen pre : Int) + 1 + byteLen mid, (byteLen pre : Int) + 1 + byteLen mid + 1⟩])) ∧
      (limit ≤ (byteLen pre : Int) + 1 + byteLen mid →
        findParenthesisClose (pre ++ openRu :: rest) limit (byteLen pre) openRu openRu closeRu
            segs =
          some (segs ++ [⟨byteLen pre, (byteLen pre : Int) + 1⟩])) ∧
      (∀ mid2 post2, rest = mid2 ++ closeRu :: post2 → balanced openRu closeRu mid2 →
        mid2 = mid)) ∧
    ((∀ mid post, rest = mid ++ closeRu :: post → ¬ balanced openRu closeRu mid) →
      findParenthesisClose (pre ++ openRu :: rest) limit (byteLen pre) openRu openRu closeRu
          segs =
        some (segs ++ [⟨byteLen pre, (byteLen pre : Int) + 1⟩])) ∧
    (∃ out,
      findParenthesisClose (pre ++ openRu :: rest) limit (byteLen pre) openRu openRu closeRu
        [] = some out ∧
      out.Pairwise (fun a b => a.start < b.start ∧ a.stop ≤ b.start) ∧
      ∀ sg ∈ out, sg.start < sg.stop) ∧
    (∀ top segs0,
      updateParenthesisOpt true true true (pre ++ openRu :: rest) top limit (byteLen pre) segs0 =
        findParenthesisClose (pre ++ openRu :: rest) limit (byteLen pre) openRu openRu closeRu
          []) := by
  obtain ⟨hne, ho, hc⟩ := bracket_pair_facts openRu closeRu hpair
  have key : ∀ sg0 : List Segment,
      findParenthesisClose (pre ++ openRu :: rest) limit (byteLen pre) openRu openRu closeRu
          sg0 =
        some (match scanClose limit openRu closeRu rest ((byteLen pre : Int) + 1) 0 with
          | none => sg0 ++ [⟨byteLen pre, (byteLen pre : Int) + 1⟩]
          | some j => sg0 ++ [⟨byteLen pre, (byteLen pre : Int) + 1⟩] ++ [⟨j, j + 1⟩]) := by
    intro sg0
    have := findParenthesisClose_scan pre rest openRu closeRu limit sg0
    rw [ho, hc] at this
    exact this
  refine ⟨fun mid post e hb => ⟨fun hlt => ?_, fun hge => ?_, fun mid2 post2 e2 hb2 => ?_⟩,
    fun hnone => ?_, ?_, fun top segs0 => updateParenthesisOpt_open pre rest openRu closeRu
      hpair top limit segs0⟩
  · rw [key, e, scanClose_balanced limit openRu closeRu hne post mid _ 0
      ((balanced_iff_from _ _ _).1 hb), if_pos hlt]
    simp
  · rw [key, e, scanClose_balanced limit openRu closeRu hne post mid _ 0
      ((balanced_iff_from _ _ _).1 hb), if_neg (by omega)]
  · exact balanced_unique openRu closeRu hne mid post mid2 post2 (by rw [← e, ← e2]) hb hb2
  · rw [key]
    cases hs : scanClose limit openRu closeRu rest ((byteLen pre : Int) + 1) 0 with
    | none => rfl
    | some j =>
      obtain ⟨mid, post, e, hb, -, -⟩ :=
        scanClose_some limit openRu closeRu hne rest _ 0 j (le_refl 0) hs
      exact absurd ((balanced_iff_from _ _ _).2 hb) (hnone mid post e)
  · rw [key]
    cases hs : scanClose limit openRu closeRu rest ((byteLen pre : Int) + 1) 0 with
    | none =>
      refine ⟨_, rfl, ?_, ?_⟩
      · simp
      · intro sg hsg
        simp only [List.nil_append, List.mem_singleton] at hsg
        subst hsg
        simp
    | some j =>
      obtain ⟨mid, post, e, hb, hj, -⟩ :=
        scanClose_some limit openRu closeRu hne rest _ 0 j (le_refl 0) hs
      have hm : (0 : Int) ≤ (byteLen mid : Int) := Int.natCast_nonneg _
      refine ⟨_, rfl, ?_, ?_⟩
      · simp only [List.nil_append, List.singleton_append, List.pairwise_cons,
          List.mem_singleton, forall_eq, List.not_mem_nil, false_implies, implies_true,
          List.Pairwise.nil, and_true]
        omega
      · intro sg hsg
        simp only [List.nil_append, List.singleton_append, List.mem_cons, List.mem_singleton,
          List.not_mem_nil, or_false] at hsg
        rcases hsg with rfl | rfl <;> simp

/-- C24 on the buffer "a(b(c)d)e" with the cursor at offset 1 and the limit at 100: the
segments [1, 2) and [7, 8) are appended. -/
theorem C24_findParenthesisClose_witness :
    findParenthesisClose "a(b(c)d)e".data 100 1 '(' '(' ')' [] =
      some [⟨1, 2⟩, ⟨7, 8⟩] :=
  ((C24_findParenthesisClose ['a'] "b(c)d)e".data '(' ')' 100 [] (by decide)).1
    "b(c)d".data "e".data rfl (balanced_of_range _ _ _ (by decide) (by decide))).1 (by decide)

end Widget

/-! ## Theorems: ui/ui.go -/

namespace UI

theorem wrap64_of_range (x : Int) (h1 : -2 ^ 63 ≤ x) (h2 : x < 2 ^ 63) : wrap64 x = x := by
  unfold wrap64
  omega

theorem set_small (v min max : Int) (hmin : -2 ^ 63 ≤ min) (hmax : max < 2 ^ 63)
    (h : min ≤ max) (hs : max - min < 10) :
    WarpPointerToRectanglePad.set v min max = min + (max - min) / 2 := by
  have h0 : (0 : Int) ≤ max - min := by omega
  have ht : (max - min).tdiv 2 = (max - min) / 2 := Int.tdiv_eq_ediv h0 (by decide)
  simp only [WarpPointerToRectanglePad.set, WarpPointerToRectanglePad.pad]
  rw [wrap64_of_range (max - min) (by omega) (by omega),
    wrap64_of_range (5 * 2) (by norm_num) (by norm_num), ht,
    wrap64_of_range ((max - min) / 2) (by omega) (by omega),
    wrap64_of_range (min + (max - min) / 2) (by omega) (by omega)]
  rw [if_pos (by omega)]

theorem set_large (v min max : Int) (hmin : -2 ^ 63 ≤ min) (hmax : max < 2 ^ 63)
    (hs : 10 ≤ max - min) (hw : max - min < 2 ^ 63) :
    WarpPointerToRectanglePad.set v min max =
      if v < min + 5 then min + 5 else if v > max - 5 then max - 5 else v := by
  simp only [WarpPointerToRectanglePad.set, WarpPointerToRectanglePad.pad]
  rw [wrap64_of_range (max - min) (by omega) hw,
    wrap64_of_range (5 * 2) (by norm_num) (by norm_num),
    wrap64_of_range (min + 5) (by omega) (by omega),
    wrap64_of_range (max - 5) (by omega) (by omega)]
  rw [if_neg (by omega)]

/-- C25 as stated fails at v = 0, min = -2^62, max = 2^62: min ≤ max, but max - min = 2^63
does not fit a 64-bit int and wraps to -2^63, which is below 10, so the closure stores
min + (-2^63)/2 = -2^63, a value below min and so outside [min, max]. -/
theorem C25_counterexample :
    (-2 ^ 62 : Int) ≤ 2 ^ 62 ∧
    WarpPointerToRectanglePad.set 0 (-2 ^ 62) (2 ^ 62) = -2 ^ 63 ∧
    ¬ ((-2 ^ 62 : Int) ≤ WarpPointerToRectanglePad.set 0 (-2 ^ 62) (2 ^ 62) ∧
        WarpPointerToRectanglePad.set 0 (-2 ^ 62) (2 ^ 62) ≤ 2 ^ 62) := by
  decide

/-- C25 (amended): for every coordinate v and every interval of 64-bit ints with min ≤ max
whose width max - min fits a 64-bit int (max - min < 2^63), the per-axis adjustment of
WarpPointerToRectanglePad (pad = 5) yields a value r in [min, max]; when max - min < 10 it
is min + (max - min)/2 whatever v is; when max - min ≥ 10 it lies in [min + 5, max - 5],
equals v when v is in that range, and is otherwise the nearer of the two bounds (min + 5 for
v below the range, max - 5 for v above it); adjusting r again gives r. The function
applies this adjustment to X with the X interval and to Y with the Y interval of the
rectangle. -/
theorem C25_WarpPointerToRectanglePad_set_amended (v min max : Int)
    (hmin : -2 ^ 63 ≤ min) (hmax : max < 2 ^ 63) (h : min ≤ max) (hw : max - min < 2 ^ 63) :
    (min ≤ WarpPointerToRectanglePad.set v min max ∧
      WarpPointerToRectanglePad.set v min max ≤ max) ∧
    (max - min < 10 → WarpPointerToRectanglePad.set v min max = min + (max - min) / 2) ∧
    (max - min ≥ 10 →
      (min + 5 ≤ WarpPointerToRectanglePad.set v min max ∧
        WarpPointerToRectanglePad.set v min max ≤ max - 5) ∧
      (min + 5 ≤ v → v ≤ max - 5 → WarpPointerToRectanglePad.set v min max = v) ∧
      (v < min + 5 → WarpPointerToRectanglePad.set v min max = min + 5) ∧
      (max - 5 < v → WarpPointerToRectanglePad.set v min max = max - 5) ∧
      (∀ b, b = min + 5 ∨ b = max - 5 →
        |WarpPointerToRectanglePad.set v min max - v| ≤ |b - v|)) ∧
    WarpPointerToRectanglePad.set (WarpPointerToRectanglePad.set v min max) min max =
      WarpPointerToRectanglePad.set v min max ∧
    (∀ p r0, WarpPointerToRectanglePad (some p) r0 =
      some { X := WarpPointerToRectanglePad.set p.X r0.Min.X r0.Max.X,
             Y := WarpPointerToRectanglePad.set p.Y r0.Min.Y r0.Max.Y }) := by
  rcases Int.lt_or_le (max - min) 10 with hs | hs
  · have e : ∀ u, WarpPointerToRectanglePad.set u min max = min + (max - min) / 2 :=
      fun u => set_small u min max hmin hmax h hs
    refine ⟨?_, fun _ => e v, fun hl => absurd hs (by omega), ?_, fun p r0 => rfl⟩
    · rw [e v]; omega
    · rw [e v, e]
  · have e : ∀ u, WarpPointerToRectanglePad.set u min max =
        if u < min + 5 then min + 5 else if u > max - 5 then max - 5 else u :=
      fun u => set_large u min max hmin hmax hs hw
    refine ⟨?_, fun hl => absurd hl (by omega), fun _ => ⟨?_, ?_, ?_, ?_, ?_⟩, ?_,
      fun p r0 => rfl⟩
    · rw [e v]; split_ifs <;> omega
    · rw [e v]; split_ifs <;> omega
    · intro h1 h2; rw [e v, if_neg (by omega), if_neg (by omega)]
    · intro h1; rw [e v, if_pos h1]
    · intro h1; rw [e v, if_neg (by omega), if_pos (by omega)]
    · intro b hb
      rw [e v]
      rcases hb with rfl | rfl <;> split_ifs <;> simp only [abs_le, le_abs] <;> omega
    · rw [e (WarpPointerToRectanglePad.set v min max), e v]
      split_ifs <;> omega

/-- C25 (amended) at v = 300 and the interval [0, 100]: the result is 95. -/
theorem C25_WarpPointerToRectanglePad_set_amended_witness :
    (0 ≤ WarpPointerToRectanglePad.set 300 0 100 ∧
      WarpPointerToRectanglePad.set 300 0 100 ≤ 100) ∧
    WarpPointerToRectanglePad.set 300 0 100 = 95 :=
  ⟨(C25_WarpPointerToRectanglePad_set_amended 300 0 100 (by decide) (by decide) (by decide)
      (by decide)).1,
    ((C25_WarpPointerToRectanglePad_set_amended 300 0 100 (by decide) (by decide) (by decide)
      (by decide)).2.2.1 (by decide)).2.2.2.1 (by decide)⟩

end UI
